import Mathlib

/-!
# Recursive Markdown parser: embedding of `nodes.go` and `parser.go`

A Go `string` is a sequence of bytes.  Bytes and runes are represented by their
numeric value (`Nat`); every rune the parser holds is either a byte of the input or
the `EOF` sentinel `0`.  Go run-time panics (slice or index out of range, call of a
nil function, use of a nil node) are explicit error results, and the recursion of the
builders through the dispatch table is bounded by a fuel argument.
-/

namespace MarkdownParser

/-- A Go string: its bytes, each given by its value. -/
abbrev GoString := List Nat

/-- The bytes of an ASCII string literal of the source. -/
def lit (s : String) : GoString := s.toList.map Char.toNat

/-! ## nodes.go -/

/-- The `NodeType` constants of `nodes.go`.  `Heading0` stands for the value `"h0"`,
which is not a declared constant but can be produced by `headingType`
(`fmt.Sprintf("h%v", index)` with `index = 0`). -/
inductive NodeType
  | Code | Image | Link | Bold | Div
  | Heading1 | Heading2 | Heading3 | Heading4 | Heading5 | Heading6
  | Italic | ListElement | OrderedList | Paragraph | Quote | UnorderedList
  | PlainText | Escaped
  | Heading0
  deriving DecidableEq, Repr

/-- The string value of a `NodeType` (what `%v` prints). -/
def NodeType.tag : NodeType → GoString
  | .Code => lit "code"
  | .Image => lit "img"
  | .Link => lit "a"
  | .Bold => lit "b"
  | .Div => lit "div"
  | .Heading1 => lit "h1"
  | .Heading2 => lit "h2"
  | .Heading3 => lit "h3"
  | .Heading4 => lit "h4"
  | .Heading5 => lit "h5"
  | .Heading6 => lit "h6"
  | .Italic => lit "i"
  | .ListElement => lit "li"
  | .OrderedList => lit "ol"
  | .Paragraph => lit "p"
  | .Quote => lit "blockquote"
  | .UnorderedList => lit "ul"
  | .PlainText => lit ""
  | .Escaped => lit "escaped"
  | .Heading0 => lit "h0"

/-- The entries of a `map[string]string`, in the order of the map literal.
A nil map has no entries. -/
abbrev Properties := List (GoString × GoString)

/-- The two implementations of the `HtmlNode` interface: `LeafNode` and `ParentNode`. -/
inductive HtmlNode
  | leaf (value : GoString) (nodeType : NodeType) (properties : Properties)
  | parent (nodeType : NodeType) (childNodes : List HtmlNode)
  deriving Repr

/-- Go does not specify the order in which `range` visits the entries of a map, and the
order may differ from one `range` to the next.  A `RangeOrder` is one choice of the
run time for a `range`: an arrangement of the entries of the map it ranges over.
`toHtml ro` below lets every `range` of a serialization use the same `ro`; `toHtmlFrom`
further down gives every `range` an order of its own. -/
structure RangeOrder where
  order : Properties → Properties
  perm : ∀ m, (order m).Perm m

/-- The run time visits the entries in the order of the map literal. -/
def RangeOrder.literal : RangeOrder := ⟨fun m => m, fun m => List.Perm.refl m⟩

/-- The run time visits the entries in the opposite order. -/
def RangeOrder.reversed : RangeOrder := ⟨fun m => m.reverse, fun m => List.reverse_perm m⟩

/-- `LeafNode.propertiesToHtml`: `" key=value"` for each entry visited by `range`. -/
def propertiesToHtml (ro : RangeOrder) (properties : Properties) : GoString :=
  (ro.order properties).foldl
    (fun out kv => out ++ (lit " " ++ kv.1 ++ lit "=" ++ kv.2)) []

mutual
/-- `LeafNode.toHtml` and `ParentNode.toHtml`, every `range` using the order `ro`. -/
def HtmlNode.toHtml (ro : RangeOrder) : HtmlNode → GoString
  | .leaf value nodeType properties =>
    match nodeType with
    | .Code | .Link =>
      lit "<" ++ nodeType.tag ++ propertiesToHtml ro properties ++ lit ">" ++ value
        ++ lit "</" ++ nodeType.tag ++ lit ">"
    | .Image => lit "<" ++ nodeType.tag ++ propertiesToHtml ro properties ++ lit "/>"
    | _ => value
  | .parent nodeType childNodes =>
    (if nodeType ≠ .PlainText then lit "<" ++ nodeType.tag ++ lit ">" else [])
      ++ childrenToHtml ro childNodes
      ++ (if nodeType ≠ .PlainText then lit "</" ++ nodeType.tag ++ lit ">" else [])
/-- The loop of `ParentNode.toHtml` over `childNodes`. -/
def childrenToHtml (ro : RangeOrder) : List HtmlNode → GoString
  | [] => []
  | child :: rest => child.toHtml ro ++ childrenToHtml ro rest
end

/-! ## parser.go -/

def EOF : Nat := 0
def PeekOnce : Nat := 0
def PeekTwice : Nat := 1

/-- The scanner fields of `Parser` (the dispatch table is `parsingFuncs` below). -/
structure Parser where
  input : GoString
  current : Nat
  peek : Nat
  ch : Nat
  deriving DecidableEq, Repr

/-- What stops the Go program, or the model, short of a result. -/
inductive Err
  | outOfRange
  | nilFunc
  | nilNode
  | outOfFuel
  deriving DecidableEq, Repr

/-- The slice expression `s[lo:hi]`, which panics unless `lo ≤ hi ≤ len(s)`. -/
def slice (s : GoString) (lo hi : Nat) : Except Err GoString :=
  if lo ≤ hi ∧ hi ≤ s.length then pure ((s.take hi).drop lo) else throw .outOfRange

/-- The index expression `s[i]`, which panics unless `i < len(s)`. -/
def index (s : GoString) (i : Nat) : Except Err Nat :=
  match s.get? i with
  | some b => pure b
  | none => throw .outOfRange

/-- The conversion `string(b)` of a byte: the UTF-8 encoding of the code point `b`. -/
def byteToString (b : Nat) : GoString :=
  if b < 128 then [b] else [192 + b / 64, 128 + b % 64]

def readChar (p : Parser) : Parser :=
  if p.peek ≥ p.input.length then { p with ch := EOF }
  else { p with current := p.peek, ch := p.input.getD p.peek 0, peek := p.peek + 1 }

def readX : Nat → Parser → Parser
  | 0, p => p
  | total + 1, p => readX total (readChar p)

def readFromIndex (p : Parser) (index : Nat) : Nat :=
  if index ≥ p.input.length then EOF else p.input.getD index 0

def peekCharX (p : Parser) (amount : Nat) : Nat :=
  let offset := p.peek + amount
  if offset ≥ p.input.length then EOF else p.input.getD offset 0

def peekPreviousX (p : Parser) (amount : Nat) : Except Err Nat :=
  let offset : Int := (p.current : Int) - (amount : Int)
  if offset < 0 then index p.input 0
  else if offset ≥ (p.input.length : Int) then pure EOF
  else index p.input offset.toNat

def isDigit (ch : Nat) : Bool := decide (ch ≥ 48) && decide (ch ≤ 57)

/-- The loop of `isOrderedIdent`, run on the input from `index` on: the first index at
which `readFromIndex` is not a digit (`EOF`, read past the end, is not a digit). -/
def skipDigits : List Nat → Nat → Nat
  | [], index => index
  | char :: rest, index => if !isDigit char then index else skipDigits rest (index + 1)

def isOrderedIdent (p : Parser) : Bool :=
  let index := skipDigits (p.input.drop p.current) p.current
  let next := index + 1
  readFromIndex p index == 46 && readFromIndex p next == 32

/-- The loop of `headingType`, run on the input from index 0 on. -/
def countHashes : List Nat → Nat → Nat
  | [], index => index
  | current :: rest, index =>
    if current ≠ 35 ∨ current = EOF then index else countHashes rest (index + 1)

def headingType (p : Parser) : NodeType :=
  let index := countHashes p.input 0
  if index ≥ 6 then .Heading6
  else match index with
    | 0 => .Heading0
    | 1 => .Heading1
    | 2 => .Heading2
    | 3 => .Heading3
    | 4 => .Heading4
    | _ => .Heading5

def blockType (p : Parser) : NodeType :=
  if p.ch = 62 then
    if peekCharX p PeekOnce = 32 then .Quote else .Paragraph
  else if p.ch = 45 then
    if peekCharX p PeekOnce = 32 then .UnorderedList else .Paragraph
  else if p.ch = 35 then headingType p
  else if isDigit p.ch && isOrderedIdent p then .OrderedList
  else .Paragraph

def consumeBlockHeading (p : Parser) (blockType : NodeType) : Parser :=
  match blockType with
  | .Quote => readX 2 p
  | .Heading1 => readX 2 p
  | .Heading2 => readX 3 p
  | .Heading3 => readX 4 p
  | .Heading4 => readX 5 p
  | .Heading5 => readX 6 p
  | .Heading6 => readX 7 p
  | _ => p

def isIdent (p : Parser) : NodeType :=
  if p.ch = 42 then
    if peekCharX p PeekOnce = 42 then .Bold else .Italic
  else if p.ch = 96 then
    if peekCharX p PeekOnce = 96 ∧ peekCharX p PeekTwice = 96 then .Code else .PlainText
  else if p.ch = 33 then
    if peekCharX p PeekOnce = 91 then .Image else .PlainText
  else if p.ch = 91 then .Link
  else if p.ch = 45 then
    if peekCharX p PeekOnce = 32 then .UnorderedList else .PlainText
  else if p.ch = 92 then .Escaped
  else if isDigit p.ch && isOrderedIdent p then .OrderedList
  else .PlainText

def checkBoldNode (p : Parser) : Bool :=
  p.ch == 42 && peekCharX p PeekOnce == 42 && peekCharX p PeekTwice != 42

def checkUnterminatedExceptions (p : Parser) (nodeType : NodeType) : Bool :=
  let case1 := p.ch == EOF
  let case2 := nodeType != .Quote
  let case3 := nodeType != .ListElement
  let case4 :=
    match nodeType with
    | .Heading1 | .Heading2 | .Heading3 | .Heading4 | .Heading5 | .Heading6 => false
    | _ => true
  case1 && case2 && case3 && case4

def imageLinkChecks (p : Parser) (functionStart : Nat) : Except Err (Option HtmlNode) := do
  let subString ← slice p.input functionStart p.peek
  if p.ch = EOF then do
    let previous ← peekPreviousX p PeekOnce
    if previous ≠ 41 then pure (some (.leaf subString .PlainText [])) else pure none
  else do
    let previous ← peekPreviousX p PeekTwice
    if previous ≠ 41 then pure (some (.leaf subString .PlainText [])) else pure none

/-- A builder of the dispatch table: `ParseFunc`, acting on the parser it closes over. -/
abbrev ParseFunc := Parser → Except Err (HtmlNode × Parser)

/-- The parser together with the `start` and `children` variables of the scanning loops. -/
abbrev LoopState := Parser × Nat × List HtmlNode

def buildNestedorRead (parsingFuncs : NodeType → Option ParseFunc) (s : LoopState) :
    Except Err LoopState := do
  let (p, start, targetSlice) := s
  let substring ← slice p.input start p.current
  let ident := isIdent p
  if ident = .Escaped then
    let targetSlice :=
      if start < p.current then targetSlice ++ [.leaf substring .PlainText []] else targetSlice
    let p := readChar p
    let escapedChar := byteToString (← index p.input p.current)
    let targetSlice := targetSlice ++ [.leaf escapedChar .PlainText []]
    let p := readChar p
    pure (p, p.current, targetSlice)
  else if ident ≠ .PlainText then
    let parseFunc := parsingFuncs ident
    let targetSlice :=
      if start < p.current then targetSlice ++ [.leaf substring .PlainText []] else targetSlice
    match parseFunc with
    | none => throw .nilFunc
    | some f =>
      let (node, p) ← f p
      pure (p, p.current, targetSlice ++ [node])
  else
    pure (readChar p, start, targetSlice)

/-- The loop `for p.ch != EOF { if breakCondition() { break }; p.buildNestedorRead(..) }`
of `parseChildren`; the loop of `parse` is the same with a break condition that never
holds.  `fuel` bounds the number of iterations. -/
def scanLoop (parsingFuncs : NodeType → Option ParseFunc) (breakCondition : Parser → Bool) :
    Nat → LoopState → Except Err LoopState
  | 0, s => if s.1.ch = EOF ∨ breakCondition s.1 then pure s else throw .outOfFuel
  | fuel + 1, s =>
    if s.1.ch = EOF ∨ breakCondition s.1 then pure s
    else do
      let s ← buildNestedorRead parsingFuncs s
      scanLoop parsingFuncs breakCondition fuel s

def parseChildren (parsingFuncs : NodeType → Option ParseFunc) (fuel : Nat) (identSize : Nat)
    (breakCondition : Parser → Bool) (nodeType : NodeType) (p : Parser) :
    Except Err (HtmlNode × Parser) := do
  let functionStart := p.current
  let p := readX identSize p
  let start := p.current
  let (p, start, children) ← scanLoop parsingFuncs breakCondition fuel (p, start, [])
  if checkUnterminatedExceptions p nodeType then do
    let value ← slice p.input functionStart p.peek
    pure (.parent .PlainText [.leaf value .PlainText []], p)
  else do
    let offset := if nodeType = .Paragraph then 1 else 0
    let children ←
      if start < p.current then do
        let value ← slice p.input start (p.current + offset)
        pure (children ++ [.leaf value .PlainText []])
      else pure children
    let p := readX identSize p
    pure (.parent nodeType children, p)

def parseBold (parsingFuncs : NodeType → Option ParseFunc) (fuel : Nat) : ParseFunc :=
  parseChildren parsingFuncs fuel 2
    (fun p => p.ch == 42 && peekCharX p PeekOnce == 42) .Bold

def parseCode (parsingFuncs : NodeType → Option ParseFunc) (fuel : Nat) : ParseFunc :=
  parseChildren parsingFuncs fuel 3
    (fun p => p.ch == 96 && peekCharX p PeekOnce == 96 && peekCharX p PeekTwice == 96) .Code

def parseEscaped : ParseFunc := fun p => do
  let p := readChar p
  let value := byteToString (← index p.input p.current)
  let newLeaf := HtmlNode.leaf value .PlainText []
  let p := readChar p
  pure (newLeaf, p)

def parseItalic (parsingFuncs : NodeType → Option ParseFunc) (fuel : Nat) : ParseFunc :=
  parseChildren parsingFuncs fuel 1
    (fun p => p.ch == 42 && peekCharX p PeekOnce != 42) .Italic

def parseImageLink (ro : RangeOrder) (parsingFuncs : NodeType → Option ParseFunc) (fuel : Nat)
    (nodeType : NodeType) : ParseFunc := fun p => do
  let functionStart := p.current
  let endReads := 1
  let childType := NodeType.PlainText
  let p := if nodeType = .Image then readChar p else p
  let (prefixNode, p) ← parseChildren parsingFuncs fuel endReads (fun p => p.ch == 93) childType p
  if p.ch ≠ 40 then do
    let value ← slice p.input functionStart p.current
    pure (.leaf value .PlainText [], p)
  else do
    let (srcNode, p) ← parseChildren parsingFuncs fuel endReads (fun p => p.ch == 41) childType p
    let textNode ← imageLinkChecks p functionStart
    match textNode with
    | some textNode => pure (textNode, p)
    | none =>
      match nodeType with
      | .Image =>
        pure (.leaf [] .Image
          [(lit "alt", prefixNode.toHtml ro), (lit "src", srcNode.toHtml ro)], p)
      | .Link =>
        pure (.leaf (prefixNode.toHtml ro) .Link [(lit "href", srcNode.toHtml ro)], p)
      | _ => throw .nilNode

/-- The loop `for p.isDigit(&p.ch) { p.readChar() }` of `parseOrderedList`. -/
def consumeDigits : Nat → Parser → Except Err Parser
  | 0, p => if isDigit p.ch then throw .outOfFuel else pure p
  | fuel + 1, p => if isDigit p.ch then consumeDigits fuel (readChar p) else pure p

def parseOrderedList (parsingFuncs : NodeType → Option ParseFunc) (fuel : Nat) : ParseFunc :=
  fun p => do
    let p ← consumeDigits p.input.length p
    let p := readX 2 p
    parseChildren parsingFuncs fuel 0 isOrderedIdent .ListElement p

def parseUnorderedList (parsingFuncs : NodeType → Option ParseFunc) (fuel : Nat) : ParseFunc :=
  fun p =>
    let p := readX 2 p
    parseChildren parsingFuncs fuel 0
      (fun p => p.ch == 45 && peekCharX p PeekOnce == 32) .ListElement p

def boldItalicNode (parsingFuncs : NodeType → Option ParseFunc) (fuel : Nat) : ParseFunc :=
  fun p =>
    if checkBoldNode p then parseBold parsingFuncs fuel p
    else parseItalic parsingFuncs fuel p

/-- The kinds `NewParser` registers a builder for. -/
def registered : NodeType → Bool
  | .Bold | .Italic | .Image | .Link | .Code | .UnorderedList | .OrderedList | .Escaped => true
  | _ => false

/-- The dispatch table filled by `NewParser`.  The builders call back into the table;
`fuel` bounds the depth of these calls, and a builder reached with no fuel left stops
with `outOfFuel`. -/
def parsingFuncs (ro : RangeOrder) : Nat → NodeType → Option ParseFunc
  | 0, nodeType => if registered nodeType then some (fun _ => throw .outOfFuel) else none
  | fuel + 1, nodeType =>
    match nodeType with
    | .Bold => some (boldItalicNode (parsingFuncs ro fuel) fuel)
    | .Italic => some (boldItalicNode (parsingFuncs ro fuel) fuel)
    | .Image => some (parseImageLink ro (parsingFuncs ro fuel) fuel .Image)
    | .Link => some (parseImageLink ro (parsingFuncs ro fuel) fuel .Link)
    | .Code => some (parseCode (parsingFuncs ro fuel) fuel)
    | .UnorderedList => some (parseUnorderedList (parsingFuncs ro fuel) fuel)
    | .OrderedList => some (parseOrderedList (parsingFuncs ro fuel) fuel)
    | .Escaped => some parseEscaped
    | _ => none

/-- The scanner state set up by `NewParser`. -/
def NewParser (input : GoString) : Parser :=
  readChar { input := input, current := 0, peek := 0, ch := 0 }

def parse (ro : RangeOrder) (fuel : Nat) (p : Parser) : Except Err HtmlNode := do
  let rootType := blockType p
  let p := consumeBlockHeading p rootType
  let start := p.current
  let (p, start, children) ← scanLoop (parsingFuncs ro fuel) (fun _ => false) fuel (p, start, [])
  let children ←
    if start < p.current then do
      let value ← slice p.input start p.peek
      pure (children ++ [.leaf value .PlainText []])
    else pure children
  pure (.parent rootType children)

/-- The tree `NewParser(&input).parse()`; the fuel `len(input) + 1` is enough for
every input. -/
def parseInput (ro : RangeOrder) (input : GoString) : Except Err HtmlNode :=
  parse ro (input.length + 1) (NewParser input)

/-- The string `NewParser(&input).parse().toHtml()` of `eval.go` and `files.go`. -/
def parseToHtml (ro : RangeOrder) (input : GoString) : Except Err GoString := do
  let node ← parseInput ro input
  pure (node.toHtml ro)

/-! ## Notions used to state and prove the properties -/

/-- The scanner indices are in step and within the input. -/
def WF (p : Parser) : Prop := p.peek = p.current + 1 ∧ p.peek ≤ p.input.length

/-- The unread part of the input, counting the character under the cursor. -/
def remaining (p : Parser) : Nat := (p.input.length - p.peek) + (if p.ch = EOF then 0 else 1)

/-- The scanner moved forward over the same input. -/
def Adv (p q : Parser) : Prop :=
  q.input = p.input ∧ WF q ∧ p.current ≤ q.current ∧ remaining q ≤ remaining p

/-- A computation returns a result satisfying `Q`. -/
def Returns {α : Type} (x : Except Err α) (Q : α → Prop) : Prop := ∃ a, x = .ok a ∧ Q a

/-- A builder that, called off `EOF` with at most `n` characters unread, returns a node
and leaves fewer characters unread. -/
def GoodFunc (f : ParseFunc) (n : Nat) : Prop :=
  ∀ p, WF p → p.ch ≠ EOF → remaining p ≤ n →
    Returns (f p) (fun r => Adv p r.2 ∧ remaining r.2 < remaining p)

/-- A dispatch table whose builders for the construct kinds are all present and good. -/
def TableOK (pf : NodeType → Option ParseFunc) (n : Nat) : Prop :=
  ∀ k, k ≠ .PlainText → k ≠ .Escaped → registered k = true →
    ∃ f, pf k = some f ∧ GoodFunc f n

/-- A character that starts no construct and ends none: not `*`, a backtick, `!`, `[`,
`]`, `(`, `)`, `-`, a backslash, `#`, `>`, a digit or the zero character. -/
def plainChar (c : Nat) : Bool :=
  c != 42 && c != 96 && c != 33 && c != 91 && c != 93 && c != 40 && c != 41 && c != 45
    && c != 92 && c != 35 && c != 62 && !isDigit c && c != 0

/-- Plain text: every character is plain. -/
def Plain (t : GoString) : Prop := ∀ c ∈ t, plainChar c = true

/-- The scanner resting on the first character of `rest`, with `pre` behind it. -/
def cursor (pre rest : GoString) : Parser :=
  { input := pre ++ rest, current := pre.length, peek := pre.length + 1, ch := rest.headD 0 }

/-- The scanner after `readChar` ran off the end: it rests on the last character `c`
and reports `EOF`. -/
def cursorEnd (pre : GoString) (c : Nat) : Parser :=
  { input := pre ++ [c], current := pre.length, peek := pre.length + 1, ch := EOF }

/-- The leaf that holds a pending text span, if the span is not empty. -/
def textLeaf (t : GoString) : List HtmlNode := if t = [] then [] else [.leaf t .PlainText []]

/-- The leaf `parseImageLink` builds from a label and a target. -/
def imageLinkLeaf (nodeType : NodeType) (label target : GoString) : HtmlNode :=
  match nodeType with
  | .Image => .leaf [] .Image [(lit "alt", label), (lit "src", target)]
  | _ => .leaf label .Link [(lit "href", target)]

instance (t : GoString) : Decidable (Plain t) := by
  unfold Plain
  infer_instance

/-- The attribute text of a leaf as the specification words it: a space, the name, `=`
and the value, for each attribute in turn. -/
def attrsSpec : Properties → GoString
  | [] => []
  | (name, value) :: rest => lit " " ++ name ++ lit "=" ++ value ++ attrsSpec rest

/-- The serialization of a leaf as the specification words it, given its attribute text. -/
def leafToHtmlSpec (kind : NodeType) (value attrs : GoString) : GoString :=
  if kind = .Code ∨ kind = .Link then
    lit "<" ++ kind.tag ++ attrs ++ lit ">" ++ value ++ lit "</" ++ kind.tag ++ lit ">"
  else if kind = .Image then lit "<" ++ kind.tag ++ attrs ++ lit "/>"
  else value

/-- The concatenation, in order, of a list of strings. -/
def concatAll : List GoString → GoString
  | [] => []
  | s :: rest => s ++ concatAll rest

/-- The heading kind of level `k`, for `k` from 1 to 6. -/
def headingOfLevel : Nat → NodeType
  | 1 => .Heading1
  | 2 => .Heading2
  | 3 => .Heading3
  | 4 => .Heading4
  | 5 => .Heading5
  | _ => .Heading6

/-- The input starts with the given characters. -/
def startsWith (input pattern : GoString) : Bool := input.take pattern.length == pattern

/-- The length of the run of `#` characters the input starts with. -/
def leadingHashes (input : GoString) : Nat := (input.takeWhile (fun c => c == 35)).length

/-- The length of the run of digits the input starts with. -/
def leadingDigits (input : GoString) : Nat := (input.takeWhile isDigit).length

/-- The kind of a block as the specification words it: Quote for `> `, UnorderedList for
`- `, the heading of level `min k 6` for a run of exactly `k ≥ 1` characters `#`,
OrderedList for one or more digits followed by `. `, Paragraph otherwise. -/
def blockTypeSpec (input : GoString) : NodeType :=
  if startsWith input (lit "> ") then .Quote
  else if startsWith input (lit "- ") then .UnorderedList
  else if 1 ≤ leadingHashes input then headingOfLevel (min (leadingHashes input) 6)
  else if 1 ≤ leadingDigits input ∧ startsWith (input.drop (leadingDigits input)) (lit ". ")
    then .OrderedList
  else .Paragraph

/-- The decimal numeral of `n`. -/
def decimal (n : Nat) : GoString := (Nat.toDigits 10 n).map Char.toNat

/-- The block of an ordered list whose items are numbered from `k` on: each item is its
number, `. ` and its text, and the items are joined by a newline. -/
def orderedBlock : Nat → List GoString → GoString
  | _, [] => []
  | k, [t] => decimal k ++ lit ". " ++ t
  | k, t :: next :: rest =>
    decimal k ++ lit ". " ++ t ++ lit "\n" ++ orderedBlock (k + 1) (next :: rest)

/-- A letter of the ASCII alphabet or a space. -/
def letterOrSpace (c : Nat) : Bool :=
  (decide (65 ≤ c) && decide (c ≤ 90)) || (decide (97 ≤ c) && decide (c ≤ 122)) || c == 32

/-- The scanner state `q` is the state `p` after some number of `readChar` calls. -/
def ReadFrom (p q : Parser) : Prop := ∃ n, q = readX n p

/-- A dispatch table whose builders move the scanner by `readChar` calls only. -/
def TableReads (pf : NodeType → Option ParseFunc) : Prop :=
  ∀ (k : NodeType) (f : ParseFunc) (p : Parser) (node : HtmlNode) (q : Parser),
    pf k = some f → f p = .ok (node, q) → ReadFrom p q

/-- The scanner invariant of the specification, for a scanner over `input`: `current` is
an index of the input, `peek` is one past it and within the length, and `ch` mirrors the
character under the cursor unless it reports `EOF`. -/
def ScannerInv (input : GoString) (p : Parser) : Prop :=
  p.input = input ∧ p.current < input.length ∧ p.peek = p.current + 1 ∧
    p.peek ≤ input.length ∧ (p.ch ≠ EOF → input.get? p.current = some p.ch)

/-- The scanner states the parser can be in on a given input: the state `NewParser` sets
up, and every state that `readChar`, `readX`, a scanning step or loop, `parseChildren` or
a builder of the dispatch table returns when started in such a state. -/
inductive Reachable (input : GoString) : Parser → Prop
  | init : Reachable input (NewParser input)
  | readChar {p : Parser} : Reachable input p → Reachable input (readChar p)
  | readX {p : Parser} (total : Nat) : Reachable input p → Reachable input (readX total p)
  | consumeBlockHeading {p : Parser} (kind : NodeType) :
    Reachable input p → Reachable input (consumeBlockHeading p kind)
  | buildNestedorRead {p q : Parser} (ro : RangeOrder) (fuel start start' : Nat)
      (children children' : List HtmlNode) : Reachable input p →
    buildNestedorRead (parsingFuncs ro fuel) (p, start, children) = .ok (q, start', children') →
    Reachable input q
  | parseChildren {p q : Parser} (ro : RangeOrder) (fuel identSize : Nat)
      (breakCondition : Parser → Bool) (nodeType : NodeType) (node : HtmlNode) :
    Reachable input p →
    parseChildren (parsingFuncs ro fuel) fuel identSize breakCondition nodeType p
      = .ok (node, q) →
    Reachable input q
  | builder {p q : Parser} (ro : RangeOrder) (fuel : Nat) (kind : NodeType) (f : ParseFunc)
      (node : HtmlNode) : Reachable input p →
    parsingFuncs ro fuel kind = some f → f p = .ok (node, q) → Reachable input q

/-! ## files.go, with the library functions it calls -/

/-- The library function `strings.HasPrefix(s, prefix)`. -/
def stringsHasPrefix (s pre : GoString) : Bool := s.take pre.length == pre

/-- The library function `strings.Contains(s, substr)`: `substr` occurs at some position
of `s`. -/
def stringsContains : GoString → GoString → Bool
  | [], substr => substr.isEmpty
  | c :: rest, substr => stringsHasPrefix (c :: rest) substr || stringsContains rest substr

/-- The scan of `strings.Split(s, sep)` for a non-empty separator, from left to right:
`skip` counts the characters of a separator just found that are still to be passed over,
and `piece` is the substring gathered since the last separator. -/
def splitLoop (sep : GoString) : GoString → Nat → GoString → List GoString
  | [], _, piece => [piece]
  | _ :: rest, skip + 1, piece => splitLoop sep rest skip piece
  | c :: rest, 0, piece =>
    if stringsHasPrefix (c :: rest) sep then piece :: splitLoop sep rest (sep.length - 1) []
    else splitLoop sep rest 0 (piece ++ [c])

/-- The library function `strings.Split(s, sep)` for a non-empty separator: the substrings
of `s` between the occurrences of `sep`, found from left to right without overlap. -/
def stringsSplit (s sep : GoString) : List GoString := splitLoop sep s 0 []

/-- The index expression `parts[i]` on a slice of strings, which panics unless
`i < len(parts)`. -/
def indexParts (parts : List GoString) (i : Nat) : Except Err GoString :=
  match parts.get? i with
  | some s => pure s
  | none => throw .outOfRange

def getTitle (parsedData : GoString) : Except Err GoString :=
  if stringsContains parsedData (lit "h1") then do
    let afterOpen ← indexParts (stringsSplit parsedData (lit "<h1>")) 1
    indexParts (stringsSplit afterOpen (lit "</h1>")) 0
  else pure (lit "Page")

/-! ## Further notions used to state and prove the properties -/

/-- The scanner reports `EOF` only at the end of the input. -/
def EofAtEnd (input : GoString) (p : Parser) : Prop :=
  p.input = input ∧ (p.ch = EOF → input.length ≤ p.peek)

mutual
/-- No node of the tree has kind Escaped or Div, and every leaf has kind PlainText, Image
or Link. -/
def HtmlNode.kindsOk : HtmlNode → Bool
  | .leaf _ nodeType _ =>
    match nodeType with
    | .PlainText | .Image | .Link => true
    | _ => false
  | .parent nodeType childNodes =>
    match nodeType with
    | .Escaped | .Div => false
    | _ => childrenKindsOk childNodes
/-- Every node of every tree in the list satisfies `kindsOk`. -/
def childrenKindsOk : List HtmlNode → Bool
  | [] => true
  | child :: rest => child.kindsOk && childrenKindsOk rest
end

/-- The kinds a root may have: Paragraph, Quote, UnorderedList, OrderedList and the six
headings. -/
def rootKind : NodeType → Bool
  | .Paragraph | .Quote | .UnorderedList | .OrderedList
  | .Heading1 | .Heading2 | .Heading3 | .Heading4 | .Heading5 | .Heading6 => true
  | _ => false

/-- A dispatch table whose builders return trees that satisfy `kindsOk`. -/
def TableKinds (pf : NodeType → Option ParseFunc) : Prop :=
  ∀ (k : NodeType) (f : ParseFunc) (p : Parser) (node : HtmlNode) (q : Parser),
    pf k = some f → f p = .ok (node, q) → node.kindsOk = true

/-- The block of an unordered list: each item is `- ` and its text, and the items are
joined by a newline. -/
def unorderedBlock : List GoString → GoString
  | [] => []
  | [t] => lit "- " ++ t
  | t :: next :: rest => lit "- " ++ t ++ lit "\n" ++ unorderedBlock (next :: rest)

/-- The list items the parser builds from the item texts of an unordered list block: every
item but the last holds its text and the newline that follows it, and the last item holds
its text without the last character. -/
def builtItems : List GoString → List HtmlNode
  | [] => []
  | [t] => [.parent .ListElement (textLeaf t.dropLast)]
  | t :: next :: rest =>
    .parent .ListElement (textLeaf (t ++ lit "\n")) :: builtItems (next :: rest)

/-! ## Serialization with an order of its own for every `range`

Go picks an iteration order each time it executes a `range` over a map, so two leaves with
equal maps, or one leaf serialized twice, may list their attributes in different orders.
Here the `n`-th `range` executed uses the order `choices n`; `toHtml ro` above is the case
where every `range` uses the same `ro`. -/

mutual
/-- `LeafNode.toHtml` and `ParentNode.toHtml` when the ranges executed are numbered from
`n` on and the `k`-th one uses the order `choices k`: the string returned, and the number
of the next `range`. -/
def HtmlNode.toHtmlFrom (choices : Nat → RangeOrder) : Nat → HtmlNode → GoString × Nat
  | n, .leaf value nodeType properties =>
    match nodeType with
    | .Code | .Link =>
      (lit "<" ++ nodeType.tag ++ propertiesToHtml (choices n) properties ++ lit ">" ++ value
        ++ lit "</" ++ nodeType.tag ++ lit ">", n + 1)
    | .Image =>
      (lit "<" ++ nodeType.tag ++ propertiesToHtml (choices n) properties ++ lit "/>", n + 1)
    | _ => (value, n)
  | n, .parent nodeType childNodes =>
    ((if nodeType ≠ .PlainText then lit "<" ++ nodeType.tag ++ lit ">" else [])
      ++ (childrenToHtmlFrom choices n childNodes).1
      ++ (if nodeType ≠ .PlainText then lit "</" ++ nodeType.tag ++ lit ">" else []),
      (childrenToHtmlFrom choices n childNodes).2)
/-- The loop of `ParentNode.toHtml` over `childNodes`, every child continuing with the
ranges that follow those of the children before it. -/
def childrenToHtmlFrom (choices : Nat → RangeOrder) : Nat → List HtmlNode → GoString × Nat
  | n, [] => ([], n)
  | n, child :: rest =>
    ((child.toHtmlFrom choices n).1
        ++ (childrenToHtmlFrom choices (child.toHtmlFrom choices n).2 rest).1,
      (childrenToHtmlFrom choices (child.toHtmlFrom choices n).2 rest).2)
end

mutual
/-- No leaf of the tree has more than one attribute, so that no `range` has a choice. -/
def HtmlNode.orderFree : HtmlNode → Bool
  | .leaf _ _ properties => decide (properties.length ≤ 1)
  | .parent _ childNodes => childrenOrderFree childNodes
/-- Every tree in the list satisfies `orderFree`. -/
def childrenOrderFree : List HtmlNode → Bool
  | [] => true
  | child :: rest => child.orderFree && childrenOrderFree rest
end

/-! ## Properties -/

theorem Returns.bind {α β : Type} {x : Except Err α} {f : α → Except Err β} {Q : α → Prop}
    {R : β → Prop} (hx : Returns x Q) (hf : ∀ a, Q a → Returns (f a) R) :
    Returns (x >>= f) R := by
  obtain ⟨a, rfl, ha⟩ := hx
  exact hf a ha

theorem Returns.pure {α : Type} {a : α} {Q : α → Prop} (h : Q a) :
    Returns (Pure.pure a : Except Err α) Q := ⟨a, rfl, h⟩

theorem Returns.mono {α : Type} {x : Except Err α} {Q R : α → Prop} (hx : Returns x Q)
    (h : ∀ a, Q a → R a) : Returns x R := by
  obtain ⟨a, e, ha⟩ := hx
  exact ⟨a, e, h a ha⟩

theorem Adv.refl {p : Parser} (h : WF p) : Adv p p := ⟨rfl, h, le_refl _, le_refl _⟩

theorem Adv.trans {p q r : Parser} (h1 : Adv p q) (h2 : Adv q r) : Adv p r :=
  ⟨h2.1.trans h1.1, h2.2.1, le_trans h1.2.2.1 h2.2.2.1, le_trans h2.2.2.2 h1.2.2.2⟩

theorem readChar_adv {p : Parser} (h : WF p) : Adv p (readChar p) := by
  obtain ⟨h1, h2⟩ := h
  unfold readChar
  split
  · refine ⟨rfl, ⟨h1, h2⟩, le_refl _, ?_⟩
    simp [remaining, EOF]
  · refine ⟨rfl, ⟨rfl, ?_⟩, ?_, ?_⟩
    · simp only; omega
    · simp only; omega
    · simp only [remaining]
      split <;> split <;> omega

theorem readChar_lt {p : Parser} (h : WF p) (hc : p.ch ≠ EOF) :
    remaining (readChar p) < remaining p := by
  obtain ⟨h1, h2⟩ := h
  unfold readChar
  split
  · have hc0 : p.ch ≠ 0 := hc
    simp [remaining, EOF, hc0]
  · simp only [remaining, if_neg hc]
    split <;> omega

theorem readX_adv (n : Nat) {p : Parser} (h : WF p) : Adv p (readX n p) := by
  induction n generalizing p with
  | zero => exact Adv.refl h
  | succ n ih => exact (readChar_adv h).trans (ih (readChar_adv h).2.1)

theorem readX_lt (n : Nat) (hn : 0 < n) {p : Parser} (h : WF p) (hc : p.ch ≠ EOF) :
    remaining (readX n p) < remaining p := by
  obtain ⟨m, rfl⟩ : ∃ m, n = m + 1 := ⟨n - 1, by omega⟩
  exact lt_of_le_of_lt (readX_adv m (readChar_adv h).2.1).2.2.2 (readChar_lt h hc)

theorem slice_returns {s : GoString} {lo hi : Nat} (h1 : lo ≤ hi) (h2 : hi ≤ s.length) :
    Returns (slice s lo hi) (fun _ => True) := by
  unfold slice
  rw [if_pos ⟨h1, h2⟩]
  exact Returns.pure trivial

theorem index_returns {s : GoString} {i : Nat} (h : i < s.length) :
    Returns (index s i) (fun _ => True) := by
  unfold index
  rw [List.get?_eq_get h]
  exact Returns.pure trivial

theorem isIdent_registered (p : Parser) :
    isIdent p = .PlainText ∨ registered (isIdent p) = true := by
  unfold isIdent
  repeat' split
  all_goals simp [registered]

theorem WF.current_lt {p : Parser} (h : WF p) : p.current < p.input.length := by
  have := h.1; have := h.2; omega

theorem buildNestedorRead_returns {pf : NodeType → Option ParseFunc} {n : Nat}
    (hpf : TableOK pf n) {p : Parser} {start : Nat} {children : List HtmlNode}
    (h : WF p) (hs : start ≤ p.current) (hc : p.ch ≠ EOF) (hn : remaining p ≤ n) :
    Returns (buildNestedorRead pf (p, start, children))
      (fun s => Adv p s.1 ∧ remaining s.1 < remaining p ∧ s.2.1 ≤ s.1.current) := by
  unfold buildNestedorRead
  simp only []
  apply Returns.bind (slice_returns hs (le_of_lt h.current_lt))
  intro substring _
  have h1 := readChar_adv h
  have h2 := readChar_adv h1.2.1
  split
  · apply Returns.bind (index_returns (h1.1 ▸ h1.2.1.current_lt))
    intro b _
    exact Returns.pure ⟨h1.trans h2, lt_of_le_of_lt h2.2.2.2 (readChar_lt h hc), le_refl _⟩
  · split
    · rename_i hne hne2
      rcases isIdent_registered p with hp | hr
      · exact absurd hp hne2
      · obtain ⟨f, hf, hgood⟩ := hpf _ hne2 hne hr
        simp only [hf]
        apply Returns.bind (hgood p h hc hn)
        intro r hr
        exact Returns.pure ⟨hr.1, hr.2, le_refl _⟩
    · exact Returns.pure ⟨h1, readChar_lt h hc, le_trans hs h1.2.2.1⟩

theorem scanLoop_returns {pf : NodeType → Option ParseFunc} {n : Nat} (hpf : TableOK pf n)
    (breakCondition : Parser → Bool) (fuel : Nat) {p : Parser} {start : Nat}
    {children : List HtmlNode} (h : WF p) (hs : start ≤ p.current)
    (hn : remaining p ≤ n) (hfuel : remaining p ≤ fuel) :
    Returns (scanLoop pf breakCondition fuel (p, start, children))
      (fun s => Adv p s.1 ∧ s.2.1 ≤ s.1.current) := by
  induction fuel generalizing p start children with
  | zero =>
    unfold scanLoop
    have hc : p.ch = EOF := by
      by_contra hc
      simp [remaining, hc] at hfuel
    simp only [hc, true_or, if_true]
    exact Returns.pure ⟨Adv.refl h, hs⟩
  | succ fuel ih =>
    unfold scanLoop
    split
    · exact Returns.pure ⟨Adv.refl h, hs⟩
    · rename_i hcond
      have hc : p.ch ≠ EOF := fun e => hcond (Or.inl e)
      apply Returns.bind (buildNestedorRead_returns hpf h hs hc hn)
      rintro ⟨q, start', children'⟩ ⟨hq, hlt, hs'⟩
      have hq : Adv p q := hq
      have hlt : remaining q < remaining p := hlt
      have hs' : start' ≤ q.current := hs'
      have hn' : remaining q ≤ n := by omega
      have hf' : remaining q ≤ fuel := by omega
      exact (ih hq.2.1 hs' hn' hf').mono (fun s hs => ⟨hq.trans hs.1, hs.2⟩)

theorem parseChildren_returns {pf : NodeType → Option ParseFunc} {n : Nat} (hpf : TableOK pf n)
    (identSize : Nat) (breakCondition : Parser → Bool) (nodeType : NodeType)
    {p : Parser}
    (h : WF p) (hn : remaining (readX identSize p) ≤ n) :
    Returns (parseChildren pf n identSize breakCondition nodeType p)
      (fun r => Adv (readX identSize p) r.2) := by
  unfold parseChildren
  simp only []
  have h1 := readX_adv identSize h
  apply Returns.bind (scanLoop_returns hpf breakCondition n h1.2.1 (le_refl _) hn hn)
  rintro ⟨q, start, children⟩ ⟨hq, hs⟩
  simp only at hq hs
  simp only []
  split
  · apply Returns.bind (slice_returns (le_trans h1.2.2.1 (le_trans hq.2.2.1 (by have := hq.2.1.1; omega)))
      (by rw [hq.1, h1.1]; have := hq.2.1.2; rw [hq.1, h1.1] at this; exact this))
    intro v _
    exact Returns.pure hq
  · split
    · apply Returns.bind (slice_returns (by omega)
        (by have := hq.2.1.1; have := hq.2.1.2; split <;> omega))
      intro v _
      exact Returns.pure (hq.trans (readX_adv identSize hq.2.1))
    · exact Returns.pure (hq.trans (readX_adv identSize hq.2.1))

theorem peekPreviousX_returns {p : Parser} (h : WF p) (amount : Nat) :
    Returns (peekPreviousX p amount) (fun _ => True) := by
  have hlt := h.current_lt
  unfold peekPreviousX
  simp only []
  split
  · exact index_returns (by omega)
  · split
    · exact Returns.pure trivial
    · exact index_returns (by omega)

theorem imageLinkChecks_returns {p : Parser} (h : WF p) {functionStart : Nat}
    (hs : functionStart ≤ p.current) :
    Returns (imageLinkChecks p functionStart) (fun _ => True) := by
  unfold imageLinkChecks
  apply Returns.bind (slice_returns (by have := h.1; omega) h.2)
  intro v _
  split
  · apply Returns.bind (peekPreviousX_returns h _)
    intro b _
    split <;> exact Returns.pure trivial
  · apply Returns.bind (peekPreviousX_returns h _)
    intro b _
    split <;> exact Returns.pure trivial

theorem consumeDigits_returns (fuel : Nat) {p : Parser} (h : WF p) (hf : remaining p ≤ fuel) :
    Returns (consumeDigits fuel p) (fun q => Adv p q ∧ (q = p ∨ remaining q < remaining p)) := by
  induction fuel generalizing p with
  | zero =>
    unfold consumeDigits
    have hc : p.ch = 0 := by
      by_contra hc
      simp [remaining, EOF, hc] at hf
    simp only [hc]
    exact Returns.pure ⟨Adv.refl h, Or.inl rfl⟩
  | succ fuel ih =>
    unfold consumeDigits
    split
    · rename_i hd
      have hc : p.ch ≠ EOF := by
        intro e
        rw [e] at hd
        simp [isDigit, EOF] at hd
      have h1 := readChar_adv h
      have hlt := readChar_lt h hc
      refine (ih h1.2.1 (by omega)).mono ?_
      rintro q ⟨hq, hor⟩
      refine ⟨h1.trans hq, Or.inr ?_⟩
      have := hq.2.2.2
      omega
    · exact Returns.pure ⟨Adv.refl h, Or.inl rfl⟩

theorem parseBold_good {pf : NodeType → Option ParseFunc} {n : Nat} (hpf : TableOK pf n) :
    GoodFunc (parseBold pf n) (n + 1) := by
  intro p h hc hn
  have hlt := readX_lt 2 (by decide) h hc
  refine (parseChildren_returns hpf 2 _ .Bold h (by omega)).mono ?_
  intro r hr
  exact ⟨(readX_adv 2 h).trans hr, lt_of_le_of_lt hr.2.2.2 hlt⟩

theorem parseItalic_good {pf : NodeType → Option ParseFunc} {n : Nat} (hpf : TableOK pf n) :
    GoodFunc (parseItalic pf n) (n + 1) := by
  intro p h hc hn
  have hlt := readX_lt 1 (by decide) h hc
  refine (parseChildren_returns hpf 1 _ .Italic h (by omega)).mono ?_
  intro r hr
  exact ⟨(readX_adv 1 h).trans hr, lt_of_le_of_lt hr.2.2.2 hlt⟩

theorem parseCode_good {pf : NodeType → Option ParseFunc} {n : Nat} (hpf : TableOK pf n) :
    GoodFunc (parseCode pf n) (n + 1) := by
  intro p h hc hn
  have hlt := readX_lt 3 (by decide) h hc
  refine (parseChildren_returns hpf 3 _ .Code h (by omega)).mono ?_
  intro r hr
  exact ⟨(readX_adv 3 h).trans hr, lt_of_le_of_lt hr.2.2.2 hlt⟩

theorem boldItalicNode_good {pf : NodeType → Option ParseFunc} {n : Nat} (hpf : TableOK pf n) :
    GoodFunc (boldItalicNode pf n) (n + 1) := by
  intro p h hc hn
  unfold boldItalicNode
  split
  · exact parseBold_good hpf p h hc hn
  · exact parseItalic_good hpf p h hc hn

theorem parseUnorderedList_good {pf : NodeType → Option ParseFunc} {n : Nat}
    (hpf : TableOK pf n) : GoodFunc (parseUnorderedList pf n) (n + 1) := by
  intro p h hc hn
  have hlt := readX_lt 2 (by decide) h hc
  have h2 := readX_adv 2 h
  unfold parseUnorderedList
  refine (parseChildren_returns hpf 0 _ .ListElement h2.2.1 (by show remaining (readX 2 _) ≤ n; omega)).mono ?_
  intro r hr
  exact ⟨h2.trans hr, lt_of_le_of_lt hr.2.2.2 hlt⟩

theorem parseOrderedList_good {pf : NodeType → Option ParseFunc} {n : Nat}
    (hpf : TableOK pf n) : GoodFunc (parseOrderedList pf n) (n + 1) := by
  intro p h hc hn
  unfold parseOrderedList
  have hlen : remaining p ≤ p.input.length := by
    have := h.1; have := h.2
    simp only [remaining]
    split <;> omega
  apply Returns.bind (consumeDigits_returns _ h hlen)
  rintro q ⟨hq, hor⟩
  have h2 := readX_adv 2 hq.2.1
  have hlt : remaining (readX 2 q) < remaining p := by
    rcases hor with rfl | hlt
    · exact readX_lt 2 (by decide) h hc
    · exact lt_of_le_of_lt h2.2.2.2 hlt
  refine (parseChildren_returns hpf 0 _ .ListElement h2.2.1 (by show remaining (readX 2 _) ≤ n; omega)).mono ?_
  intro r hr
  exact ⟨(hq.trans h2).trans hr, lt_of_le_of_lt hr.2.2.2 hlt⟩

theorem parseImageLink_good (ro : RangeOrder) {pf : NodeType → Option ParseFunc} {n : Nat}
    (hpf : TableOK pf n) (nodeType : NodeType) (hk : nodeType = .Image ∨ nodeType = .Link) :
    GoodFunc (parseImageLink ro pf n nodeType) (n + 1) := by
  intro p h hc hn
  unfold parseImageLink
  simp only []
  have h0 : Adv p (if nodeType = .Image then readChar p else p) := by
    split
    · exact readChar_adv h
    · exact Adv.refl h
  have hlt0 : remaining (readX 1 (if nodeType = .Image then readChar p else p)) < remaining p := by
    split
    · exact lt_of_le_of_lt (readX_adv 1 (readChar_adv h).2.1).2.2.2 (readChar_lt h hc)
    · exact readX_lt 1 (by decide) h hc
  have h0' := readX_adv 1 h0.2.1
  apply Returns.bind (parseChildren_returns hpf 1 _ .PlainText h0.2.1 (by omega))
  rintro ⟨prefixNode, q⟩ hq
  have hq : Adv (readX 1 (if nodeType = .Image then readChar p else p)) q := hq
  have hpq : Adv p q := (h0.trans h0').trans hq
  have hqlt : remaining q < remaining p := lt_of_le_of_lt hq.2.2.2 hlt0
  simp only []
  split
  · apply Returns.bind (slice_returns hpq.2.2.1 (le_of_lt (hpq.1 ▸ hpq.2.1.current_lt)))
    intro v _
    exact Returns.pure ⟨hpq, hqlt⟩
  · have hq1 := readX_adv 1 hq.2.1
    apply Returns.bind (parseChildren_returns hpf 1 _ .PlainText hq.2.1
      (by have := hq1.2.2.2; omega))
    rintro ⟨srcNode, r⟩ hr
    have hr : Adv (readX 1 q) r := hr
    have hpr : Adv p r := hpq.trans (hq1.trans hr)
    have hrlt : remaining r < remaining p := by
      have := hr.2.2.2; have := hq1.2.2.2; omega
    simp only []
    apply Returns.bind (imageLinkChecks_returns hpr.2.1 hpr.2.2.1)
    intro textNode _
    split
    · exact Returns.pure ⟨hpr, hrlt⟩
    · rcases hk with rfl | rfl
      · exact Returns.pure ⟨hpr, hrlt⟩
      · exact Returns.pure ⟨hpr, hrlt⟩

theorem parsingFuncs_ok (ro : RangeOrder) (n : Nat) : TableOK (parsingFuncs ro n) n := by
  induction n with
  | zero =>
    intro k _ _ hk
    refine ⟨fun _ => throw .outOfFuel, by simp [parsingFuncs, hk], ?_⟩
    intro p _ hc hn
    exfalso
    have hc0 : p.ch ≠ 0 := hc
    simp [remaining, EOF, hc0] at hn
  | succ n ih =>
    intro k h1 h2 hk
    cases k <;> simp [registered] at hk h1 h2
    · exact ⟨_, rfl, parseCode_good ih⟩
    · exact ⟨_, rfl, parseImageLink_good ro ih .Image (Or.inl rfl)⟩
    · exact ⟨_, rfl, parseImageLink_good ro ih .Link (Or.inr rfl)⟩
    · exact ⟨_, rfl, boldItalicNode_good ih⟩
    · exact ⟨_, rfl, boldItalicNode_good ih⟩
    · exact ⟨_, rfl, parseOrderedList_good ih⟩
    · exact ⟨_, rfl, parseUnorderedList_good ih⟩

theorem NewParser_wf {input : GoString} (h : input ≠ []) : WF (NewParser input) := by
  have hl : 0 < input.length := List.length_pos.mpr h
  unfold NewParser readChar
  simp only [ge_iff_le, Nat.le_zero_eq]
  rw [if_neg (by omega)]
  exact ⟨rfl, hl⟩

theorem consumeBlockHeading_adv {p : Parser} (h : WF p) (k : NodeType) :
    Adv p (consumeBlockHeading p k) := by
  unfold consumeBlockHeading
  split
  all_goals first | exact readX_adv _ h | exact Adv.refl h

theorem remaining_le_length {p : Parser} (h : WF p) : remaining p ≤ p.input.length := by
  have := h.1; have := h.2
  simp only [remaining]
  split <;> omega

theorem parse_returns (ro : RangeOrder) {p : Parser} (h : WF p) {fuel : Nat}
    (hf : p.input.length ≤ fuel) :
    Returns (parse ro fuel p) (fun _ => True) := by
  unfold parse
  simp only []
  have h1 := consumeBlockHeading_adv h (blockType p)
  have hr := remaining_le_length h1.2.1
  rw [h1.1] at hr
  apply Returns.bind (scanLoop_returns (parsingFuncs_ok ro fuel) _ fuel h1.2.1 (le_refl _)
    (by omega) (by omega))
  rintro ⟨q, start, children⟩ ⟨hq, hs⟩
  have hq : Adv (consumeBlockHeading p (blockType p)) q := hq
  simp only []
  split
  · apply Returns.bind (slice_returns (by have := hq.2.1.1; omega) hq.2.1.2)
    intro v _
    exact Returns.pure trivial
  · exact Returns.pure trivial

theorem parseInput_returns (ro : RangeOrder) (input : GoString) :
    Returns (parseInput ro input) (fun _ => True) := by
  by_cases h : input = []
  · subst h
    exact ⟨_, rfl, trivial⟩
  · exact parse_returns ro (NewParser_wf h) (by simp [NewParser, readChar]; split <;> simp)

theorem getD_append_add (pre rest : GoString) (i : Nat) :
    (pre ++ rest).getD (pre.length + i) 0 = rest.getD i 0 := by
  rw [List.getD_append_right _ _ _ _ (by omega)]
  simp

theorem NewParser_cons (c : Nat) (rest : GoString) : NewParser (c :: rest) = cursor [] (c :: rest) := by
  simp [NewParser, readChar, cursor]

theorem readChar_cursor (pre : GoString) (c d : Nat) (rest : GoString) :
    readChar (cursor pre (c :: d :: rest)) = cursor (pre ++ [c]) (d :: rest) := by
  have := getD_append_add pre (c :: d :: rest) 1
  unfold readChar cursor
  simp only [List.length_append, List.length_cons]
  rw [if_neg (by omega), this]
  simp

theorem readChar_cursor_last (pre : GoString) (c : Nat) :
    readChar (cursor pre [c]) = cursorEnd pre c := by
  simp [readChar, cursor, cursorEnd]

theorem readChar_cursorEnd (pre : GoString) (c : Nat) :
    readChar (cursorEnd pre c) = cursorEnd pre c := by
  simp [readChar, cursorEnd]

theorem readX_cursorEnd (n : Nat) (pre : GoString) (c : Nat) :
    readX n (cursorEnd pre c) = cursorEnd pre c := by
  induction n with
  | zero => rfl
  | succ n ih => rw [readX, readChar_cursorEnd, ih]

theorem peekCharX_cursor_zero (pre : GoString) (c : Nat) (rest : GoString) :
    peekCharX (cursor pre (c :: rest)) 0 = rest.headD 0 := by
  cases rest with
  | nil => simp [peekCharX, cursor, EOF]
  | cons d rest =>
    have := getD_append_add pre (c :: d :: rest) 1
    simp only [peekCharX, cursor, List.length_append, List.length_cons]
    rw [if_neg (by omega), Nat.add_zero, this]
    rfl

theorem peekCharX_cursor_one (pre : GoString) (c d : Nat) (rest : GoString) :
    peekCharX (cursor pre (c :: d :: rest)) 1 = rest.headD 0 := by
  cases rest with
  | nil => simp [peekCharX, cursor, EOF]
  | cons e rest =>
    have := getD_append_add pre (c :: d :: e :: rest) 2
    simp only [peekCharX, cursor, List.length_append, List.length_cons]
    rw [if_neg (by omega), show pre.length + 1 + 1 = pre.length + 2 from rfl, this]
    rfl

theorem isIdent_plain {p : Parser} (h : plainChar p.ch = true) : isIdent p = .PlainText := by
  have h' : p.ch ≠ 42 ∧ p.ch ≠ 96 ∧ p.ch ≠ 33 ∧ p.ch ≠ 91 ∧ p.ch ≠ 93 ∧ p.ch ≠ 40 ∧ p.ch ≠ 41
      ∧ p.ch ≠ 45 ∧ p.ch ≠ 92 ∧ p.ch ≠ 35 ∧ p.ch ≠ 62 ∧ isDigit p.ch = false ∧ p.ch ≠ 0 := by
    simpa [plainChar, and_assoc] using h
  obtain ⟨h1, h2, h3, h4, -, -, -, h8, h9, -, -, h12, -⟩ := h'
  simp [isIdent, h1, h2, h3, h4, h8, h9, h12]

theorem slice_append (a b c : GoString) :
    slice (a ++ (b ++ c)) a.length (a.length + b.length) = .ok b := by
  unfold slice
  rw [if_pos (by simp)]
  have : List.take (a.length + b.length) (a ++ (b ++ c)) = a ++ b := by
    rw [← List.append_assoc, List.take_append_eq_append_take]
    simp
  rw [this]
  simp
  rfl

theorem plainChar_ne_zero {c : Nat} (h : plainChar c = true) : c ≠ 0 := by
  simp only [plainChar, Bool.and_eq_true, bne_iff_ne, ne_eq] at h
  exact h.2

theorem cursor_ch (pre : GoString) (c : Nat) (rest : GoString) : (cursor pre (c :: rest)).ch = c := rfl

theorem cursor_current (pre rest : GoString) : (cursor pre rest).current = pre.length := rfl

theorem cursor_input (pre rest : GoString) : (cursor pre rest).input = pre ++ rest := rfl

theorem buildNestedorRead_plain (pf : NodeType → Option ParseFunc) {p : Parser} {start : Nat}
    {children : List HtmlNode} (hp : plainChar p.ch = true) (hs : start ≤ p.current)
    (hc : p.current ≤ p.input.length) :
    buildNestedorRead pf (p, start, children) = .ok (readChar p, start, children) := by
  unfold buildNestedorRead slice
  simp only [isIdent_plain hp]
  rw [if_pos ⟨hs, hc⟩]
  rfl

theorem scanLoop_done (pf : NodeType → Option ParseFunc) (bc : Parser → Bool) (fuel : Nat)
    {s : LoopState} (h : s.1.ch = EOF ∨ bc s.1 = true) : scanLoop pf bc fuel s = .ok s := by
  cases fuel <;> simp only [scanLoop, h, if_true] <;> rfl

theorem scanLoop_plain (pf : NodeType → Option ParseFunc) (bc : Parser → Bool)
    (hbc : ∀ q, plainChar q.ch = true → bc q = false) (t : GoString) (ht : Plain t)
    (pre rest : GoString) (hrest : rest ≠ []) (fuel : Nat) (hf : t.length ≤ fuel)
    (start : Nat) (children : List HtmlNode) (hs : start ≤ pre.length) :
    scanLoop pf bc fuel (cursor pre (t ++ rest), start, children)
      = scanLoop pf bc (fuel - t.length) (cursor (pre ++ t) rest, start, children) := by
  induction t generalizing pre fuel with
  | nil => simp
  | cons c t ih =>
    have hc : plainChar c = true := ht c (List.mem_cons_self _ _)
    have ht' : Plain t := fun d hd => ht d (List.mem_cons_of_mem _ hd)
    obtain ⟨fuel, rfl⟩ : ∃ f, fuel = f + 1 := ⟨fuel - 1, by simp at hf; omega⟩
    obtain ⟨d, r, hdr⟩ : ∃ d r, t ++ rest = d :: r := by
      cases h : t ++ rest with
      | nil => simp [hrest] at h
      | cons d r => exact ⟨d, r, rfl⟩
    have hcur : plainChar (cursor pre (c :: t ++ rest)).ch = true := hc
    rw [scanLoop, if_neg (by
      rw [hbc _ hcur]
      have := plainChar_ne_zero hc
      simp [cursor, EOF, this])]
    rw [buildNestedorRead_plain pf hcur (by simpa [cursor] using hs) (by simp [cursor])]
    have hstep : readChar (cursor pre (c :: t ++ rest)) = cursor (pre ++ [c]) (t ++ rest) := by
      rw [List.cons_append, hdr, readChar_cursor]
    show scanLoop pf bc fuel (readChar (cursor pre (c :: t ++ rest)), start, children) = _
    rw [hstep, ih ht' (pre ++ [c]) fuel (by simp at hf; omega) (by simp; omega)]
    simp

theorem scanLoop_plain_eof (pf : NodeType → Option ParseFunc) (bc : Parser → Bool)
    (hbc : ∀ q, plainChar q.ch = true → bc q = false) (t : GoString) (ht : Plain t)
    (c : Nat) (hc : plainChar c = true)
    (pre : GoString) (fuel : Nat) (hf : t.length + 1 ≤ fuel)
    (start : Nat) (children : List HtmlNode) (hs : start ≤ pre.length) :
    scanLoop pf bc fuel (cursor pre (t ++ [c]), start, children)
      = .ok (cursorEnd (pre ++ t) c, start, children) := by
  rw [scanLoop_plain pf bc hbc t ht pre [c] (by simp) fuel (by omega) start children hs]
  obtain ⟨f, hfe⟩ : ∃ f, fuel - t.length = f + 1 := ⟨fuel - t.length - 1, by omega⟩
  have hcur : plainChar (cursor (pre ++ t) [c]).ch = true := hc
  rw [hfe, scanLoop, if_neg (by
      rw [hbc _ hcur]
      have := plainChar_ne_zero hc
      simp [cursor, EOF, this])]
  rw [buildNestedorRead_plain pf hcur (by simp [cursor]; omega) (by simp [cursor])]
  show scanLoop pf bc f (readChar (cursor (pre ++ t) [c]), start, children) = _
  rw [readChar_cursor_last, scanLoop_done pf bc f (Or.inl rfl)]

theorem readX_add (a b : Nat) (p : Parser) : readX (a + b) p = readX b (readX a p) := by
  induction a generalizing p with
  | zero => simp [readX]
  | succ a ih => rw [Nat.add_right_comm, readX, readX, ih]

theorem readX_cursor (o : GoString) (pre r : GoString) (hr : r ≠ []) :
    readX o.length (cursor pre (o ++ r)) = cursor (pre ++ o) r := by
  induction o generalizing pre with
  | nil => simp [readX]
  | cons c o ih =>
    obtain ⟨d, r', hdr⟩ : ∃ d r', o ++ r = d :: r' := by
      cases h : o ++ r with
      | nil => simp [hr] at h
      | cons d r' => exact ⟨d, r', rfl⟩
    rw [List.length_cons, readX, List.cons_append, hdr, readChar_cursor, ← hdr, ih]
    simp

theorem readX_cursor_end (w : GoString) (c : Nat) (pre : GoString) (j : Nat) :
    readX (w.length + 1 + j) (cursor pre (w ++ [c])) = cursorEnd (pre ++ w) c := by
  rw [readX_add, readX_add, readX_cursor w pre [c] (by simp)]
  show readX j (readX 0 (readChar (cursor (pre ++ w) [c]))) = _
  rw [readChar_cursor_last, readX, readX_cursorEnd]

theorem slice_from (a b : GoString) :
    slice (a ++ b) a.length (a ++ b).length = .ok b := by
  have := slice_append a b []
  simpa using this

theorem checkUnterminatedExceptions_of_ne {p : Parser} (h : p.ch ≠ 0) (nodeType : NodeType) :
    checkUnterminatedExceptions p nodeType = false := by
  simp [checkUnterminatedExceptions, EOF, h]

theorem parseChildren_closed (pf : NodeType → Option ParseFunc) (bc : Parser → Bool)
    (hbc : ∀ q, plainChar q.ch = true → bc q = false) (nodeType : NodeType)
    (hnt : nodeType ≠ .Paragraph) (o t : GoString) (ht : Plain t) (pre : GoString)
    (d : Nat) (rest : GoString) (hd : d ≠ 0)
    (hbreak : bc (cursor (pre ++ o ++ t) (d :: rest)) = true)
    (fuel : Nat) (hf : t.length ≤ fuel) :
    parseChildren pf fuel o.length bc nodeType (cursor pre (o ++ (t ++ d :: rest)))
      = .ok (.parent nodeType (textLeaf t), readX o.length (cursor (pre ++ o ++ t) (d :: rest))) := by
  unfold parseChildren
  simp only []
  rw [readX_cursor o pre _ (by simp), cursor_current (pre ++ o),
    scanLoop_plain pf bc hbc t ht (pre ++ o) (d :: rest) (by simp) fuel hf _ _ (le_refl _),
    scanLoop_done pf bc _ (Or.inr hbreak)]
  simp only [Except.bind, bind]
  rw [checkUnterminatedExceptions_of_ne (p := cursor (pre ++ o ++ t) (d :: rest)) hd]
  simp only [Bool.false_eq_true, if_false, if_neg hnt, Nat.add_zero]
  by_cases hte : t = []
  · subst hte
    simp [textLeaf, cursor]
    rfl
  · have hl : 0 < t.length := List.length_pos.mpr hte
    rw [if_pos (by simp [cursor]; omega)]
    have hsl : slice (cursor (pre ++ o ++ t) (d :: rest)).input (pre ++ o).length
        (cursor (pre ++ o ++ t) (d :: rest)).current = .ok t := by
      have := slice_append (pre ++ o) t (d :: rest)
      simpa [cursor, Nat.add_assoc] using this
    rw [hsl]
    simp [textLeaf, hte]
    rfl

theorem parseChildren_open (pf : NodeType → Option ParseFunc) (bc : Parser → Bool)
    (hbc : ∀ q, plainChar q.ch = true → bc q = false) (nodeType : NodeType)
    (hfb : ∀ p : Parser, p.ch = EOF → checkUnterminatedExceptions p nodeType = true)
    (o t : GoString) (ht : Plain t) (pre : GoString)
    (w : GoString) (c : Nat) (hw : o ++ t = w ++ [c])
    (fuel : Nat) (hf : t.length ≤ fuel) :
    parseChildren pf fuel o.length bc nodeType (cursor pre (o ++ t))
      = .ok (.parent .PlainText [.leaf (o ++ t) .PlainText []], cursorEnd (pre ++ w) c) := by
  have hscan : scanLoop pf bc fuel (readX o.length (cursor pre (o ++ t)),
      (readX o.length (cursor pre (o ++ t))).current, [])
      = .ok (cursorEnd (pre ++ w) c, (readX o.length (cursor pre (o ++ t))).current, []) := by
    rcases List.eq_nil_or_concat t with hte | ⟨t', c', hte⟩
    · subst hte
      rw [List.append_nil] at hw
      have hlen : o.length = w.length + 1 + 0 := by rw [hw]; simp
      rw [List.append_nil, hlen, hw, readX_cursor_end, scanLoop_done pf bc fuel (Or.inl rfl)]
    · rw [List.concat_eq_append] at hte
      subst hte
      have ht' : Plain t' := fun x hx => ht x (by simp [hx])
      have hc' : plainChar c' = true := ht c' (by simp)
      rw [← List.append_assoc] at hw
      obtain ⟨rfl, hcc⟩ := List.append_inj' hw rfl
      obtain rfl : c' = c := by simpa using hcc
      rw [readX_cursor o pre _ (by simp), cursor_current (pre ++ o)]
      rw [scanLoop_plain_eof pf bc hbc t' ht' _ hc' (pre ++ o) fuel (by simpa using hf) _ _
        (le_refl _)]
      simp
  unfold parseChildren
  simp only []
  rw [hscan]
  simp only [Except.bind, bind]
  rw [hfb _ rfl]
  simp only [if_true]
  have hsl : slice (cursorEnd (pre ++ w) c).input (cursor pre (o ++ t)).current
      (cursorEnd (pre ++ w) c).peek = .ok (o ++ t) := by
    have := slice_from pre (w ++ [c])
    rw [hw]
    simpa [cursor, cursorEnd, Nat.add_assoc] using this
  rw [hsl]
  rfl

theorem buildNestedorRead_construct (pf : NodeType → Option ParseFunc) {p : Parser} {start : Nat}
    {children : List HtmlNode} {f : ParseFunc}
    (hk1 : isIdent p ≠ .Escaped) (hk2 : isIdent p ≠ .PlainText) (hf : pf (isIdent p) = some f)
    (hs : start ≤ p.current) (hc : p.current ≤ p.input.length) {node : HtmlNode} {q : Parser}
    (hres : f p = .ok (node, q)) :
    buildNestedorRead pf (p, start, children) = .ok (q, q.current,
      (if start < p.current then
        children ++ [.leaf ((p.input.take p.current).drop start) .PlainText []]
      else children) ++ [node]) := by
  unfold buildNestedorRead slice
  simp only []
  rw [if_pos ⟨hs, hc⟩]
  simp only [Except.bind, bind, pure, Except.pure, if_neg hk1, hk2, ne_eq, not_false_eq_true,
    if_true, hf, hres]

theorem toHtml_leaf_plain (ro : RangeOrder) (v : GoString) :
    (HtmlNode.leaf v .PlainText []).toHtml ro = v := by
  simp [HtmlNode.toHtml]

theorem childrenToHtml_textLeaf (ro : RangeOrder) (t : GoString) :
    childrenToHtml ro (textLeaf t) = t := by
  unfold textLeaf
  split
  · simp [*, childrenToHtml]
  · simp [childrenToHtml, HtmlNode.toHtml]

theorem bold_break_plain (q : Parser) (h : plainChar q.ch = true) :
    (q.ch == 42 && peekCharX q PeekOnce == 42) = false := by
  simp only [plainChar, Bool.and_eq_true, bne_iff_ne, ne_eq] at h
  simp [h.1.1.1.1.1.1.1.1.1.1.1.1]

theorem parseBold_closed (pf : NodeType → Option ParseFunc) (t : GoString) (ht : Plain t)
    (pre rest : GoString) (fuel : Nat) (hf : t.length ≤ fuel) :
    parseBold pf fuel (cursor pre (lit "**" ++ (t ++ 42 :: 42 :: rest)))
      = .ok (.parent .Bold (textLeaf t), readX 2 (cursor (pre ++ lit "**" ++ t) (42 :: 42 :: rest))) := by
  unfold parseBold
  exact parseChildren_closed pf _ bold_break_plain .Bold (by decide) (lit "**") t ht pre 42
    (42 :: rest) (by decide) (by simp [cursor_ch, peekCharX_cursor_zero, PeekOnce]) fuel hf

theorem scanLoop_construct (pf : NodeType → Option ParseFunc) (bc : Parser → Bool) (fuel : Nat)
    {p : Parser} {start : Nat} {children : List HtmlNode} {f : ParseFunc}
    (hch : p.ch ≠ 0) (hbc : bc p = false)
    (hk1 : isIdent p ≠ .Escaped) (hk2 : isIdent p ≠ .PlainText) (hf : pf (isIdent p) = some f)
    (hs : start ≤ p.current) (hc : p.current ≤ p.input.length) {node : HtmlNode} {q : Parser}
    (hres : f p = .ok (node, q)) :
    scanLoop pf bc (fuel + 1) (p, start, children) = scanLoop pf bc fuel (q, q.current,
      (if start < p.current then
        children ++ [.leaf ((p.input.take p.current).drop start) .PlainText []]
      else children) ++ [node]) := by
  rw [scanLoop, if_neg (by simp [EOF, hch, hbc]),
    buildNestedorRead_construct pf hk1 hk2 hf hs hc hres]
  rfl

theorem parse_eq (ro : RangeOrder) (fuel : Nat) (p q : Parser) (start : Nat)
    (children : List HtmlNode)
    (hloop : scanLoop (parsingFuncs ro fuel) (fun _ => false) fuel
      (consumeBlockHeading p (blockType p), (consumeBlockHeading p (blockType p)).current, [])
      = .ok (q, start, children)) :
    parse ro fuel p = (if start < q.current then
        (slice q.input start q.peek).map
          (fun value => .parent (blockType p) (children ++ [.leaf value .PlainText []]))
      else .ok (.parent (blockType p) children)) := by
  unfold parse
  simp only []
  rw [hloop]
  simp only [Except.bind, bind, pure, Except.pure]
  split
  · cases slice q.input start q.peek <;> rfl
  · rfl

theorem plainChar_spec {c : Nat} (h : plainChar c = true) :
    c ≠ 42 ∧ c ≠ 96 ∧ c ≠ 33 ∧ c ≠ 91 ∧ c ≠ 93 ∧ c ≠ 40 ∧ c ≠ 41 ∧ c ≠ 45 ∧ c ≠ 92 ∧ c ≠ 35
      ∧ c ≠ 62 ∧ isDigit c = false ∧ c ≠ 0 := by
  simpa [plainChar, and_assoc] using h

theorem blockType_plain {p : Parser} (h : plainChar p.ch = true) : blockType p = .Paragraph := by
  obtain ⟨-, -, -, -, -, -, -, h45, -, h35, h62, hd, -⟩ := plainChar_spec h
  simp [blockType, h45, h35, h62, hd]

theorem textLeaf_flush (a r : GoString) (children : List HtmlNode) :
    (if 0 < (cursor a r).current then
        children ++ [.leaf (((cursor a r).input.take (cursor a r).current).drop 0) .PlainText []]
      else children) = children ++ textLeaf a := by
  unfold textLeaf
  by_cases h : a = []
  · subst h
    simp [cursor]
  · have : 0 < a.length := List.length_pos.mpr h
    simp [cursor, h, this]

theorem parse_construct_at_end (ro : RangeOrder) (a r : GoString) (ha : Plain a) (fuel : Nat)
    (hfuel : a.length < fuel) (hblock : blockType (cursor [] (a ++ r)) = .Paragraph)
    {f : ParseFunc} {node : HtmlNode} {q : Parser} (hch : (cursor a r).ch ≠ 0) (hr : r ≠ [])
    (hk1 : isIdent (cursor a r) ≠ .Escaped) (hk2 : isIdent (cursor a r) ≠ .PlainText)
    (hf : parsingFuncs ro fuel (isIdent (cursor a r)) = some f)
    (hres : f (cursor a r) = .ok (node, q)) (hq : q.ch = EOF) :
    parse ro fuel (cursor [] (a ++ r)) = .ok (.parent .Paragraph (textLeaf a ++ [node])) := by
  obtain ⟨m, hm⟩ : ∃ m, fuel - a.length = m + 1 := ⟨fuel - a.length - 1, by omega⟩
  have hloop : scanLoop (parsingFuncs ro fuel) (fun _ => false) fuel
      (consumeBlockHeading (cursor [] (a ++ r)) (blockType (cursor [] (a ++ r))),
        (consumeBlockHeading (cursor [] (a ++ r)) (blockType (cursor [] (a ++ r)))).current, [])
      = .ok (q, q.current, textLeaf a ++ [node]) := by
    rw [hblock]
    show scanLoop (parsingFuncs ro fuel) (fun _ => false) fuel (cursor [] (a ++ r), 0, []) = _
    rw [scanLoop_plain _ _ (fun _ _ => rfl) a ha [] r hr fuel (le_of_lt hfuel) 0 [] (le_refl _),
      hm, List.nil_append,
      scanLoop_construct _ _ m hch rfl hk1 hk2 hf (Nat.zero_le _) (by simp [cursor]) hres,
      scanLoop_done _ _ _ (Or.inl hq), textLeaf_flush, List.nil_append]
  rw [parse_eq ro _ _ _ _ _ hloop, if_neg (lt_irrefl _), hblock]

theorem italic_break_plain (q : Parser) (h : plainChar q.ch = true) :
    (q.ch == 42 && peekCharX q PeekOnce != 42) = false := by
  simp [(plainChar_spec h).1]

theorem code_break_plain (q : Parser) (h : plainChar q.ch = true) :
    (q.ch == 96 && peekCharX q PeekOnce == 96 && peekCharX q PeekTwice == 96) = false := by
  simp [(plainChar_spec h).2.1]

theorem headD_ne_of_plain {t : GoString} (ht : Plain t) {x : Nat} (hx : plainChar x = false)
    (hx0 : x ≠ 0) : t.headD 0 ≠ x := by
  cases t with
  | nil =>
    intro h
    simp only [List.headD_nil] at h
    exact hx0 h.symm
  | cons c t =>
    intro h
    simp only [List.headD_cons] at h
    subst h
    rw [ht _ (List.mem_cons_self _ _)] at hx
    exact absurd hx (by decide)

theorem parseItalic_closed (pf : NodeType → Option ParseFunc) (t : GoString) (ht : Plain t)
    (pre rest : GoString) (hrest : rest.headD 0 ≠ 42) (fuel : Nat) (hf : t.length ≤ fuel) :
    parseItalic pf fuel (cursor pre (lit "*" ++ (t ++ 42 :: rest)))
      = .ok (.parent .Italic (textLeaf t), readX 1 (cursor (pre ++ lit "*" ++ t) (42 :: rest))) := by
  unfold parseItalic
  exact parseChildren_closed pf _ italic_break_plain .Italic (by decide) (lit "*") t ht pre 42
    rest (by decide) (by simpa [cursor_ch, peekCharX_cursor_zero, PeekOnce] using hrest) fuel hf

theorem checkUnterminatedExceptions_eof {p : Parser} (h : p.ch = EOF) {nodeType : NodeType}
    (hk : nodeType = .Bold ∨ nodeType = .Italic ∨ nodeType = .Code ∨ nodeType = .PlainText) :
    checkUnterminatedExceptions p nodeType = true := by
  rcases hk with rfl | rfl | rfl | rfl <;> simp [checkUnterminatedExceptions, h]

theorem NewParser_ne {input : GoString} (h : input ≠ []) : NewParser input = cursor [] input := by
  obtain ⟨c, r, rfl⟩ := List.exists_cons_of_ne_nil h
  exact NewParser_cons c r

theorem open_construct (ro : RangeOrder) (a o t : GoString) (ha : Plain a) (ht : Plain t)
    (kind : NodeType) (bc : Parser → Bool) (hbc : ∀ q, plainChar q.ch = true → bc q = false)
    (hkind : kind = .Bold ∨ kind = .Italic ∨ kind = .Code ∨ kind = .PlainText)
    (ho : o.headD 0 ≠ 0)
    (hblock : blockType (cursor [] (o ++ t)) = .Paragraph)
    (hk1 : isIdent (cursor a (o ++ t)) ≠ .Escaped) (hk2 : isIdent (cursor a (o ++ t)) ≠ .PlainText)
    (hfun : ∀ n, ∃ f, parsingFuncs ro (n + 1) (isIdent (cursor a (o ++ t))) = some f ∧
      f (cursor a (o ++ t)) = parseChildren (parsingFuncs ro n) n o.length bc kind
        (cursor a (o ++ t))) :
    parseInput ro (a ++ o ++ t) = .ok (.parent .Paragraph
      (textLeaf a ++ [.parent .PlainText [.leaf (o ++ t) .PlainText []]])) := by
  have hone : o ≠ [] := by
    intro h
    subst h
    exact ho rfl
  have hne : o ++ t ≠ [] := by simp [hone]
  obtain ⟨w, c, hw⟩ : ∃ w c, o ++ t = w ++ [c] := by
    rcases List.eq_nil_or_concat (o ++ t) with h | ⟨w, c, h⟩
    · exact absurd h hne
    · exact ⟨w, c, by rw [h, List.concat_eq_append]⟩
  obtain ⟨f, hf, hfp⟩ := hfun (a ++ o ++ t).length
  have hres := parseChildren_open (parsingFuncs ro (a ++ o ++ t).length) bc hbc kind
    (fun p hp => checkUnterminatedExceptions_eof hp hkind) o t ht a w c hw (a ++ o ++ t).length
    (by simp; omega)
  unfold parseInput
  rw [NewParser_ne (by simp [hone]), List.append_assoc]
  refine parse_construct_at_end ro a (o ++ t) ha _ (by simp; omega) ?_ ?_ hne hk1 hk2
    (by rw [← List.append_assoc]; exact hf) (hfp.trans hres) rfl
  · cases a with
    | nil => exact hblock
    | cons x a' => exact blockType_plain (ha x (List.mem_cons_self _ _))
  · obtain ⟨x, o', rfl⟩ := List.exists_cons_of_ne_nil hone
    simpa [cursor] using ho

theorem childrenToHtml_append (ro : RangeOrder) (xs ys : List HtmlNode) :
    childrenToHtml ro (xs ++ ys) = childrenToHtml ro xs ++ childrenToHtml ro ys := by
  induction xs with
  | nil => simp [childrenToHtml]
  | cons x xs ih => simp [childrenToHtml, ih]

theorem parse_block_text (ro : RangeOrder) (kind : NodeType) (o t : GoString) (c : Nat)
    (ht : Plain t) (hc : plainChar c = true) (hne : t ≠ [])
    (hblock : blockType (cursor [] (o ++ (t ++ [c]))) = kind)
    (hcons : consumeBlockHeading (cursor [] (o ++ (t ++ [c]))) kind
      = readX o.length (cursor [] (o ++ (t ++ [c]))))
    (fuel : Nat) (hf : t.length + 1 ≤ fuel) :
    parse ro fuel (cursor [] (o ++ (t ++ [c])))
      = .ok (.parent kind [.leaf (t ++ [c]) .PlainText []]) := by
  have hloop : scanLoop (parsingFuncs ro fuel) (fun _ => false) fuel
      (consumeBlockHeading (cursor [] (o ++ (t ++ [c]))) (blockType (cursor [] (o ++ (t ++ [c])))),
        (consumeBlockHeading (cursor [] (o ++ (t ++ [c])))
          (blockType (cursor [] (o ++ (t ++ [c]))))).current, [])
      = .ok (cursorEnd ([] ++ o ++ t) c, ([] ++ o).length, []) := by
    rw [hblock, hcons, readX_cursor o [] _ (by simp), cursor_current,
      scanLoop_plain_eof _ _ (fun _ _ => rfl) t ht c hc ([] ++ o) fuel hf _ _ (le_refl _)]
  have hl : 0 < t.length := List.length_pos.mpr hne
  rw [parse_eq ro _ _ _ _ _ hloop, if_pos (by simp [cursorEnd]; omega), hblock]
  have hsl : slice (cursorEnd ([] ++ o ++ t) c).input ([] ++ o).length
      (cursorEnd ([] ++ o ++ t) c).peek = .ok (t ++ [c]) := by
    have := slice_from o (t ++ [c])
    simpa [cursorEnd, Nat.add_assoc] using this
  rw [hsl]
  rfl

theorem countHashes_replicate (k : Nat) (rest : GoString) (i : Nat) (h : rest.headD 0 ≠ 35) :
    countHashes (List.replicate k 35 ++ rest) i = i + k := by
  induction k generalizing i with
  | zero =>
    cases rest with
    | nil => simp [countHashes]
    | cons x r =>
      have hx : x ≠ 35 := by simpa using h
      simp [countHashes, hx]
  | succ k ih =>
    rw [List.replicate_succ, List.cons_append, countHashes, if_neg (by simp [EOF]), ih]
    omega

theorem readX_succ_last (j : Nat) (pre : GoString) (c : Nat) :
    readX (j + 1) (cursor pre [c]) = cursorEnd pre c := by
  rw [readX, readChar_cursor_last, readX_cursorEnd]

theorem toHtml_textGroup (ro : RangeOrder) (t : GoString) :
    (HtmlNode.parent .PlainText (textLeaf t)).toHtml ro = t := by
  simp [HtmlNode.toHtml, childrenToHtml_textLeaf]

theorem index_append_length (pre : GoString) (c : Nat) (rest : GoString) :
    index (pre ++ c :: rest) pre.length = .ok c := by
  unfold index
  rw [List.get?_eq_getElem?, List.getElem?_append_right (le_refl _)]
  simp
  rfl

theorem imageLinkChecks_closed (pre : GoString) (functionStart : Nat)
    (h : functionStart ≤ pre.length) :
    imageLinkChecks (cursorEnd pre 41) functionStart = .ok none := by
  unfold imageLinkChecks slice
  rw [if_pos (by simp [cursorEnd]; omega)]
  have hprev : peekPreviousX (cursorEnd pre 41) PeekOnce = .ok 41 := by
    unfold peekPreviousX
    simp only [PeekOnce, cursorEnd]
    rw [if_neg (by simp), if_neg (by simp)]
    simpa using index_append_length pre 41 []
  simp only [Except.bind, bind, pure, Except.pure]
  rw [if_pos (show (cursorEnd pre 41).ch = EOF from rfl), hprev]
  simp

theorem label_break_plain (q : Parser) (h : plainChar q.ch = true) : (q.ch == 93) = false := by
  simp [(plainChar_spec h).2.2.2.2.1]

theorem target_break_plain (q : Parser) (h : plainChar q.ch = true) : (q.ch == 41) = false := by
  simp [(plainChar_spec h).2.2.2.2.2.2.1]

theorem parseImageLink_closed (ro : RangeOrder) (pf : NodeType → Option ParseFunc)
    (nodeType : NodeType) (bang : GoString)
    (hk : (nodeType = .Image ∧ bang = [33]) ∨ (nodeType = .Link ∧ bang = []))
    (l s : GoString) (hl : Plain l) (hs : Plain s) (pre : GoString) (fuel : Nat)
    (hfl : l.length ≤ fuel) (hfs : s.length ≤ fuel) :
    parseImageLink ro pf fuel nodeType
        (cursor pre (bang ++ ([91] ++ (l ++ 93 :: 40 :: (s ++ [41])))))
      = .ok (imageLinkLeaf nodeType l s,
          cursorEnd (pre ++ bang ++ [91] ++ l ++ [93] ++ [40] ++ s) 41) := by
  have h0 : (if nodeType = .Image then
        readChar (cursor pre (bang ++ ([91] ++ (l ++ 93 :: 40 :: (s ++ [41])))))
      else cursor pre (bang ++ ([91] ++ (l ++ 93 :: 40 :: (s ++ [41])))))
      = cursor (pre ++ bang) ([91] ++ (l ++ 93 :: 40 :: (s ++ [41]))) := by
    rcases hk with ⟨rfl, rfl⟩ | ⟨rfl, rfl⟩
    · rw [if_pos rfl]
      exact readChar_cursor pre 33 91 _
    · rw [if_neg (by decide)]
      simp
  have h1 := parseChildren_closed pf (fun p => p.ch == 93) label_break_plain .PlainText
    (by decide) [91] l hl (pre ++ bang) 93 (40 :: (s ++ [41])) (by decide) rfl fuel hfl
  have h1e : readX [91].length (cursor (pre ++ bang ++ [91] ++ l) (93 :: 40 :: (s ++ [41])))
      = cursor (pre ++ bang ++ [91] ++ l ++ [93]) ([40] ++ (s ++ 41 :: [])) :=
    readChar_cursor _ 93 40 _
  rw [h1e] at h1
  have h2 := parseChildren_closed pf (fun p => p.ch == 41) target_break_plain .PlainText
    (by decide) [40] s hs (pre ++ bang ++ [91] ++ l ++ [93]) 41 [] (by decide) rfl fuel hfs
  have h2e : readX [40].length (cursor (pre ++ bang ++ [91] ++ l ++ [93] ++ [40] ++ s) [41])
      = cursorEnd (pre ++ bang ++ [91] ++ l ++ [93] ++ [40] ++ s) 41 :=
    readX_succ_last 0 _ 41
  rw [h2e] at h2
  unfold parseImageLink
  simp only []
  rw [h0]
  simp only [List.length_singleton] at h1 h2
  rw [h1]
  simp only [Except.bind, bind, pure, Except.pure]
  rw [if_neg (by simp [cursor])]
  rw [h2]
  simp only []
  rw [imageLinkChecks_closed _ _ (by simp [cursor])]
  simp only [toHtml_textGroup]
  rcases hk with ⟨rfl, rfl⟩ | ⟨rfl, rfl⟩ <;> rfl

theorem perm_pair {α : Type} {l : List α} {x y : α} (h : l.Perm [x, y]) :
    l = [x, y] ∨ l = [y, x] := by
  have hlen := h.length_eq
  match l, hlen with
  | [u, v], _ =>
    have hu : u ∈ [x, y] := h.subset (List.mem_cons_self _ _)
    have hv : v ∈ [x, y] := h.subset (by simp)
    have hx : x ∈ [u, v] := h.symm.subset (List.mem_cons_self _ _)
    have hy : y ∈ [u, v] := h.symm.subset (by simp)
    simp only [List.mem_cons, List.mem_singleton, List.not_mem_nil, or_false] at hu hv hx hy
    rcases hu with rfl | rfl
    · rcases hv with rfl | rfl
      · rcases hy with rfl | rfl <;> simp
      · simp
    · rcases hv with rfl | rfl
      · simp
      · rcases hx with rfl | rfl <;> simp

theorem parseEscaped_returns {p : Parser} (h : WF p) :
    Returns (parseEscaped p) (fun _ => True) := by
  unfold parseEscaped
  have h1 := readChar_adv h
  apply Returns.bind (index_returns (h1.1 ▸ h1.2.1.current_lt))
  intro b _
  exact Returns.pure trivial

theorem progress_of_remaining_lt {p q : Parser} (hp : WF p) (hq : WF q) (hc : p.ch ≠ EOF)
    (hi : q.input = p.input) (hlt : remaining q < remaining p) :
    p.current < q.current ∨ q.ch = EOF := by
  by_cases hqc : q.ch = EOF
  · exact Or.inr hqc
  · left
    have h1 := hp.1; have h2 := hp.2; have h3 := hq.1; have h4 := hq.2
    simp only [remaining, if_neg hc, if_neg hqc, hi] at hlt
    omega

theorem parse_empty (ro : RangeOrder) (fuel : Nat) :
    parse ro fuel (NewParser []) = .ok (.parent .Paragraph []) := by
  cases fuel <;> rfl

/-- A plain text of two or more characters parses to a Paragraph whose only child is the
leaf holding the whole text. -/
theorem plain_paragraph_parses (ro : RangeOrder) (t : GoString) (hlen : 2 ≤ t.length)
    (ht : Plain t) :
    parseInput ro t = .ok (.parent .Paragraph [.leaf t .PlainText []]) := by
  obtain ⟨t', c, rfl⟩ : ∃ t' c, t = t' ++ [c] := by
    rcases List.eq_nil_or_concat t with h | ⟨w, c, h⟩
    · subst h; simp at hlen
    · exact ⟨w, c, by rw [h, List.concat_eq_append]⟩
  have ht' : Plain t' := fun x hx => ht x (by simp [hx])
  have hc : plainChar c = true := ht c (by simp)
  have hne : t' ≠ [] := by
    intro h; subst h; simp at hlen
  obtain ⟨x, r, hx⟩ := List.exists_cons_of_ne_nil hne
  have hblock : blockType (cursor [] ([] ++ (t' ++ [c]))) = .Paragraph := by
    apply blockType_plain
    rw [hx]
    exact ht' x (by rw [hx]; exact List.mem_cons_self _ _)
  unfold parseInput
  rw [NewParser_ne (by simp)]
  exact parse_block_text ro .Paragraph [] t' c ht' hc hne hblock rfl _ (by simp)

theorem propertiesToHtml_foldl (acc : GoString) (entries : Properties) :
    entries.foldl (fun out kv => out ++ (lit " " ++ kv.1 ++ lit "=" ++ kv.2)) acc
      = acc ++ attrsSpec entries := by
  induction entries generalizing acc with
  | nil => simp [attrsSpec]
  | cons kv rest ih =>
    obtain ⟨name, value⟩ := kv
    simp only [List.foldl_cons, ih, attrsSpec]
    simp

theorem propertiesToHtml_eq (ro : RangeOrder) (properties : Properties) :
    propertiesToHtml ro properties = attrsSpec (ro.order properties) := by
  unfold propertiesToHtml
  rw [propertiesToHtml_foldl]
  rfl

theorem childrenToHtml_eq_concatAll (ro : RangeOrder) (children : List HtmlNode) :
    childrenToHtml ro children = concatAll (children.map (HtmlNode.toHtml ro)) := by
  induction children with
  | nil => simp [childrenToHtml, concatAll]
  | cons c cs ih => simp [childrenToHtml, concatAll, ih]

theorem countHashes_eq (l : GoString) (i : Nat) : countHashes l i = i + leadingHashes l := by
  induction l generalizing i with
  | nil => simp [countHashes, leadingHashes]
  | cons c l ih =>
    unfold countHashes
    by_cases h : c = 35
    · subst h
      rw [if_neg (by simp [EOF]), ih]
      simp [leadingHashes]
      omega
    · rw [if_pos (Or.inl h)]
      simp [leadingHashes, h]

theorem skipDigits_eq (l : GoString) (i : Nat) : skipDigits l i = i + leadingDigits l := by
  induction l generalizing i with
  | nil => simp [skipDigits, leadingDigits]
  | cons c l ih =>
    unfold skipDigits
    by_cases h : isDigit c = true
    · simp only [h, Bool.not_true, Bool.false_eq_true, if_false]
      rw [ih]
      simp [leadingDigits, h]
      omega
    · simp [leadingDigits, h]

theorem startsWith_two (l : GoString) (a b : Nat) (ha : a ≠ 0) (hb : b ≠ 0) :
    startsWith l [a, b] = true ↔ l.getD 0 0 = a ∧ l.getD 1 0 = b := by
  unfold startsWith
  match l with
  | [] => simp [ha.symm]
  | [x] => simp [hb.symm]
  | x :: y :: r => simp

theorem readFromIndex_eq (p : Parser) (i : Nat) : readFromIndex p i = p.input.getD i 0 := by
  unfold readFromIndex
  split
  · rename_i h
    rw [List.getD_eq_default _ _ h]
    rfl
  · rfl

theorem peekCharX_eq (p : Parser) (n : Nat) : peekCharX p n = p.input.getD (p.peek + n) 0 := by
  unfold peekCharX
  simp only []
  split
  · rename_i h
    rw [List.getD_eq_default _ _ h]
    rfl
  · rfl

theorem isOrderedIdent_start (input : GoString) (ch : Nat) (peek : Nat) :
    isOrderedIdent { input := input, current := 0, peek := peek, ch := ch }
      = startsWith (input.drop (leadingDigits input)) (lit ". ") := by
  have h := startsWith_two (input.drop (leadingDigits input)) 46 32 (by decide) (by decide)
  unfold isOrderedIdent
  simp only [List.drop_zero, skipDigits_eq, Nat.zero_add, readFromIndex_eq]
  rw [Bool.eq_iff_iff]
  rw [show lit ". " = [46, 32] from by decide, h]
  simp [List.getD_eq_getElem?_getD, List.getElem?_drop]

theorem leadingHashes_cons (c : Nat) (rest : GoString) :
    leadingHashes (c :: rest) = if c = 35 then leadingHashes rest + 1 else 0 := by
  unfold leadingHashes
  by_cases h : c = 35 <;> simp [h]

theorem leadingDigits_cons (c : Nat) (rest : GoString) :
    leadingDigits (c :: rest) = if isDigit c = true then leadingDigits rest + 1 else 0 := by
  unfold leadingDigits
  by_cases h : isDigit c = true <;> simp [h]

theorem blockType_eq_blockTypeSpec (input : GoString) :
    blockType (NewParser input) = blockTypeSpec input := by
  cases input with
  | nil => rfl
  | cons c rest =>
    rw [NewParser_cons]
    have hq := startsWith_two (c :: rest) 62 32 (by decide) (by decide)
    have hu := startsWith_two (c :: rest) 45 32 (by decide) (by decide)
    have hpk : peekCharX (cursor [] (c :: rest)) PeekOnce = rest.getD 0 0 := by
      rw [peekCharX_eq]
      simp [cursor, PeekOnce]
    simp only [List.getD_cons_zero, List.getD_cons_succ] at hq hu
    unfold blockType blockTypeSpec
    rw [cursor_ch, hpk, show lit "> " = [62, 32] from by decide,
      show lit "- " = [45, 32] from by decide]
    by_cases h62 : c = 62
    · subst h62
      by_cases h32 : rest.getD 0 0 = 32
      · rw [if_pos rfl, if_pos h32, if_pos (hq.mpr ⟨rfl, h32⟩)]
      · rw [if_pos rfl, if_neg h32, if_neg (fun h => h32 (hq.mp h).2),
          if_neg (fun h => absurd (hu.mp h).1 (by decide)),
          if_neg (by simp [leadingHashes_cons]),
          if_neg (by simp [leadingDigits_cons, isDigit])]
    · rw [if_neg h62, if_neg (fun h => h62 (hq.mp h).1)]
      by_cases h45 : c = 45
      · subst h45
        by_cases h32 : rest.getD 0 0 = 32
        · rw [if_pos rfl, if_pos h32, if_pos (hu.mpr ⟨rfl, h32⟩)]
        · rw [if_pos rfl, if_neg h32, if_neg (fun h => h32 (hu.mp h).2),
            if_neg (by simp [leadingHashes_cons]),
            if_neg (by simp [leadingDigits_cons, isDigit])]
      · rw [if_neg h45, if_neg (fun h => h45 (hu.mp h).1)]
        by_cases h35 : c = 35
        · subst h35
          have hpos : 1 ≤ leadingHashes (35 :: rest) := by simp [leadingHashes_cons]
          rw [if_pos rfl, if_pos hpos]
          unfold headingType
          simp only [cursor_input, List.nil_append, countHashes_eq, Nat.zero_add]
          generalize leadingHashes (35 :: rest) = k at hpos
          by_cases h6 : k ≥ 6
          · rw [if_pos h6, Nat.min_eq_right h6]
            rfl
          · rw [if_neg h6, Nat.min_eq_left (by omega)]
            have hk : k < 6 := by omega
            interval_cases k <;> rfl
        · have hh : ¬ 1 ≤ leadingHashes (c :: rest) := by simp [leadingHashes_cons, h35]
          rw [if_neg h35, if_neg hh]
          have hord : isOrderedIdent (cursor [] (c :: rest))
              = startsWith (List.drop (leadingDigits (c :: rest)) (c :: rest)) (lit ". ") :=
            isOrderedIdent_start (c :: rest) _ _
          rw [hord, show lit ". " = [46, 32] from by decide]
          by_cases hd : isDigit c = true
          · have hdg : 1 ≤ leadingDigits (c :: rest) := by simp [leadingDigits_cons, hd]
            simp only [hd, Bool.true_and, hdg, true_and]
          · have hdg : ¬ 1 ≤ leadingDigits (c :: rest) := by simp [leadingDigits_cons, hd]
            simp [hd, hdg]

theorem isIdent_escaped (pre : GoString) (rest : GoString) :
    isIdent (cursor pre (92 :: rest)) = .Escaped := by
  simp [isIdent, cursor_ch]

theorem buildNestedorRead_escaped (pf : NodeType → Option ParseFunc) (pre : GoString)
    (c d : Nat) (rest : GoString) (start : Nat) (children : List HtmlNode)
    (hs : start ≤ pre.length) :
    buildNestedorRead pf (cursor pre (92 :: c :: d :: rest), start, children)
      = .ok (cursor (pre ++ [92] ++ [c]) (d :: rest), (pre ++ [92] ++ [c]).length,
          (if start < pre.length then
            children ++ [.leaf ((pre.take pre.length).drop start) .PlainText []]
          else children) ++ [.leaf (byteToString c) .PlainText []]) := by
  unfold buildNestedorRead slice
  simp only [isIdent_escaped, if_true]
  rw [if_pos ⟨by simpa [cursor] using hs, by simp [cursor]⟩]
  rw [readChar_cursor, readChar_cursor]
  have hidx : index (cursor (pre ++ [92]) (c :: d :: rest)).input
      (cursor (pre ++ [92]) (c :: d :: rest)).current = .ok c :=
    index_append_length (pre ++ [92]) c (d :: rest)
  simp only [Except.bind, bind, pure, Except.pure, hidx]
  simp [cursor]

theorem buildNestedorRead_escaped_last (pf : NodeType → Option ParseFunc) (pre : GoString)
    (c : Nat) (start : Nat) (children : List HtmlNode) (hs : start ≤ pre.length) :
    buildNestedorRead pf (cursor pre [92, c], start, children)
      = .ok (cursorEnd (pre ++ [92]) c, (pre ++ [92]).length,
          (if start < pre.length then
            children ++ [.leaf ((pre.take pre.length).drop start) .PlainText []]
          else children) ++ [.leaf (byteToString c) .PlainText []]) := by
  unfold buildNestedorRead slice
  simp only [isIdent_escaped, if_true]
  rw [if_pos ⟨by simpa [cursor] using hs, by simp [cursor]⟩]
  rw [readChar_cursor, readChar_cursor_last]
  have hidx : index (cursor (pre ++ [92]) [c]).input
      (cursor (pre ++ [92]) [c]).current = .ok c :=
    index_append_length (pre ++ [92]) c []
  simp only [Except.bind, bind, pure, Except.pure, hidx]
  simp [cursor, cursorEnd]

theorem scanLoop_step (pf : NodeType → Option ParseFunc) (bc : Parser → Bool) (fuel : Nat)
    {p : Parser} {start : Nat} {children : List HtmlNode} {s : LoopState}
    (hch : p.ch ≠ 0) (hbc : bc p = false)
    (hstep : buildNestedorRead pf (p, start, children) = .ok s) :
    scanLoop pf bc (fuel + 1) (p, start, children) = scanLoop pf bc fuel s := by
  rw [scanLoop, if_neg (by simp [EOF, hch, hbc]), hstep]
  rfl

theorem byteToString_ascii {c : Nat} (h : c < 128) : byteToString c = [c] := by
  simp [byteToString, h]

theorem escaped_pair_parses (ro : RangeOrder) (t : GoString) (ht : Plain t) (c : Nat)
    (hc : c < 128) :
    parseInput ro ([92] ++ [c] ++ t ++ [92] ++ [c])
      = .ok (.parent .Paragraph
          ([.leaf [c] .PlainText []] ++ textLeaf t ++ [.leaf [c] .PlainText []])) := by
  have hin : [92] ++ [c] ++ t ++ [92] ++ [c] = 92 :: c :: (t ++ [92, c]) := by simp
  have hlen : (92 :: c :: (t ++ [92, c])).length = t.length + 3 + 1 := by simp
  obtain ⟨d, r, hdr⟩ : ∃ d r, t ++ [92, c] = d :: r := by
    cases h : t ++ [92, c] with
    | nil => simp at h
    | cons d r => exact ⟨d, r, rfl⟩
  have hblock : blockType (cursor [] (92 :: c :: (t ++ [92, c]))) = .Paragraph := by
    simp [blockType, cursor_ch, isDigit]
  have hflush : (if ([92] ++ [c]).length < ([92] ++ [c] ++ t).length then
        ([] ++ [HtmlNode.leaf (byteToString c) .PlainText []]) ++
          [.leaf ((([92] ++ [c] ++ t).take ([92] ++ [c] ++ t).length).drop
            ([92] ++ [c]).length) .PlainText []]
      else [] ++ [HtmlNode.leaf (byteToString c) .PlainText []])
      = [HtmlNode.leaf [c] .PlainText []] ++ textLeaf t := by
    rw [byteToString_ascii hc]
    unfold textLeaf
    by_cases hte : t = []
    · subst hte; simp
    · have : 0 < t.length := List.length_pos.mpr hte
      simp [hte, this]
  have h1 : scanLoop (parsingFuncs ro (t.length + 3 + 1 + 1)) (fun _ => false)
      (t.length + 3 + 1 + 1) (cursor [] (92 :: c :: (t ++ [92, c])), 0, [])
      = scanLoop (parsingFuncs ro (t.length + 3 + 1 + 1)) (fun _ => false) (t.length + 3 + 1)
        (cursor ([92] ++ [c]) (t ++ [92, c]), ([92] ++ [c]).length,
          [] ++ [.leaf (byteToString c) .PlainText []]) := by
    rw [hdr, scanLoop_step _ _ _ (by simp [cursor_ch]) rfl
      (buildNestedorRead_escaped _ [] c d r 0 [] (le_refl _))]
    rfl
  have h2 := scanLoop_plain (parsingFuncs ro (t.length + 3 + 1 + 1)) (fun _ => false)
    (fun _ _ => rfl) t ht ([92] ++ [c]) [92, c] (by simp) (t.length + 3 + 1) (by omega)
    ([92] ++ [c]).length ([] ++ [.leaf (byteToString c) .PlainText []]) (le_refl _)
  have h3 : scanLoop (parsingFuncs ro (t.length + 3 + 1 + 1)) (fun _ => false)
      (t.length + 3 + 1 - t.length)
      (cursor ([92] ++ [c] ++ t) [92, c], ([92] ++ [c]).length,
        [] ++ [.leaf (byteToString c) .PlainText []])
      = .ok (cursorEnd ([92] ++ [c] ++ t ++ [92]) c, ([92] ++ [c] ++ t ++ [92]).length,
          [.leaf [c] .PlainText []] ++ textLeaf t ++ [.leaf [c] .PlainText []]) := by
    rw [show t.length + 3 + 1 - t.length = 3 + 1 from by omega,
      scanLoop_step _ _ _ (by simp [cursor_ch]) rfl
        (buildNestedorRead_escaped_last _ ([92] ++ [c] ++ t) c _ _ (by simp)),
      scanLoop_done _ _ _ (Or.inl rfl), hflush, byteToString_ascii hc]
  have hloop := h1.trans (h2.trans h3)
  unfold parseInput
  rw [hin, hlen, NewParser_cons,
    parse_eq ro _ _ _ _ _ (by rw [hblock]; exact hloop), hblock,
    if_neg (by simp [cursorEnd])]

theorem triple_star_italic_fallback (ro : RangeOrder) (t : GoString) (hne : t ≠ [])
    (ht : Plain t) (n : Nat) (hn : t.length ≤ n) :
    boldItalicNode (parsingFuncs ro (n + 1)) (n + 1)
        (cursor [] (lit "*" ++ (lit "**" ++ (t ++ 42 :: 42 :: []))))
      = .ok (.parent .PlainText
            [.leaf (lit "*" ++ (lit "**" ++ (t ++ 42 :: 42 :: []))) .PlainText []],
          cursorEnd (lit "*" ++ lit "**" ++ t ++ [42]) 42) := by
  have h42 : ¬ t.head?.getD 0 = 42 := by
    simpa using headD_ne_of_plain ht (x := 42) (by decide) (by decide)
  have hinner : boldItalicNode (parsingFuncs ro n) n
      (cursor (lit "*") (lit "**" ++ (t ++ 42 :: 42 :: [])))
      = .ok (.parent .Bold (textLeaf t), cursorEnd (lit "*" ++ lit "**" ++ t ++ [42]) 42) := by
    have hcheck : checkBoldNode (cursor (lit "*") (lit "**" ++ (t ++ 42 :: 42 :: []))) = true := by
      cases t with
      | nil => exact absurd rfl hne
      | cons c t' =>
        simp only [List.head?_cons, Option.getD_some] at h42
        simp [checkBoldNode, lit, cursor_ch, peekCharX_cursor_zero, peekCharX_cursor_one,
          PeekOnce, PeekTwice, h42]
    unfold boldItalicNode
    rw [if_pos hcheck, parseBold_closed _ t ht (lit "*") [] n hn]
    exact congrArg (fun q => Except.ok (HtmlNode.parent .Bold (textLeaf t), q))
      (readX_cursor_end [42] 42 (lit "*" ++ lit "**" ++ t) 0)
  have hid : isIdent (cursor (lit "*") (lit "**" ++ (t ++ 42 :: 42 :: []))) = .Bold := by
    simp [isIdent, lit, cursor_ch, peekCharX_cursor_zero, PeekOnce]
  have hscan : scanLoop (parsingFuncs ro (n + 1))
      (fun p => p.ch == 42 && peekCharX p PeekOnce != 42) (n + 1)
      (cursor (lit "*") (lit "**" ++ (t ++ 42 :: 42 :: [])),
        (cursor (lit "*") (lit "**" ++ (t ++ 42 :: 42 :: []))).current, [])
      = .ok (cursorEnd (lit "*" ++ lit "**" ++ t ++ [42]) 42,
          (cursorEnd (lit "*" ++ lit "**" ++ t ++ [42]) 42).current,
          [] ++ [.parent .Bold (textLeaf t)]) := by
    rw [scanLoop_construct (parsingFuncs ro (n + 1))
      (fun p => p.ch == 42 && peekCharX p PeekOnce != 42) n
      (by simp [lit, cursor_ch])
      (by simp [lit, cursor_ch, peekCharX_cursor_zero, PeekOnce])
      (by rw [hid]; decide) (by rw [hid]; decide) (by rw [hid]; rfl)
      (le_refl _) (by simp [cursor]) hinner,
      scanLoop_done _ _ _ (Or.inl rfl), if_neg (by simp [cursor])]
  have hcheck0 : checkBoldNode (cursor [] (lit "*" ++ (lit "**" ++ (t ++ 42 :: 42 :: []))))
      = false := by
    simp [checkBoldNode, lit, cursor_ch, peekCharX_cursor_zero, peekCharX_cursor_one,
      PeekOnce, PeekTwice]
  unfold boldItalicNode
  rw [hcheck0]
  simp only [Bool.false_eq_true, if_false]
  unfold parseItalic parseChildren
  simp only []
  have hread : readX 1 (cursor [] (lit "*" ++ (lit "**" ++ (t ++ 42 :: 42 :: []))))
      = cursor (lit "*") (lit "**" ++ (t ++ 42 :: 42 :: [])) := by
    have := readX_cursor (lit "*") [] (lit "**" ++ (t ++ 42 :: 42 :: [])) (by simp [lit])
    simpa using this
  rw [hread]
  rw [hscan]
  simp only [Except.bind, bind, pure, Except.pure]
  rw [checkUnterminatedExceptions_eof (p := cursorEnd (lit "*" ++ lit "**" ++ t ++ [42]) 42) rfl
    (Or.inr (Or.inl rfl))]
  simp only [if_true]
  have hsl : slice (cursorEnd (lit "*" ++ lit "**" ++ t ++ [42]) 42).input
      (cursor [] (lit "*" ++ (lit "**" ++ (t ++ 42 :: 42 :: [])))).current
      (cursorEnd (lit "*" ++ lit "**" ++ t ++ [42]) 42).peek
      = .ok (lit "*" ++ (lit "**" ++ (t ++ 42 :: 42 :: []))) := by
    have := slice_from [] (lit "*" ++ lit "**" ++ t ++ [42] ++ [42])
    simpa [cursor, cursorEnd, lit] using this
  rw [hsl]

theorem scanLoop_text (pf : NodeType → Option ParseFunc) (bc : Parser → Bool)
    (t : GoString) (ht : Plain t)
    (hbc : ∀ (pre' : GoString) (c : Nat) (rest' : GoString), c ∈ t →
      bc (cursor pre' (c :: rest')) = false)
    (pre rest : GoString) (hrest : rest ≠ []) (fuel : Nat) (hf : t.length ≤ fuel)
    (start : Nat) (children : List HtmlNode) (hs : start ≤ pre.length) :
    scanLoop pf bc fuel (cursor pre (t ++ rest), start, children)
      = scanLoop pf bc (fuel - t.length) (cursor (pre ++ t) rest, start, children) := by
  induction t generalizing pre fuel with
  | nil => simp
  | cons c t ih =>
    have hc : plainChar c = true := ht c (List.mem_cons_self _ _)
    have ht' : Plain t := fun d hd => ht d (List.mem_cons_of_mem _ hd)
    have hbc' : ∀ (pre' : GoString) (x : Nat) (rest' : GoString), x ∈ t →
        bc (cursor pre' (x :: rest')) = false :=
      fun pre' x rest' hx => hbc pre' x rest' (List.mem_cons_of_mem _ hx)
    obtain ⟨fuel, rfl⟩ : ∃ f, fuel = f + 1 := ⟨fuel - 1, by simp at hf; omega⟩
    obtain ⟨d, r, hdr⟩ : ∃ d r, t ++ rest = d :: r := by
      cases h : t ++ rest with
      | nil => simp [hrest] at h
      | cons d r => exact ⟨d, r, rfl⟩
    have hcur : plainChar (cursor pre (c :: t ++ rest)).ch = true := hc
    rw [scanLoop, if_neg (by
      rw [List.cons_append, hbc pre c (t ++ rest) (List.mem_cons_self _ _)]
      have := plainChar_ne_zero hc
      simp [cursor, EOF, this])]
    rw [buildNestedorRead_plain pf hcur (by simpa [cursor] using hs) (by simp [cursor])]
    have hstep : readChar (cursor pre (c :: t ++ rest)) = cursor (pre ++ [c]) (t ++ rest) := by
      rw [List.cons_append, hdr, readChar_cursor]
    show scanLoop pf bc fuel (readChar (cursor pre (c :: t ++ rest)), start, children) = _
    rw [hstep, ih ht' hbc' (pre ++ [c]) fuel (by simp at hf; omega) (by simp; omega)]
    simp

theorem scanLoop_text_eof (pf : NodeType → Option ParseFunc) (bc : Parser → Bool)
    (t : GoString) (c : Nat) (ht : Plain (t ++ [c]))
    (hbc : ∀ (pre' : GoString) (x : Nat) (rest' : GoString), x ∈ t ++ [c] →
      bc (cursor pre' (x :: rest')) = false)
    (pre : GoString) (fuel : Nat) (hf : t.length + 1 ≤ fuel)
    (start : Nat) (children : List HtmlNode) (hs : start ≤ pre.length) :
    scanLoop pf bc fuel (cursor pre (t ++ [c]), start, children)
      = .ok (cursorEnd (pre ++ t) c, start, children) := by
  have ht' : Plain t := fun x hx => ht x (by simp [hx])
  have hc : plainChar c = true := ht c (by simp)
  rw [scanLoop_text pf bc t ht' (fun pre' x rest' hx => hbc pre' x rest' (by simp [hx]))
    pre [c] (by simp) fuel (by omega) start children hs]
  obtain ⟨f, hfe⟩ : ∃ f, fuel - t.length = f + 1 := ⟨fuel - t.length - 1, by omega⟩
  have hcur : plainChar (cursor (pre ++ t) [c]).ch = true := hc
  rw [hfe, scanLoop, if_neg (by
      rw [hbc (pre ++ t) c [] (by simp)]
      have := plainChar_ne_zero hc
      simp [cursor, EOF, this])]
  rw [buildNestedorRead_plain pf hcur (by simp [cursor]; omega) (by simp [cursor])]
  show scanLoop pf bc f (readChar (cursor (pre ++ t) [c]), start, children) = _
  rw [readChar_cursor_last, scanLoop_done pf bc f (Or.inl rfl)]

/-- The kinds for which reaching the end of the input is no reason to fall back. -/
theorem checkUnterminatedExceptions_listElement (p : Parser) :
    checkUnterminatedExceptions p .ListElement = false := by
  simp [checkUnterminatedExceptions]

theorem parseChildren_item_closed (pf : NodeType → Option ParseFunc) (bc : Parser → Bool)
    (t : GoString) (ht : Plain t)
    (hbc : ∀ (pre' : GoString) (c : Nat) (rest' : GoString), c ∈ t →
      bc (cursor pre' (c :: rest')) = false)
    (pre : GoString) (d : Nat) (rest : GoString)
    (hbreak : bc (cursor (pre ++ t) (d :: rest)) = true)
    (fuel : Nat) (hf : t.length ≤ fuel) :
    parseChildren pf fuel 0 bc .ListElement (cursor pre (t ++ d :: rest))
      = .ok (.parent .ListElement (textLeaf t), cursor (pre ++ t) (d :: rest)) := by
  unfold parseChildren
  simp only [readX]
  rw [cursor_current,
    scanLoop_text pf bc t ht hbc pre (d :: rest) (by simp) fuel hf _ _ (le_refl _),
    scanLoop_done pf bc _ (Or.inr hbreak)]
  simp only [Except.bind, bind, pure, Except.pure, checkUnterminatedExceptions_listElement]
  simp only [Bool.false_eq_true, if_false,
    if_neg (show ¬ (NodeType.ListElement = NodeType.Paragraph) from by decide), Nat.add_zero]
  by_cases hte : t = []
  · subst hte
    simp [textLeaf, cursor]
  · have hl : 0 < t.length := List.length_pos.mpr hte
    rw [if_pos (by simp [cursor]; omega)]
    have hsl : slice (cursor (pre ++ t) (d :: rest)).input pre.length
        (cursor (pre ++ t) (d :: rest)).current = .ok t := by
      have := slice_append pre t (d :: rest)
      simpa [cursor] using this
    rw [hsl]
    simp [textLeaf, hte]

theorem parseChildren_item_eof (pf : NodeType → Option ParseFunc) (bc : Parser → Bool)
    (t : GoString) (c : Nat) (ht : Plain (t ++ [c]))
    (hbc : ∀ (pre' : GoString) (x : Nat) (rest' : GoString), x ∈ t ++ [c] →
      bc (cursor pre' (x :: rest')) = false)
    (pre : GoString) (fuel : Nat) (hf : t.length + 1 ≤ fuel) :
    parseChildren pf fuel 0 bc .ListElement (cursor pre (t ++ [c]))
      = .ok (.parent .ListElement (textLeaf t), cursorEnd (pre ++ t) c) := by
  unfold parseChildren
  simp only [readX]
  rw [cursor_current,
    scanLoop_text_eof pf bc t c ht hbc pre fuel hf _ _ (le_refl _)]
  simp only [Except.bind, bind, pure, Except.pure, checkUnterminatedExceptions_listElement]
  simp only [Bool.false_eq_true, if_false,
    if_neg (show ¬ (NodeType.ListElement = NodeType.Paragraph) from by decide), Nat.add_zero]
  by_cases hte : t = []
  · subst hte
    simp [textLeaf, cursorEnd]
  · have hl : 0 < t.length := List.length_pos.mpr hte
    rw [if_pos (by simp [cursorEnd]; omega)]
    have hsl : slice (cursorEnd (pre ++ t) c).input pre.length
        (cursorEnd (pre ++ t) c).current = .ok t := by
      have := slice_append pre t [c]
      simpa [cursorEnd] using this
    rw [hsl]
    simp [textLeaf, hte]

theorem parseChildren_item_empty (pf : NodeType → Option ParseFunc) (bc : Parser → Bool)
    (pre : GoString) (c : Nat) (fuel : Nat) :
    parseChildren pf fuel 0 bc .ListElement (cursorEnd pre c)
      = .ok (.parent .ListElement [], cursorEnd pre c) := by
  unfold parseChildren
  simp only [readX]
  rw [scanLoop_done pf bc _ (Or.inl rfl)]
  simp only [Except.bind, bind, pure, Except.pure, checkUnterminatedExceptions_listElement]
  simp

theorem digitChar_toNat {d : Nat} (h : d < 10) : isDigit (Nat.digitChar d).toNat = true := by
  interval_cases d <;> rfl

theorem toDigitsCore_digits (fuel n : Nat) (acc : List Char)
    (hacc : ∀ c ∈ acc, isDigit c.toNat = true) :
    ∀ c ∈ Nat.toDigitsCore 10 fuel n acc, isDigit c.toNat = true := by
  induction fuel generalizing n acc with
  | zero => simpa [Nat.toDigitsCore] using hacc
  | succ fuel ih =>
    have hd : isDigit (Nat.digitChar (n % 10)).toNat = true :=
      digitChar_toNat (Nat.mod_lt _ (by decide))
    have hacc' : ∀ c ∈ Nat.digitChar (n % 10) :: acc, isDigit c.toNat = true := by
      intro c hc
      rcases List.mem_cons.mp hc with rfl | hc
      · exact hd
      · exact hacc c hc
    unfold Nat.toDigitsCore
    simp only []
    split
    · exact hacc'
    · exact ih _ _ hacc'

theorem toDigitsCore_ne_nil (fuel n : Nat) (acc : List Char) (h : 0 < fuel) :
    Nat.toDigitsCore 10 fuel n acc ≠ [] := by
  induction fuel generalizing n acc with
  | zero => exact absurd h (by decide)
  | succ fuel ih =>
    unfold Nat.toDigitsCore
    simp only []
    split
    · simp
    · cases fuel with
      | zero => simp [Nat.toDigitsCore]
      | succ f => exact ih _ _ (Nat.succ_pos _)

theorem decimal_digits (n : Nat) : ∀ c ∈ decimal n, isDigit c = true := by
  intro c hc
  unfold decimal at hc
  obtain ⟨x, hx, rfl⟩ := List.mem_map.mp hc
  exact toDigitsCore_digits _ _ [] (by simp) x hx

theorem decimal_ne_nil (n : Nat) : decimal n ≠ [] := by
  unfold decimal Nat.toDigits
  intro h
  exact toDigitsCore_ne_nil (n + 1) n [] (Nat.succ_pos _) (List.map_eq_nil_iff.mp h)

theorem leadingDigits_run (m : GoString) (hm : ∀ c ∈ m, isDigit c = true) (d : Nat)
    (rest : GoString) (hd : isDigit d = false) : leadingDigits (m ++ d :: rest) = m.length := by
  induction m with
  | nil => simp [leadingDigits_cons, hd]
  | cons c m ih =>
    rw [List.cons_append, leadingDigits_cons, if_pos (hm c (List.mem_cons_self _ _)),
      ih (fun x hx => hm x (List.mem_cons_of_mem _ hx))]
    simp

theorem isOrderedIdent_cursor (pre rest : GoString) :
    isOrderedIdent (cursor pre rest)
      = (rest.getD (leadingDigits rest) 0 == 46 && rest.getD (leadingDigits rest + 1) 0 == 32) := by
  unfold isOrderedIdent
  simp only [cursor_input, cursor_current, List.drop_left, skipDigits_eq, readFromIndex_eq]
  rw [getD_append_add, Nat.add_assoc, getD_append_add]

theorem isOrderedIdent_marker (pre m rest : GoString) (hm : ∀ c ∈ m, isDigit c = true) :
    isOrderedIdent (cursor pre (m ++ 46 :: 32 :: rest)) = true := by
  rw [isOrderedIdent_cursor, leadingDigits_run m hm 46 _ (by decide)]
  have h1 := getD_append_add m (46 :: 32 :: rest) 0
  have h2 := getD_append_add m (46 :: 32 :: rest) 1
  simp only [Nat.add_zero] at h1
  rw [h1, h2]
  rfl

theorem isOrderedIdent_other (pre : GoString) (c : Nat) (rest : GoString)
    (hd : isDigit c = false) (hc : c ≠ 46) : isOrderedIdent (cursor pre (c :: rest)) = false := by
  rw [isOrderedIdent_cursor, leadingDigits_cons]
  simp [hd, hc]

theorem isIdent_digit {p : Parser} (h : isDigit p.ch = true) :
    isIdent p = if isOrderedIdent p = true then .OrderedList else .PlainText := by
  have h42 : p.ch ≠ 42 := by intro h'; rw [h'] at h; exact absurd h (by decide)
  have h96 : p.ch ≠ 96 := by intro h'; rw [h'] at h; exact absurd h (by decide)
  have h33 : p.ch ≠ 33 := by intro h'; rw [h'] at h; exact absurd h (by decide)
  have h91 : p.ch ≠ 91 := by intro h'; rw [h'] at h; exact absurd h (by decide)
  have h45 : p.ch ≠ 45 := by intro h'; rw [h'] at h; exact absurd h (by decide)
  have h92 : p.ch ≠ 92 := by intro h'; rw [h'] at h; exact absurd h (by decide)
  simp [isIdent, h42, h96, h33, h91, h45, h92, h]

theorem blockType_digit {p : Parser} (h : isDigit p.ch = true) :
    blockType p = if isOrderedIdent p = true then .OrderedList else .Paragraph := by
  have h62 : p.ch ≠ 62 := by intro h'; rw [h'] at h; exact absurd h (by decide)
  have h45 : p.ch ≠ 45 := by intro h'; rw [h'] at h; exact absurd h (by decide)
  have h35 : p.ch ≠ 35 := by intro h'; rw [h'] at h; exact absurd h (by decide)
  simp [blockType, h62, h45, h35, h]

theorem consumeDigits_cursor (m : GoString) (hm : ∀ c ∈ m, isDigit c = true) (d : Nat)
    (rest : GoString) (hd : isDigit d = false) (pre : GoString) (fuel : Nat)
    (hf : m.length ≤ fuel) :
    consumeDigits fuel (cursor pre (m ++ d :: rest)) = .ok (cursor (pre ++ m) (d :: rest)) := by
  induction m generalizing pre fuel with
  | nil =>
    cases fuel <;> simp [consumeDigits, cursor_ch, hd] <;> rfl
  | cons c m ih =>
    obtain ⟨fuel, rfl⟩ : ∃ f, fuel = f + 1 := ⟨fuel - 1, by simp at hf; omega⟩
    obtain ⟨x, r, hxr⟩ : ∃ x r, m ++ d :: rest = x :: r := by
      cases h : m ++ d :: rest with
      | nil => simp at h
      | cons x r => exact ⟨x, r, rfl⟩
    have hc : isDigit (cursor pre (c :: m ++ d :: rest)).ch = true := hm c (List.mem_cons_self _ _)
    rw [consumeDigits, if_pos hc, List.cons_append, hxr, readChar_cursor, ← hxr,
      ih (fun y hy => hm y (List.mem_cons_of_mem _ hy)) (pre ++ [c]) fuel (by simp at hf; omega)]
    simp

/-- A character of an item text or the newline that joins two items: plain, and neither a
digit nor `.`. -/
theorem letterOrSpace_plain {c : Nat} (h : letterOrSpace c = true ∨ c = 10) :
    plainChar c = true ∧ isDigit c = false ∧ c ≠ 46 := by
  rcases h with h | rfl
  · simp only [letterOrSpace, Bool.or_eq_true, Bool.and_eq_true, decide_eq_true_eq,
      beq_iff_eq] at h
    refine ⟨?_, ?_, ?_⟩
    · simp only [plainChar, isDigit, Bool.and_eq_true, bne_iff_ne, ne_eq, Bool.not_eq_true',
        Bool.and_eq_false_iff, decide_eq_false_iff_not, decide_eq_true_eq]
      omega
    · simp only [isDigit, Bool.and_eq_false_iff, decide_eq_false_iff_not]
      omega
    · omega
  · decide

theorem parseOrderedList_item (pf : NodeType → Option ParseFunc) (m u : GoString)
    (hm : ∀ c ∈ m, isDigit c = true)
    (hu : ∀ c ∈ u, plainChar c = true ∧ isDigit c = false ∧ c ≠ 46)
    (pre m' rest : GoString) (hm' : ∀ c ∈ m', isDigit c = true) (hne : m' ≠ [])
    (fuel : Nat) (hf : u.length ≤ fuel) :
    parseOrderedList pf fuel (cursor pre (m ++ 46 :: 32 :: (u ++ (m' ++ 46 :: 32 :: rest))))
      = .ok (.parent .ListElement (textLeaf u),
          cursor (pre ++ m ++ [46, 32] ++ u) (m' ++ 46 :: 32 :: rest)) := by
  obtain ⟨d, m'', rfl⟩ := List.exists_cons_of_ne_nil hne
  obtain ⟨x, r, hxr⟩ : ∃ x r, u ++ (d :: m'' ++ 46 :: 32 :: rest) = x :: r := by
    cases h : u ++ (d :: m'' ++ 46 :: 32 :: rest) with
    | nil => simp at h
    | cons x r => exact ⟨x, r, rfl⟩
  unfold parseOrderedList
  simp only [cursor_input]
  rw [consumeDigits_cursor m hm 46 _ (by decide) pre _ (by simp; omega)]
  simp only [Except.bind, bind, pure, Except.pure]
  have hread : readX 2 (cursor (pre ++ m) (46 :: 32 :: (u ++ (d :: m'' ++ 46 :: 32 :: rest))))
      = cursor (pre ++ m ++ [46, 32]) (u ++ (d :: m'' ++ 46 :: 32 :: rest)) := by
    have := readX_cursor [46, 32] (pre ++ m) (u ++ (d :: m'' ++ 46 :: 32 :: rest)) (by simp)
    simpa using this
  rw [hread]
  have := parseChildren_item_closed pf isOrderedIdent u (fun c hc => (hu c hc).1)
    (fun pre' c rest' hc => isOrderedIdent_other pre' c rest' (hu c hc).2.1 (hu c hc).2.2)
    (pre ++ m ++ [46, 32]) d (m'' ++ 46 :: 32 :: rest)
    (isOrderedIdent_marker _ (d :: m'') rest hm') fuel hf
  exact this

theorem parseOrderedList_last (pf : NodeType → Option ParseFunc) (m t : GoString)
    (hm : ∀ c ∈ m, isDigit c = true)
    (ht : ∀ c ∈ t, plainChar c = true ∧ isDigit c = false ∧ c ≠ 46)
    (pre : GoString) (fuel : Nat) (hf : t.length ≤ fuel) :
    ∃ cs q, parseOrderedList pf fuel (cursor pre (m ++ 46 :: 32 :: t))
      = .ok (.parent .ListElement cs, q) ∧ q.ch = EOF := by
  unfold parseOrderedList
  simp only [cursor_input]
  rw [consumeDigits_cursor m hm 46 _ (by decide) pre _ (by simp; omega)]
  simp only [Except.bind, bind, pure, Except.pure]
  rcases List.eq_nil_or_concat t with hte | ⟨t', c, hte⟩
  · subst hte
    have hread : readX 2 (cursor (pre ++ m) [46, 32]) = cursorEnd (pre ++ m ++ [46]) 32 := by
      rw [readX, readChar_cursor, readX_succ_last]
    rw [hread, parseChildren_item_empty]
    exact ⟨_, _, rfl, rfl⟩
  · rw [List.concat_eq_append] at hte
    subst hte
    have hread : readX 2 (cursor (pre ++ m) (46 :: 32 :: (t' ++ [c])))
        = cursor (pre ++ m ++ [46, 32]) (t' ++ [c]) := by
      have := readX_cursor [46, 32] (pre ++ m) (t' ++ [c]) (by simp)
      simpa using this
    rw [hread, parseChildren_item_eof pf isOrderedIdent t' c (fun x hx => (ht x hx).1)
      (fun pre' x rest' hx => isOrderedIdent_other pre' x rest' (ht x hx).2.1 (ht x hx).2.2)
      (pre ++ m ++ [46, 32]) fuel (by simpa using hf)]
    exact ⟨_, _, rfl, rfl⟩

theorem orderedBlock_single (k : Nat) (t : GoString) :
    orderedBlock k [t] = decimal k ++ 46 :: 32 :: t := by
  simp [orderedBlock, lit]

theorem orderedBlock_more (k : Nat) (t next : GoString) (rest : List GoString) :
    orderedBlock k (t :: next :: rest)
      = decimal k ++ 46 :: 32 :: ((t ++ [10]) ++
          (decimal (k + 1) ++ 46 :: 32 :: (orderedBlock (k + 1) (next :: rest)).drop
            ((decimal (k + 1)).length + 2))) := by
  have htail : ∀ (j : Nat) (l : List GoString) (x : GoString),
      orderedBlock j (x :: l) = decimal j ++ 46 :: 32 ::
        (orderedBlock j (x :: l)).drop ((decimal j).length + 2) := by
    intro j l x
    cases l with
    | nil => simp [orderedBlock, lit]
    | cons y l' => simp [orderedBlock, lit]
  rw [← htail (k + 1) rest next]
  simp [orderedBlock, lit]

theorem marker_ch_digit (pre m tail : GoString) (hm : ∀ c ∈ m, isDigit c = true)
    (hne : m ≠ []) : isDigit (cursor pre (m ++ 46 :: 32 :: tail)).ch = true := by
  obtain ⟨d, m', rfl⟩ := List.exists_cons_of_ne_nil hne
  exact hm d (List.mem_cons_self _ _)

theorem isDigit_ne_zero {c : Nat} (h : isDigit c = true) : c ≠ 0 := by
  intro h0
  subst h0
  exact absurd h (by decide)

theorem scanLoop_marker (ro : RangeOrder) (F fuel : Nat) (pre m tail : GoString)
    (hm : ∀ c ∈ m, isDigit c = true) (hne : m ≠ []) (acc : List HtmlNode)
    {node : HtmlNode} {q : Parser}
    (hres : parseOrderedList (parsingFuncs ro F) F (cursor pre (m ++ 46 :: 32 :: tail))
      = .ok (node, q)) :
    scanLoop (parsingFuncs ro (F + 1)) (fun _ => false) (fuel + 1)
        (cursor pre (m ++ 46 :: 32 :: tail), pre.length, acc)
      = scanLoop (parsingFuncs ro (F + 1)) (fun _ => false) fuel (q, q.current, acc ++ [node]) := by
  have hd := marker_ch_digit pre m tail hm hne
  have hid : isIdent (cursor pre (m ++ 46 :: 32 :: tail)) = .OrderedList := by
    rw [isIdent_digit hd, if_pos (isOrderedIdent_marker pre m tail hm)]
  rw [scanLoop_construct (parsingFuncs ro (F + 1)) (fun _ => false) fuel (isDigit_ne_zero hd) rfl
    (by rw [hid]; decide) (by rw [hid]; decide) (by rw [hid]; rfl)
    (le_of_eq (cursor_current pre _).symm) (by simp [cursor]) hres,
    if_neg (by simp [cursor])]

theorem orderedItems_scan (ro : RangeOrder) (F : Nat) (items : List GoString)
    (hne : items ≠ []) (hitems : ∀ t ∈ items, ∀ c ∈ t, letterOrSpace c = true)
    (hF : ∀ t ∈ items, t.length + 1 ≤ F) (k : Nat) (pre : GoString) (acc : List HtmlNode)
    (M : Nat) (hM : items.length ≤ M) :
    ∃ q new, scanLoop (parsingFuncs ro (F + 1)) (fun _ => false) M
        (cursor pre (orderedBlock k items), pre.length, acc) = .ok (q, q.current, acc ++ new) ∧
      new.length = items.length ∧ ∀ x ∈ new, ∃ cs, x = HtmlNode.parent .ListElement cs := by
  induction items generalizing k pre acc M with
  | nil => exact absurd rfl hne
  | cons t rest ih =>
    obtain ⟨M, rfl⟩ : ∃ f, M = f + 1 := ⟨M - 1, by simp at hM; omega⟩
    have ht : ∀ c ∈ t, plainChar c = true ∧ isDigit c = false ∧ c ≠ 46 :=
      fun c hc => letterOrSpace_plain (Or.inl (hitems t (List.mem_cons_self _ _) c hc))
    have htF := hF t (List.mem_cons_self _ _)
    cases rest with
    | nil =>
      obtain ⟨cs, q, hres, hq⟩ := parseOrderedList_last (parsingFuncs ro F) (decimal k) t
        (decimal_digits k) ht pre F (by omega)
      refine ⟨q, [.parent .ListElement cs], ?_, rfl, ?_⟩
      · rw [orderedBlock_single,
          scanLoop_marker ro F M pre (decimal k) t (decimal_digits k) (decimal_ne_nil k) acc hres,
          scanLoop_done _ _ _ (Or.inl hq)]
      · intro x hx
        exact ⟨cs, by simpa using hx⟩
    | cons next rest' =>
      have hu : ∀ c ∈ t ++ [10], plainChar c = true ∧ isDigit c = false ∧ c ≠ 46 := by
        intro c hc
        rcases List.mem_append.mp hc with hc | hc
        · exact ht c hc
        · exact letterOrSpace_plain (Or.inr (by simpa using hc))
      have hres := parseOrderedList_item (parsingFuncs ro F) (decimal k) (t ++ [10])
        (decimal_digits k) hu pre (decimal (k + 1))
        ((orderedBlock (k + 1) (next :: rest')).drop ((decimal (k + 1)).length + 2))
        (decimal_digits (k + 1)) (decimal_ne_nil (k + 1)) F (by simp; omega)
      obtain ⟨q, new, hscan, hlen, hkind⟩ := ih (by simp)
        (fun x hx => hitems x (List.mem_cons_of_mem _ hx))
        (fun x hx => hF x (List.mem_cons_of_mem _ hx)) (k + 1)
        (pre ++ decimal k ++ [46, 32] ++ (t ++ [10]))
        (acc ++ [.parent .ListElement (textLeaf (t ++ [10]))]) M (by simp at hM ⊢; omega)
      refine ⟨q, .parent .ListElement (textLeaf (t ++ [10])) :: new, ?_, by simp [hlen], ?_⟩
      · have hblock : orderedBlock (k + 1) (next :: rest') = decimal (k + 1) ++ 46 :: 32 ::
            (orderedBlock (k + 1) (next :: rest')).drop ((decimal (k + 1)).length + 2) := by
          cases rest' with
          | nil => simp [orderedBlock, lit]
          | cons y l' => simp [orderedBlock, lit]
        rw [orderedBlock_more,
          scanLoop_marker ro F M pre (decimal k) _ (decimal_digits k) (decimal_ne_nil k) acc hres,
          cursor_current, ← hblock, hscan]
        simp
      · intro x hx
        rcases List.mem_cons.mp hx with rfl | hx
        · exact ⟨_, rfl⟩
        · exact hkind x hx

theorem orderedBlock_length (k : Nat) (items : List GoString) :
    items.length ≤ (orderedBlock k items).length ∧
      ∀ t ∈ items, t.length + 1 ≤ (orderedBlock k items).length := by
  induction items generalizing k with
  | nil => simp [orderedBlock]
  | cons t rest ih =>
    cases rest with
    | nil =>
      simp only [orderedBlock, List.length_append, List.length_singleton, List.mem_singleton]
      refine ⟨by simp [lit]; omega, ?_⟩
      intro x hx
      subst hx
      simp [lit]
      omega
    | cons next rest' =>
      obtain ⟨h1, h2⟩ := ih (k + 1)
      have e1 : (lit ". ").length = 2 := rfl
      have e2 : (lit "\n").length = 1 := rfl
      simp only [orderedBlock, List.length_append, List.length_cons, e1, e2] at h1 h2 ⊢
      refine ⟨by omega, ?_⟩
      intro x hx
      rcases List.mem_cons.mp hx with rfl | hx
      · omega
      · have := h2 x hx
        omega

theorem orderedBlock_example : orderedBlock 1 [lit "a", lit "b"] = lit "1. a\n2. b" := by
  decide

theorem bind_ok_inv {α β : Type} {x : Except Err α} {g : α → Except Err β} {b : β}
    (h : (x >>= g) = .ok b) : ∃ a, x = .ok a ∧ g a = .ok b := by
  cases x with
  | error e => cases h
  | ok a => exact ⟨a, rfl, h⟩

theorem pure_ok_inv {α : Type} {a b : α} (h : (pure a : Except Err α) = .ok b) : a = b := by
  cases h
  rfl

theorem ReadFrom.same (p : Parser) : ReadFrom p p := ⟨0, rfl⟩

theorem ReadFrom.chain {p q r : Parser} (h1 : ReadFrom p q) (h2 : ReadFrom q r) :
    ReadFrom p r := by
  obtain ⟨a, rfl⟩ := h1
  obtain ⟨b, rfl⟩ := h2
  exact ⟨a + b, (readX_add a b p).symm⟩

theorem ReadFrom.afterReadChar (p : Parser) : ReadFrom p (readChar p) := ⟨1, rfl⟩

theorem ReadFrom.afterReadX (n : Nat) (p : Parser) : ReadFrom p (readX n p) := ⟨n, rfl⟩

theorem buildNestedorRead_reads {pf : NodeType → Option ParseFunc} (hpf : TableReads pf)
    {s s' : LoopState} (h : buildNestedorRead pf s = .ok s') : ReadFrom s.1 s'.1 := by
  obtain ⟨p, start, children⟩ := s
  unfold buildNestedorRead at h
  simp only [] at h
  obtain ⟨sub, -, h⟩ := bind_ok_inv h
  split at h
  · obtain ⟨b, -, h⟩ := bind_ok_inv h
    have := pure_ok_inv h
    subst this
    exact ⟨2, rfl⟩
  · split at h
    · split at h
      · cases h
      · rename_i f hf
        obtain ⟨r, hr, h⟩ := bind_ok_inv h
        have := pure_ok_inv h
        subst this
        exact hpf _ f p r.1 r.2 hf hr
    · have := pure_ok_inv h
      subst this
      exact ⟨1, rfl⟩

theorem scanLoop_reads {pf : NodeType → Option ParseFunc} (hpf : TableReads pf)
    (bc : Parser → Bool) (fuel : Nat) {s s' : LoopState}
    (h : scanLoop pf bc fuel s = .ok s') : ReadFrom s.1 s'.1 := by
  induction fuel generalizing s with
  | zero =>
    unfold scanLoop at h
    split at h
    · have := pure_ok_inv h
      subst this
      exact ReadFrom.same _
    · cases h
  | succ fuel ih =>
    unfold scanLoop at h
    split at h
    · have := pure_ok_inv h
      subst this
      exact ReadFrom.same _
    · obtain ⟨m, hm, h⟩ := bind_ok_inv h
      exact (buildNestedorRead_reads hpf hm).chain (ih h)

theorem parseChildren_reads {pf : NodeType → Option ParseFunc} (hpf : TableReads pf)
    {fuel identSize : Nat} {bc : Parser → Bool} {nodeType : NodeType} {p : Parser}
    {r : HtmlNode × Parser}
    (h : parseChildren pf fuel identSize bc nodeType p = .ok r) : ReadFrom p r.2 := by
  unfold parseChildren at h
  simp only [] at h
  obtain ⟨s, hs, h⟩ := bind_ok_inv h
  have h1 : ReadFrom p s.1 := (ReadFrom.afterReadX identSize p).chain (scanLoop_reads hpf bc fuel hs)
  split at h
  · obtain ⟨v, -, h⟩ := bind_ok_inv h
    have := pure_ok_inv h
    subst this
    exact h1
  · split at h
    · obtain ⟨v, -, h⟩ := bind_ok_inv h
      have := pure_ok_inv h
      subst this
      exact h1.chain (ReadFrom.afterReadX identSize _)
    · have := pure_ok_inv h
      subst this
      exact h1.chain (ReadFrom.afterReadX identSize _)

theorem consumeDigits_reads (fuel : Nat) {p q : Parser} (h : consumeDigits fuel p = .ok q) :
    ReadFrom p q := by
  induction fuel generalizing p with
  | zero =>
    unfold consumeDigits at h
    split at h
    · cases h
    · have := pure_ok_inv h
      subst this
      exact ReadFrom.same _
  | succ fuel ih =>
    unfold consumeDigits at h
    split at h
    · exact (ReadFrom.afterReadChar p).chain (ih h)
    · have := pure_ok_inv h
      subst this
      exact ReadFrom.same _

theorem parseImageLink_reads (ro : RangeOrder) {pf : NodeType → Option ParseFunc}
    (hpf : TableReads pf) (fuel : Nat) (nodeType : NodeType) {p : Parser}
    {r : HtmlNode × Parser} (h : parseImageLink ro pf fuel nodeType p = .ok r) :
    ReadFrom p r.2 := by
  unfold parseImageLink at h
  have h0 : ReadFrom p (if nodeType = .Image then readChar p else p) := by
    split
    · exact ReadFrom.afterReadChar p
    · exact ReadFrom.same p
  obtain ⟨⟨prefixNode, p1⟩, ha, h⟩ := bind_ok_inv h
  have h1 : ReadFrom p p1 := h0.chain (parseChildren_reads hpf ha)
  simp only [] at h
  split at h
  · obtain ⟨v, -, h⟩ := bind_ok_inv h
    have := pure_ok_inv h
    subst this
    exact h1
  · obtain ⟨⟨srcNode, p2⟩, hb, h⟩ := bind_ok_inv h
    have h2 : ReadFrom p p2 := h1.chain (parseChildren_reads hpf hb)
    simp only [] at h
    obtain ⟨textNode, -, h⟩ := bind_ok_inv h
    split at h
    · have := pure_ok_inv h
      subst this
      exact h2
    · split at h
      · have := pure_ok_inv h
        subst this
        exact h2
      · have := pure_ok_inv h
        subst this
        exact h2
      · cases h

theorem parseEscaped_reads {p : Parser} {r : HtmlNode × Parser}
    (h : parseEscaped p = .ok r) : ReadFrom p r.2 := by
  unfold parseEscaped at h
  obtain ⟨b, -, h⟩ := bind_ok_inv h
  have := pure_ok_inv h
  subst this
  exact ⟨2, rfl⟩

theorem boldItalicNode_reads {pf : NodeType → Option ParseFunc} (hpf : TableReads pf)
    (fuel : Nat) {p : Parser} {r : HtmlNode × Parser}
    (h : boldItalicNode pf fuel p = .ok r) : ReadFrom p r.2 := by
  unfold boldItalicNode at h
  split at h
  · exact parseChildren_reads hpf h
  · exact parseChildren_reads hpf h

theorem parseOrderedList_reads {pf : NodeType → Option ParseFunc} (hpf : TableReads pf)
    (fuel : Nat) {p : Parser} {r : HtmlNode × Parser}
    (h : parseOrderedList pf fuel p = .ok r) : ReadFrom p r.2 := by
  unfold parseOrderedList at h
  obtain ⟨q, hq, h⟩ := bind_ok_inv h
  exact ((consumeDigits_reads _ hq).chain (ReadFrom.afterReadX 2 q)).chain (parseChildren_reads hpf h)

theorem parseUnorderedList_reads {pf : NodeType → Option ParseFunc} (hpf : TableReads pf)
    (fuel : Nat) {p : Parser} {r : HtmlNode × Parser}
    (h : parseUnorderedList pf fuel p = .ok r) : ReadFrom p r.2 := by
  unfold parseUnorderedList at h
  exact (ReadFrom.afterReadX 2 p).chain (parseChildren_reads hpf h)

theorem parsingFuncs_reads (ro : RangeOrder) (n : Nat) : TableReads (parsingFuncs ro n) := by
  induction n with
  | zero =>
    intro k f p node q hf h
    unfold parsingFuncs at hf
    split at hf
    · have := Option.some.inj hf
      subst this
      cases h
    · cases hf
  | succ n ih =>
    intro k f p node q hf h
    cases k <;> simp only [parsingFuncs] at hf <;> cases hf <;>
      first
        | exact parseChildren_reads ih h
        | exact boldItalicNode_reads ih _ h
        | exact parseImageLink_reads ro ih _ _ h
        | exact parseOrderedList_reads ih _ h
        | exact parseUnorderedList_reads ih _ h
        | exact parseEscaped_reads h

theorem ScannerInv.stepChar {input : GoString} {p : Parser} (h : ScannerInv input p) :
    ScannerInv input (readChar p) := by
  obtain ⟨h1, h2, h3, h4, h5⟩ := h
  unfold MarkdownParser.readChar
  split
  · exact ⟨h1, h2, h3, h4, fun hne => absurd rfl hne⟩
  · rename_i hlt
    rw [h1] at hlt
    refine ⟨h1, ?_, rfl, ?_, ?_⟩
    · simp only; omega
    · simp only; omega
    · intro _
      simp only [h1]
      rw [List.getD_eq_getElem?_getD, List.get?_eq_getElem?]
      have : p.peek < input.length := by omega
      rw [List.getElem?_eq_getElem this]
      rfl

theorem ScannerInv.stepX {input : GoString} (n : Nat) {p : Parser} (h : ScannerInv input p) :
    ScannerInv input (readX n p) := by
  induction n generalizing p with
  | zero => exact h
  | succ n ih => exact ih h.stepChar

theorem ScannerInv.of_readFrom {input : GoString} {p q : Parser} (h : ScannerInv input p)
    (hq : ReadFrom p q) : ScannerInv input q := by
  obtain ⟨n, rfl⟩ := hq
  exact h.stepX n

theorem ScannerInv.newParser {input : GoString} (h : input ≠ []) :
    ScannerInv input (NewParser input) := by
  obtain ⟨c, rest, rfl⟩ := List.exists_cons_of_ne_nil h
  rw [NewParser_cons]
  refine ⟨rfl, by simp [cursor], rfl, by simp [cursor], fun _ => ?_⟩
  simp [cursor]

theorem consumeBlockHeading_reads (p : Parser) (kind : NodeType) :
    ReadFrom p (consumeBlockHeading p kind) := by
  unfold consumeBlockHeading
  split
  all_goals first | exact ReadFrom.afterReadX _ p | exact ReadFrom.same p

theorem headingOfLevel_min (k : Nat) (hk : 1 ≤ k) (j : Fin 6) :
    headingOfLevel (min k 6) = headingOfLevel (j.val + 1) ↔ min k 6 = j.val + 1 := by
  have h6 : min k 6 ≤ 6 := Nat.min_le_right _ _
  have h1 : 1 ≤ min k 6 := by omega
  generalize min k 6 = m at h6 h1
  interval_cases m <;> fin_cases j <;> simp [headingOfLevel]

theorem headingOfLevel_kind (m : Nat) :
    headingOfLevel m ≠ .Quote ∧ headingOfLevel m ≠ .UnorderedList ∧
      headingOfLevel m ≠ .OrderedList ∧ headingOfLevel m ≠ .Paragraph := by
  unfold headingOfLevel
  split <;> simp

theorem startsWith_quote_excl (input : GoString) (h : startsWith input (lit "> ") = true) :
    startsWith input (lit "- ") = false ∧ leadingHashes input = 0 ∧ leadingDigits input = 0 := by
  cases input with
  | nil => simp [startsWith, lit] at h
  | cons c rest =>
    have hc : c = 62 := ((startsWith_two (c :: rest) 62 32 (by decide) (by decide)).mp h).1
    subst hc
    refine ⟨?_, by simp [leadingHashes_cons], by simp [leadingDigits_cons, isDigit]⟩
    cases hs : startsWith (62 :: rest) (lit "- ")
    · rfl
    · have h45 := ((startsWith_two (62 :: rest) 45 32 (by decide) (by decide)).mp hs).1
      simp at h45

theorem startsWith_dash_excl (input : GoString) (h : startsWith input (lit "- ") = true) :
    leadingHashes input = 0 ∧ leadingDigits input = 0 := by
  cases input with
  | nil => simp [startsWith, lit] at h
  | cons c rest =>
    have hc : c = 45 := ((startsWith_two (c :: rest) 45 32 (by decide) (by decide)).mp h).1
    subst hc
    exact ⟨by simp [leadingHashes_cons], by simp [leadingDigits_cons, isDigit]⟩

theorem leadingHashes_excl (input : GoString) (h : 1 ≤ leadingHashes input) :
    leadingDigits input = 0 := by
  cases input with
  | nil => simp [leadingHashes] at h
  | cons c rest =>
    rw [leadingHashes_cons] at h
    by_cases hc : c = 35
    · subst hc
      simp [leadingDigits_cons, isDigit]
    · rw [if_neg hc] at h
      omega

theorem blockTypeSpec_cases (input : GoString) :
    (blockTypeSpec input = .Quote ↔ startsWith input (lit "> ") = true) ∧
    (blockTypeSpec input = .UnorderedList ↔ startsWith input (lit "- ") = true) ∧
    (∀ j : Fin 6, blockTypeSpec input = headingOfLevel (j.val + 1) ↔
      1 ≤ leadingHashes input ∧ min (leadingHashes input) 6 = j.val + 1) ∧
    (blockTypeSpec input = .OrderedList ↔
      1 ≤ leadingDigits input ∧
        startsWith (input.drop (leadingDigits input)) (lit ". ") = true) ∧
    (blockTypeSpec input = .Paragraph ↔
      startsWith input (lit "> ") = false ∧ startsWith input (lit "- ") = false ∧
        leadingHashes input = 0 ∧
        ¬ (1 ≤ leadingDigits input ∧
          startsWith (input.drop (leadingDigits input)) (lit ". ") = true)) := by
  have hj : ∀ j : Fin 6, headingOfLevel (j.val + 1) ≠ .Quote ∧
      headingOfLevel (j.val + 1) ≠ .UnorderedList ∧
      headingOfLevel (j.val + 1) ≠ .OrderedList ∧
      headingOfLevel (j.val + 1) ≠ .Paragraph := fun j => headingOfLevel_kind _
  unfold blockTypeSpec
  by_cases hq : startsWith input (lit "> ") = true
  · obtain ⟨e1, e2, e3⟩ := startsWith_quote_excl input hq
    rw [if_pos hq]
    refine ⟨by simp [hq], by simp [e1], fun j => ?_, by simp [e3], by simp [hq]⟩
    simp [e2, (hj j).1.symm]
  · rw [if_neg hq]
    have hq' : startsWith input (lit "> ") = false := by simpa using hq
    by_cases hu : startsWith input (lit "- ") = true
    · obtain ⟨e2, e3⟩ := startsWith_dash_excl input hu
      rw [if_pos hu]
      refine ⟨by simp [hq'], by simp [hu], fun j => ?_, by simp [e3], by simp [hu]⟩
      simp [e2, (hj j).2.1.symm]
    · rw [if_neg hu]
      have hu' : startsWith input (lit "- ") = false := by simpa using hu
      by_cases hh : 1 ≤ leadingHashes input
      · have e3 := leadingHashes_excl input hh
        have hk := headingOfLevel_kind (min (leadingHashes input) 6)
        rw [if_pos hh]
        refine ⟨by simp [hq', hk.1], by simp [hu', hk.2.1],
          fun j => ?_, by simp [e3, hk.2.2.1], ?_⟩
        · rw [headingOfLevel_min _ hh j]
          simp [hh]
        · have : leadingHashes input ≠ 0 := by omega
          simp [this, hk.2.2.2]
      · rw [if_neg hh]
        have hh0 : leadingHashes input = 0 := by omega
        by_cases ho : 1 ≤ leadingDigits input ∧
            startsWith (input.drop (leadingDigits input)) (lit ". ") = true
        · rw [if_pos ho]
          refine ⟨by simp [hq'], by simp [hu'], fun j => ?_, by simp [ho], by simp [ho]⟩
          simp [hh0, (hj j).2.2.1.symm]
        · rw [if_neg ho]
          refine ⟨by simp [hq'], by simp [hu'], fun j => ?_, by simpa using ho, ?_⟩
          · simp [hh0, (hj j).2.2.2.symm]
          · simp only [true_iff]
            exact ⟨hq', hu', hh0, ho⟩

theorem isOrderedIdent_eq (p : Parser) :
    isOrderedIdent p
      = startsWith ((p.input.drop p.current).drop (leadingDigits (p.input.drop p.current)))
          (lit ". ") := by
  have h := startsWith_two
    ((p.input.drop p.current).drop (leadingDigits (p.input.drop p.current))) 46 32
    (by decide) (by decide)
  unfold isOrderedIdent
  simp only [skipDigits_eq, readFromIndex_eq]
  rw [Bool.eq_iff_iff]
  rw [show lit ". " = [46, 32] from by decide, h]
  simp [List.getD_eq_getElem?_getD, List.getElem?_drop, Nat.add_assoc]

theorem parseImageLink_open (ro : RangeOrder) (pf : NodeType → Option ParseFunc)
    (t : GoString) (ht : Plain t) (pre w : GoString) (c : Nat)
    (hw : [91] ++ t = w ++ [c]) (fuel : Nat) (hf : t.length ≤ fuel) :
    parseImageLink ro pf fuel .Link (cursor pre ([91] ++ t))
      = .ok (.leaf w .PlainText [], cursorEnd (pre ++ w) c) := by
  have h1 := parseChildren_open pf (fun p => p.ch == 93) label_break_plain .PlainText
    (fun p hp => checkUnterminatedExceptions_eof hp (by simp)) [91] t ht pre w c hw fuel hf
  have hs : slice (pre ++ w ++ [c]) pre.length (pre ++ w).length = .ok w := by
    have := slice_append pre w [c]
    simpa using this
  unfold parseImageLink
  simp only []
  rw [if_neg (by decide)]
  simp only [List.length_singleton] at h1
  rw [h1]
  simp only [Except.bind, bind, pure, Except.pure]
  rw [if_pos (by simp [cursorEnd, EOF])]
  simp only [cursorEnd, cursor]
  rw [hs]

theorem unterminated_label_parses (ro : RangeOrder) (l : GoString) (c : Nat)
    (ht : Plain (l ++ [c])) :
    parseInput ro ([91] ++ (l ++ [c]))
      = .ok (.parent .Paragraph [.leaf ([91] ++ l) .PlainText []]) := by
  have hbuild := parseImageLink_open ro (parsingFuncs ro (l.length + 2)) (l ++ [c]) ht []
    ([91] ++ l) c (by simp) (l.length + 2) (by simp)
  have hid : isIdent (cursor [] ([91] ++ (l ++ [c]))) = .Link := by
    simp [isIdent, cursor_ch]
  have hlen : ([91] ++ (l ++ [c])).length + 1 = l.length + 3 := by simp
  unfold parseInput
  rw [hlen, NewParser_ne (by simp)]
  have := parse_construct_at_end ro [] ([91] ++ (l ++ [c])) (fun _ h => by simp at h)
    (l.length + 3) (by simp)
    (by simp [blockType, cursor_ch, isDigit])
    (by simp [cursor_ch]) (by simp) (by rw [hid]; decide) (by rw [hid]; decide)
    (by rw [hid]; rfl) hbuild rfl
  simpa [textLeaf] using this

theorem childrenKindsOk_append (xs ys : List HtmlNode) :
    childrenKindsOk (xs ++ ys) = (childrenKindsOk xs && childrenKindsOk ys) := by
  induction xs with
  | nil => simp [childrenKindsOk]
  | cons x xs ih => simp [childrenKindsOk, ih, Bool.and_assoc]

theorem childrenKindsOk_snoc {xs : List HtmlNode} {x : HtmlNode}
    (hxs : childrenKindsOk xs = true) (hx : x.kindsOk = true) :
    childrenKindsOk (xs ++ [x]) = true := by
  rw [childrenKindsOk_append]
  simp [childrenKindsOk, hxs, hx]

theorem kindsOk_textLeaf (v : GoString) : (HtmlNode.leaf v .PlainText []).kindsOk = true := rfl

theorem childrenKindsOk_flush {cs : List HtmlNode} (h : childrenKindsOk cs = true) (c : Prop)
    [Decidable c] (v : GoString) :
    childrenKindsOk (if c then cs ++ [.leaf v .PlainText []] else cs) = true := by
  split
  · exact childrenKindsOk_snoc h rfl
  · exact h

theorem buildNestedorRead_kinds {pf : NodeType → Option ParseFunc} (hpf : TableKinds pf)
    {s s' : LoopState} (hs : childrenKindsOk s.2.2 = true)
    (h : buildNestedorRead pf s = .ok s') : childrenKindsOk s'.2.2 = true := by
  obtain ⟨p, start, children⟩ := s
  unfold buildNestedorRead at h
  simp only [] at h
  obtain ⟨substring, -, h⟩ := bind_ok_inv h
  split at h
  · obtain ⟨b, -, h⟩ := bind_ok_inv h
    have := pure_ok_inv h
    subst this
    exact childrenKindsOk_snoc (childrenKindsOk_flush hs _ _) rfl
  · split at h
    · split at h
      · cases h
      · rename_i f hf
        obtain ⟨⟨node, q⟩, hq, h⟩ := bind_ok_inv h
        have := pure_ok_inv h
        subst this
        exact childrenKindsOk_snoc (childrenKindsOk_flush hs _ _) (hpf _ f p node q hf hq)
    · have := pure_ok_inv h
      subst this
      exact hs

theorem scanLoop_kinds {pf : NodeType → Option ParseFunc} (hpf : TableKinds pf)
    (bc : Parser → Bool) (fuel : Nat) {s s' : LoopState} (hs : childrenKindsOk s.2.2 = true)
    (h : scanLoop pf bc fuel s = .ok s') : childrenKindsOk s'.2.2 = true := by
  induction fuel generalizing s with
  | zero =>
    unfold scanLoop at h
    split at h
    · have := pure_ok_inv h
      subst this
      exact hs
    · cases h
  | succ fuel ih =>
    unfold scanLoop at h
    split at h
    · have := pure_ok_inv h
      subst this
      exact hs
    · obtain ⟨m, hm, h⟩ := bind_ok_inv h
      exact ih (buildNestedorRead_kinds hpf hs hm) h

theorem parseChildren_kinds {pf : NodeType → Option ParseFunc} (hpf : TableKinds pf)
    {fuel identSize : Nat} {bc : Parser → Bool} {nodeType : NodeType}
    (hk1 : nodeType ≠ .Escaped) (hk2 : nodeType ≠ .Div) {p : Parser}
    {r : HtmlNode × Parser}
    (h : parseChildren pf fuel identSize bc nodeType p = .ok r) : r.1.kindsOk = true := by
  unfold parseChildren at h
  simp only [] at h
  obtain ⟨⟨q, start, children⟩, hs, h⟩ := bind_ok_inv h
  have hc : childrenKindsOk children = true :=
    scanLoop_kinds hpf bc fuel (s := (readX identSize p, (readX identSize p).current, [])) rfl hs
  simp only [] at h
  split at h
  · obtain ⟨v, -, h⟩ := bind_ok_inv h
    have := pure_ok_inv h
    subst this
    rfl
  · have hcs : ∃ cs, r.1 = .parent nodeType cs ∧ childrenKindsOk cs = true := by
      split at h
      · obtain ⟨v, -, h⟩ := bind_ok_inv h
        obtain ⟨y, hy, h⟩ := bind_ok_inv h
        have := pure_ok_inv hy
        subst this
        have := pure_ok_inv h
        subst this
        exact ⟨_, rfl, childrenKindsOk_snoc hc rfl⟩
      · obtain ⟨y, hy, h⟩ := bind_ok_inv h
        have := pure_ok_inv hy
        subst this
        have := pure_ok_inv h
        subst this
        exact ⟨_, rfl, hc⟩
    obtain ⟨cs, hr, hcs'⟩ := hcs
    rw [hr]
    cases nodeType <;> first | exact absurd rfl hk1 | exact absurd rfl hk2 | exact hcs'

theorem parseImageLink_kinds (ro : RangeOrder) (pf : NodeType → Option ParseFunc)
    (fuel : Nat) (nodeType : NodeType) {p : Parser}
    {r : HtmlNode × Parser} (h : parseImageLink ro pf fuel nodeType p = .ok r) :
    r.1.kindsOk = true := by
  unfold parseImageLink at h
  obtain ⟨⟨prefixNode, p1⟩, -, h⟩ := bind_ok_inv h
  simp only [] at h
  split at h
  · obtain ⟨v, -, h⟩ := bind_ok_inv h
    have := pure_ok_inv h
    subst this
    rfl
  · obtain ⟨⟨srcNode, p2⟩, -, h⟩ := bind_ok_inv h
    simp only [] at h
    obtain ⟨textNode, ht, h⟩ := bind_ok_inv h
    split at h
    · rename_i node
      have := pure_ok_inv h
      subst this
      unfold imageLinkChecks at ht
      obtain ⟨sub, -, ht⟩ := bind_ok_inv ht
      split at ht
      · obtain ⟨prev, -, ht⟩ := bind_ok_inv ht
        split at ht
        · have := pure_ok_inv ht
          cases this
          rfl
        · have := pure_ok_inv ht
          cases this
      · obtain ⟨prev, -, ht⟩ := bind_ok_inv ht
        split at ht
        · have := pure_ok_inv ht
          cases this
          rfl
        · have := pure_ok_inv ht
          cases this
    · split at h
      · have := pure_ok_inv h
        subst this
        rfl
      · have := pure_ok_inv h
        subst this
        rfl
      · cases h

theorem parseEscaped_kinds {p : Parser} {r : HtmlNode × Parser}
    (h : parseEscaped p = .ok r) : r.1.kindsOk = true := by
  unfold parseEscaped at h
  obtain ⟨b, -, h⟩ := bind_ok_inv h
  have := pure_ok_inv h
  subst this
  rfl

theorem boldItalicNode_kinds {pf : NodeType → Option ParseFunc} (hpf : TableKinds pf)
    (fuel : Nat) {p : Parser} {r : HtmlNode × Parser}
    (h : boldItalicNode pf fuel p = .ok r) : r.1.kindsOk = true := by
  unfold boldItalicNode at h
  split at h
  · exact parseChildren_kinds hpf (by decide) (by decide) h
  · exact parseChildren_kinds hpf (by decide) (by decide) h

theorem parseOrderedList_kinds {pf : NodeType → Option ParseFunc} (hpf : TableKinds pf)
    (fuel : Nat) {p : Parser} {r : HtmlNode × Parser}
    (h : parseOrderedList pf fuel p = .ok r) : r.1.kindsOk = true := by
  unfold parseOrderedList at h
  obtain ⟨q, -, h⟩ := bind_ok_inv h
  exact parseChildren_kinds hpf (by decide) (by decide) h

theorem parseUnorderedList_kinds {pf : NodeType → Option ParseFunc} (hpf : TableKinds pf)
    (fuel : Nat) {p : Parser} {r : HtmlNode × Parser}
    (h : parseUnorderedList pf fuel p = .ok r) : r.1.kindsOk = true := by
  unfold parseUnorderedList at h
  exact parseChildren_kinds hpf (by decide) (by decide) h

theorem parseCode_kinds {pf : NodeType → Option ParseFunc} (hpf : TableKinds pf)
    (fuel : Nat) {p : Parser} {r : HtmlNode × Parser}
    (h : parseCode pf fuel p = .ok r) : r.1.kindsOk = true := by
  unfold parseCode at h
  exact parseChildren_kinds hpf (by decide) (by decide) h

theorem parsingFuncs_kinds (ro : RangeOrder) (n : Nat) : TableKinds (parsingFuncs ro n) := by
  induction n with
  | zero =>
    intro k f p node q hf h
    unfold parsingFuncs at hf
    split at hf
    · have := Option.some.inj hf
      subst this
      cases h
    · cases hf
  | succ n ih =>
    intro k f p node q hf h
    cases k <;> simp only [parsingFuncs] at hf <;> cases hf <;>
      first
        | exact parseCode_kinds ih _ h
        | exact boldItalicNode_kinds ih _ h
        | exact parseImageLink_kinds ro _ _ _ h
        | exact parseOrderedList_kinds ih _ h
        | exact parseUnorderedList_kinds ih _ h
        | exact parseEscaped_kinds h

theorem rootKind_blockType (input : GoString) : rootKind (blockType (NewParser input)) = true := by
  rw [blockType_eq_blockTypeSpec]
  unfold blockTypeSpec
  split
  · rfl
  · split
    · rfl
    · split
      · unfold headingOfLevel
        split <;> rfl
      · split <;> rfl

theorem parse_kinds (ro : RangeOrder) (fuel : Nat) (p : Parser) {node : HtmlNode}
    (h : parse ro fuel p = .ok node) :
    ∃ children, node = .parent (blockType p) children ∧ childrenKindsOk children = true := by
  unfold parse at h
  simp only [] at h
  obtain ⟨⟨q, start, children⟩, hs, h⟩ := bind_ok_inv h
  have hc : childrenKindsOk children = true :=
    scanLoop_kinds (parsingFuncs_kinds ro fuel) _ fuel
      (s := (consumeBlockHeading p (blockType p),
        (consumeBlockHeading p (blockType p)).current, [])) rfl hs
  simp only [] at h
  split at h
  · obtain ⟨v, -, h⟩ := bind_ok_inv h
    obtain ⟨y, hy, h⟩ := bind_ok_inv h
    have := pure_ok_inv hy
    subst this
    have := pure_ok_inv h
    subst this
    exact ⟨_, rfl, childrenKindsOk_snoc hc rfl⟩
  · obtain ⟨y, hy, h⟩ := bind_ok_inv h
    have := pure_ok_inv hy
    subst this
    have := pure_ok_inv h
    subst this
    exact ⟨_, rfl, hc⟩

theorem textLeaf_flush_from (pre a r : GoString) (children : List HtmlNode) :
    (if pre.length < (cursor (pre ++ a) r).current then
        children ++ [.leaf (((cursor (pre ++ a) r).input.take (cursor (pre ++ a) r).current).drop
          pre.length) .PlainText []]
      else children) = children ++ textLeaf a := by
  by_cases ha : a = []
  · subst ha
    simp [textLeaf, cursor]
  · have hl : 0 < a.length := List.length_pos.mpr ha
    rw [if_pos (by simp [cursor]; omega)]
    have : ((cursor (pre ++ a) r).input.take (cursor (pre ++ a) r).current).drop pre.length = a := by
      simp only [cursor, List.length_append]
      rw [← List.length_append, List.take_left, List.drop_left]
    rw [this]
    simp [textLeaf, ha]

theorem parseChildren_of_scan (pf : NodeType → Option ParseFunc) (bc : Parser → Bool)
    (nodeType : NodeType) (hnt : nodeType ≠ .Paragraph) (identSize : Nat) (p : Parser)
    (fuel : Nat) (pre c : GoString) (d : Nat) (rest : GoString) (hd : d ≠ 0)
    (children : List HtmlNode)
    (hscan : scanLoop pf bc fuel (readX identSize p, (readX identSize p).current, [])
      = .ok (cursor (pre ++ c) (d :: rest), pre.length, children)) :
    parseChildren pf fuel identSize bc nodeType p
      = .ok (.parent nodeType (children ++ textLeaf c),
          readX identSize (cursor (pre ++ c) (d :: rest))) := by
  unfold parseChildren
  simp only []
  rw [hscan]
  simp only [Except.bind, bind]
  rw [checkUnterminatedExceptions_of_ne (p := cursor (pre ++ c) (d :: rest)) hd]
  simp only [Bool.false_eq_true, if_false, if_neg hnt, Nat.add_zero]
  by_cases hte : c = []
  · subst hte
    simp [textLeaf, cursor]
    rfl
  · have hl : 0 < c.length := List.length_pos.mpr hte
    rw [if_pos (by simp [cursor]; omega)]
    have hsl : slice (cursor (pre ++ c) (d :: rest)).input pre.length
        (cursor (pre ++ c) (d :: rest)).current = .ok c := by
      have := slice_append pre c (d :: rest)
      simpa [cursor, Nat.add_assoc] using this
    rw [hsl]
    simp [textLeaf, hte]
    rfl

theorem parseChildren_nested (pf : NodeType → Option ParseFunc) (bc : Parser → Bool)
    (hbc : ∀ q, plainChar q.ch = true → bc q = false) (nodeType : NodeType)
    (hnt : nodeType ≠ .Paragraph) (o a x c : GoString) (ha : Plain a) (hc : Plain c)
    (pre : GoString) (d : Nat) (rest : GoString) (hd : d ≠ 0) (hx : x ≠ [])
    (hopen : bc (cursor (pre ++ o ++ a) (x ++ (c ++ d :: rest))) = false)
    (hch : (cursor (pre ++ o ++ a) (x ++ (c ++ d :: rest))).ch ≠ 0)
    (hk1 : isIdent (cursor (pre ++ o ++ a) (x ++ (c ++ d :: rest))) ≠ .Escaped)
    (hk2 : isIdent (cursor (pre ++ o ++ a) (x ++ (c ++ d :: rest))) ≠ .PlainText)
    {f : ParseFunc} {node : HtmlNode}
    (hf : pf (isIdent (cursor (pre ++ o ++ a) (x ++ (c ++ d :: rest)))) = some f)
    (hres : f (cursor (pre ++ o ++ a) (x ++ (c ++ d :: rest)))
      = .ok (node, cursor (pre ++ o ++ a ++ x) (c ++ d :: rest)))
    (hbreak : bc (cursor (pre ++ o ++ a ++ x ++ c) (d :: rest)) = true)
    (fuel : Nat) (hfuel : a.length + c.length + 1 ≤ fuel) :
    parseChildren pf fuel o.length bc nodeType (cursor pre (o ++ (a ++ (x ++ (c ++ d :: rest)))))
      = .ok (.parent nodeType (textLeaf a ++ [node] ++ textLeaf c),
          readX o.length (cursor (pre ++ o ++ a ++ x ++ c) (d :: rest))) := by
  obtain ⟨m, hm⟩ : ∃ m, fuel - a.length = m + 1 := ⟨fuel - a.length - 1, by omega⟩
  apply parseChildren_of_scan pf bc nodeType hnt o.length _ fuel (pre ++ o ++ a ++ x) c d rest hd
  rw [readX_cursor o pre _ (by simp [hx]), cursor_current (pre ++ o),
    scanLoop_plain pf bc hbc a ha (pre ++ o) _ (by simp [hx]) fuel (by omega) _ _ (le_refl _),
    hm,
    scanLoop_construct pf bc m hch hopen hk1 hk2 hf (by simp [cursor]) (by simp [cursor]) hres,
    textLeaf_flush_from (pre ++ o) a _ [], cursor_current,
    scanLoop_plain pf bc hbc c hc (pre ++ o ++ a ++ x) (d :: rest) (by simp) m (by omega) _ _
      (le_refl _),
    scanLoop_done pf bc _ (Or.inr hbreak)]
  simp

theorem boldItalicNode_bold (pf : NodeType → Option ParseFunc) (t : GoString) (ht : Plain t)
    (hne : t ≠ []) (pre rest : GoString) (hrest : rest ≠ []) (fuel : Nat)
    (hf : t.length ≤ fuel) :
    boldItalicNode pf fuel (cursor pre (([42, 42] ++ t ++ [42, 42]) ++ rest))
      = .ok (.parent .Bold (textLeaf t), cursor (pre ++ ([42, 42] ++ t ++ [42, 42])) rest) := by
  have h42 : ¬ t.head?.getD 0 = 42 := by
    simpa using headD_ne_of_plain ht (x := 42) (by decide) (by decide)
  have e : ([42, 42] ++ t ++ [42, 42]) ++ rest = lit "**" ++ (t ++ 42 :: 42 :: rest) := by
    simp [lit]
  have hcheck : checkBoldNode (cursor pre (lit "**" ++ (t ++ 42 :: 42 :: rest))) = true := by
    cases t with
    | nil => exact absurd rfl hne
    | cons c t' =>
      simp only [List.head?_cons, Option.getD_some] at h42
      simp [checkBoldNode, lit, cursor_ch, peekCharX_cursor_zero, peekCharX_cursor_one,
        PeekOnce, PeekTwice, h42]
  have hend : readX 2 (cursor (pre ++ lit "**" ++ t) (42 :: 42 :: rest))
      = cursor (pre ++ ([42, 42] ++ t ++ [42, 42])) rest := by
    have := readX_cursor [42, 42] (pre ++ lit "**" ++ t) rest hrest
    simpa [lit] using this
  rw [e]
  unfold boldItalicNode
  rw [if_pos hcheck, parseBold_closed pf t ht pre rest fuel hf, hend]

theorem isIdent_two_stars (pre rest : GoString) :
    isIdent (cursor pre (42 :: 42 :: rest)) = .Bold := by
  simp [isIdent, cursor_ch, peekCharX_cursor_zero, PeekOnce]

theorem italic_of_nested_bold (ro : RangeOrder) (a b c : GoString) (ha : Plain a)
    (hb : Plain b) (hc : Plain c) (hbne : b ≠ []) (pre : GoString) (n : Nat)
    (hn : a.length + b.length + c.length + 1 ≤ n) :
    boldItalicNode (parsingFuncs ro (n + 1)) (n + 1)
        (cursor pre ([42] ++ (a ++ (([42, 42] ++ b ++ [42, 42]) ++ (c ++ 42 :: [])))))
      = .ok (.parent .Italic (textLeaf a ++ [.parent .Bold (textLeaf b)] ++ textLeaf c),
          cursorEnd (pre ++ [42] ++ a ++ ([42, 42] ++ b ++ [42, 42]) ++ c) 42) := by
  have hcheck : checkBoldNode
      (cursor pre ([42] ++ (a ++ (([42, 42] ++ b ++ [42, 42]) ++ (c ++ 42 :: []))))) = false := by
    cases a with
    | nil =>
      simp [checkBoldNode, cursor_ch, peekCharX_cursor_zero, peekCharX_cursor_one,
        PeekOnce, PeekTwice]
    | cons x a' =>
      have hx : x ≠ 42 := (plainChar_spec (ha x (List.mem_cons_self _ _))).1
      simp [checkBoldNode, cursor_ch, peekCharX_cursor_zero, PeekOnce, hx]
  have hid := isIdent_two_stars (pre ++ [42] ++ a) (b ++ [42, 42] ++ (c ++ 42 :: []))
  have hshape : (42 :: 42 :: (b ++ [42, 42] ++ (c ++ 42 :: [])))
      = ([42, 42] ++ b ++ [42, 42]) ++ (c ++ 42 :: []) := by simp
  rw [hshape] at hid
  have hnested := boldItalicNode_bold (parsingFuncs ro n) b hb hbne (pre ++ [42] ++ a)
    (c ++ 42 :: []) (by simp) n (by omega)
  have hmain := parseChildren_nested (parsingFuncs ro (n + 1))
    (fun p => p.ch == 42 && peekCharX p PeekOnce != 42) italic_break_plain .Italic (by decide)
    [42] a ([42, 42] ++ b ++ [42, 42]) c ha hc pre 42 [] (by decide) (by simp)
    (by simp [cursor_ch, peekCharX_cursor_zero, PeekOnce])
    (by simp [cursor_ch])
    (by rw [hid]; decide) (by rw [hid]; decide) (by rw [hid]; rfl)
    hnested
    (by simp [cursor_ch, peekCharX_cursor_zero, PeekOnce])
    (n + 1) (by omega)
  have hend : readX [42].length (cursor (pre ++ [42] ++ a ++ ([42, 42] ++ b ++ [42, 42]) ++ c) [42])
      = cursorEnd (pre ++ [42] ++ a ++ ([42, 42] ++ b ++ [42, 42]) ++ c) 42 :=
    readX_succ_last 0 _ 42
  rw [hend] at hmain
  unfold boldItalicNode
  rw [hcheck]
  exact hmain

theorem isIdent_star (pre rest : GoString) :
    isIdent (cursor pre (42 :: rest)) = .Bold ∨ isIdent (cursor pre (42 :: rest)) = .Italic := by
  by_cases h : peekCharX (cursor pre (42 :: rest)) PeekOnce = 42
  · left
    simp [isIdent, cursor_ch, h]
  · right
    simp [isIdent, cursor_ch, h]

theorem isIdent_three_backticks (pre rest : GoString) :
    isIdent (cursor pre (96 :: 96 :: 96 :: rest)) = .Code := by
  simp [isIdent, cursor_ch, peekCharX_cursor_zero, peekCharX_cursor_one, PeekOnce, PeekTwice]

theorem parseCode_closed (pf : NodeType → Option ParseFunc) (t : GoString) (ht : Plain t)
    (pre : GoString) (fuel : Nat) (hf : t.length ≤ fuel) :
    parseCode pf fuel (cursor pre ([96, 96, 96] ++ (t ++ 96 :: [96, 96])))
      = .ok (.parent .Code (textLeaf t), cursorEnd (pre ++ [96, 96, 96] ++ t ++ [96, 96]) 96) := by
  have h := parseChildren_closed pf
    (fun p => p.ch == 96 && peekCharX p PeekOnce == 96 && peekCharX p PeekTwice == 96)
    code_break_plain .Code (by decide) [96, 96, 96] t ht pre 96 [96, 96] (by decide)
    (by simp [cursor_ch, peekCharX_cursor_zero, peekCharX_cursor_one, PeekOnce, PeekTwice])
    fuel hf
  have hend : readX [96, 96, 96].length (cursor (pre ++ [96, 96, 96] ++ t) (96 :: [96, 96]))
      = cursorEnd (pre ++ [96, 96, 96] ++ t ++ [96, 96]) 96 :=
    readX_cursor_end [96, 96] 96 _ 0
  rw [hend] at h
  exact h

theorem parseCode_nested_bold (ro : RangeOrder) (t : GoString) (ht : Plain t) (hne : t ≠ [])
    (pre : GoString) (n : Nat) (hn : t.length + 1 ≤ n) :
    parseCode (parsingFuncs ro (n + 1)) (n + 1)
        (cursor pre ([96, 96, 96] ++ ([] ++ (([42, 42] ++ t ++ [42, 42]) ++ ([] ++ 96 :: [96, 96])))))
      = .ok (.parent .Code (textLeaf [] ++ [.parent .Bold (textLeaf t)] ++ textLeaf []),
          cursorEnd (pre ++ [96, 96, 96] ++ [] ++ ([42, 42] ++ t ++ [42, 42]) ++ [] ++ [96, 96])
            96) := by
  have hid := isIdent_two_stars (pre ++ [96, 96, 96] ++ []) (t ++ [42, 42] ++ ([] ++ 96 :: [96, 96]))
  have hshape : (42 :: 42 :: (t ++ [42, 42] ++ ([] ++ 96 :: [96, 96])))
      = ([42, 42] ++ t ++ [42, 42]) ++ ([] ++ 96 :: [96, 96]) := by simp
  rw [hshape] at hid
  have hnested := boldItalicNode_bold (parsingFuncs ro n) t ht hne (pre ++ [96, 96, 96] ++ [])
    ([] ++ 96 :: [96, 96]) (by simp) n (by omega)
  have hmain := parseChildren_nested (parsingFuncs ro (n + 1))
    (fun p => p.ch == 96 && peekCharX p PeekOnce == 96 && peekCharX p PeekTwice == 96)
    code_break_plain .Code (by decide)
    [96, 96, 96] [] ([42, 42] ++ t ++ [42, 42]) [] (fun _ h => by simp at h)
    (fun _ h => by simp at h) pre 96 [96, 96] (by decide) (by simp)
    (by simp [cursor_ch])
    (by simp [cursor_ch])
    (by rw [hid]; decide) (by rw [hid]; decide) (by rw [hid]; rfl)
    hnested
    (by simp [cursor_ch, peekCharX_cursor_zero, peekCharX_cursor_one, PeekOnce, PeekTwice])
    (n + 1) (by simp)
  have hend : readX [96, 96, 96].length
      (cursor (pre ++ [96, 96, 96] ++ [] ++ ([42, 42] ++ t ++ [42, 42]) ++ []) (96 :: [96, 96]))
      = cursorEnd (pre ++ [96, 96, 96] ++ [] ++ ([42, 42] ++ t ++ [42, 42]) ++ [] ++ [96, 96]) 96 :=
    readX_cursor_end [96, 96] 96 _ 0
  rw [hend] at hmain
  exact hmain

theorem eofAtEnd_readChar {input : GoString} (h0 : ∀ c ∈ input, c ≠ 0) {p : Parser}
    (h : EofAtEnd input p) : EofAtEnd input (readChar p) := by
  obtain ⟨h1, h2⟩ := h
  unfold readChar
  split
  · rename_i hge
    rw [h1] at hge
    exact ⟨h1, fun _ => hge⟩
  · rename_i hlt
    rw [h1] at hlt
    refine ⟨h1, fun hch => ?_⟩
    exfalso
    have hlt' : p.peek < input.length := by omega
    have hmem : input.getD p.peek 0 ∈ input := by
      rw [List.getD_eq_getElem _ _ hlt']
      exact List.getElem_mem _
    have hch' : input.getD p.peek 0 = 0 := by
      simpa [h1, EOF] using hch
    exact h0 _ hmem hch'

theorem eofAtEnd_readX {input : GoString} (h0 : ∀ c ∈ input, c ≠ 0) (n : Nat) {p : Parser}
    (h : EofAtEnd input p) : EofAtEnd input (readX n p) := by
  induction n generalizing p with
  | zero => exact h
  | succ n ih => exact ih (eofAtEnd_readChar h0 h)

theorem eofAtEnd_of_readFrom {input : GoString} (h0 : ∀ c ∈ input, c ≠ 0) {p q : Parser}
    (h : EofAtEnd input p) (hq : ReadFrom p q) : EofAtEnd input q := by
  obtain ⟨n, rfl⟩ := hq
  exact eofAtEnd_readX h0 n h

theorem eofAtEnd_newParser {input : GoString} (h0 : ∀ c ∈ input, c ≠ 0) :
    EofAtEnd input (NewParser input) := by
  cases input with
  | nil => exact ⟨rfl, fun _ => Nat.le_refl _⟩
  | cons c rest =>
    rw [NewParser_cons]
    refine ⟨rfl, fun hch => ?_⟩
    exact absurd hch (h0 c (List.mem_cons_self _ _))

theorem eofAtEnd_of_reachable {input : GoString} (h0 : ∀ c ∈ input, c ≠ 0) {p : Parser}
    (hp : Reachable input p) : EofAtEnd input p := by
  induction hp with
  | init => exact eofAtEnd_newParser h0
  | readChar _ ih => exact eofAtEnd_readChar h0 ih
  | readX n _ ih => exact eofAtEnd_readX h0 n ih
  | consumeBlockHeading kind _ ih =>
    exact eofAtEnd_of_readFrom h0 ih (consumeBlockHeading_reads _ kind)
  | buildNestedorRead ro fuel start start' children children' _ h ih =>
    exact eofAtEnd_of_readFrom h0 ih (buildNestedorRead_reads (parsingFuncs_reads ro fuel) h)
  | parseChildren ro fuel identSize bc nodeType node _ h ih =>
    exact eofAtEnd_of_readFrom h0 ih (parseChildren_reads (parsingFuncs_reads ro fuel) h)
  | builder ro fuel kind f node _ hf h ih =>
    exact eofAtEnd_of_readFrom h0 ih (parsingFuncs_reads ro fuel kind f _ node _ hf h)

theorem readChar_fixed {p : Parser} (hch : p.ch = EOF) (hpk : p.input.length ≤ p.peek) :
    readChar p = p := by
  unfold readChar
  rw [if_pos hpk]
  cases p
  simp only [] at hch
  subst hch
  rfl

theorem readX_fixed (n : Nat) {p : Parser} (hch : p.ch = EOF) (hpk : p.input.length ≤ p.peek) :
    readX n p = p := by
  induction n with
  | zero => rfl
  | succ n ih =>
    rw [readX, readChar_fixed hch hpk]
    exact ih

theorem splitLoop_no_match (sep : GoString) (s piece : GoString)
    (h : stringsContains s sep = false) : splitLoop sep s 0 piece = [piece ++ s] := by
  induction s generalizing piece with
  | nil => simp [splitLoop]
  | cons c rest ih =>
    simp only [stringsContains, Bool.or_eq_false_iff] at h
    rw [splitLoop, if_neg (by simp [h.1]), ih _ h.2]
    simp

theorem stringsHasPrefix_append (sub rest : GoString) :
    stringsHasPrefix (sub ++ rest) sub = true := by
  simp [stringsHasPrefix]

theorem stringsContains_append (a sub rest : GoString) :
    stringsContains (a ++ (sub ++ rest)) sub = true := by
  induction a with
  | nil =>
    cases hs : sub ++ rest with
    | nil =>
      have : sub = [] := (List.append_eq_nil.mp hs).1
      subst this
      rfl
    | cons c r =>
      have := stringsHasPrefix_append sub rest
      rw [hs] at this
      simp only [List.nil_append, stringsContains, this, Bool.true_or]
  | cons x a ih =>
    rw [List.cons_append, stringsContains, ih]
    simp

theorem splitLoop_skip (sep : GoString) (x rest piece : GoString) :
    splitLoop sep (x ++ rest) x.length piece = splitLoop sep rest 0 piece := by
  induction x with
  | nil => rfl
  | cons c x ih =>
    rw [List.cons_append, List.length_cons, splitLoop]
    exact ih

theorem splitLoop_text (c0 : Nat) (sep u rest piece : GoString) (hu : c0 ∉ u) :
    splitLoop (c0 :: sep) (u ++ rest) 0 piece = splitLoop (c0 :: sep) rest 0 (piece ++ u) := by
  induction u generalizing piece with
  | nil => simp
  | cons c u ih =>
    have hc : c ≠ c0 := fun h => hu (by simp [h])
    have hu' : c0 ∉ u := fun h => hu (List.mem_cons_of_mem _ h)
    rw [List.cons_append, splitLoop, if_neg (by simp [stringsHasPrefix, hc]), ih _ hu']
    simp

theorem splitLoop_match (c0 : Nat) (sep rest piece : GoString) :
    splitLoop (c0 :: sep) ((c0 :: sep) ++ rest) 0 piece
      = piece :: splitLoop (c0 :: sep) rest 0 [] := by
  rw [List.cons_append, splitLoop,
    if_pos (by simpa using stringsHasPrefix_append (c0 :: sep) rest)]
  simp only [List.length_cons, Nat.add_sub_cancel]
  rw [splitLoop_skip]

theorem splitLoop_head (sep : GoString) (s piece : GoString) :
    ∃ b1 tail, splitLoop sep s 0 piece = (piece ++ b1) :: tail := by
  induction s generalizing piece with
  | nil => exact ⟨[], [], by simp [splitLoop]⟩
  | cons c rest ih =>
    rw [splitLoop]
    split
    · exact ⟨[], _, by rw [List.append_nil]⟩
    · obtain ⟨b1, tail, h⟩ := ih (piece ++ [c])
      exact ⟨c :: b1, tail, by rw [h]; simp⟩

theorem getTitle_of_heading (a t b : GoString) (ha : 60 ∉ a) (ht : 60 ∉ t) :
    getTitle (a ++ lit "<h1>" ++ t ++ lit "</h1>" ++ b) = .ok t := by
  have hc : stringsContains (a ++ lit "<h1>" ++ t ++ lit "</h1>" ++ b) (lit "h1") = true := by
    have := stringsContains_append (a ++ [60]) (lit "h1") ([62] ++ t ++ lit "</h1>" ++ b)
    have e : a ++ lit "<h1>" ++ t ++ lit "</h1>" ++ b
        = a ++ [60] ++ (lit "h1" ++ ([62] ++ t ++ lit "</h1>" ++ b)) := by simp [lit]
    rw [e]
    exact this
  have hopen : lit "<h1>" = 60 :: [104, 49, 62] := by decide
  have hclose : lit "</h1>" = 60 :: [47, 104, 49, 62] := by decide
  have h1 : stringsSplit (a ++ lit "<h1>" ++ t ++ lit "</h1>" ++ b) (lit "<h1>")
      = a :: splitLoop (lit "<h1>") (t ++ lit "</h1>" ++ b) 0 [] := by
    unfold stringsSplit
    rw [hopen, show a ++ 60 :: [104, 49, 62] ++ t ++ lit "</h1>" ++ b
      = a ++ ((60 :: [104, 49, 62]) ++ (t ++ lit "</h1>" ++ b)) from by simp,
      splitLoop_text 60 _ a _ [] ha, splitLoop_match]
    simp
  have h2 : ∃ b1 tail, splitLoop (lit "<h1>") (t ++ lit "</h1>" ++ b) 0 []
      = (t ++ lit "</h1>" ++ b1) :: tail := by
    rw [hopen, hclose, show t ++ 60 :: [47, 104, 49, 62] ++ b
      = t ++ (60 :: ([47, 104, 49, 62] ++ b)) from by simp,
      splitLoop_text 60 _ t _ [] ht, splitLoop,
      if_neg (by simp [stringsHasPrefix]),
      splitLoop_text 60 _ [47, 104, 49, 62] b _ (by decide)]
    obtain ⟨b1, tail, h⟩ := splitLoop_head (60 :: [104, 49, 62]) b
      ([] ++ t ++ [60] ++ [47, 104, 49, 62])
    exact ⟨b1, tail, by rw [h]; simp⟩
  obtain ⟨b1, tail, h2⟩ := h2
  have h3 : stringsSplit (t ++ lit "</h1>" ++ b1) (lit "</h1>")
      = t :: splitLoop (lit "</h1>") b1 0 [] := by
    unfold stringsSplit
    rw [hclose, show t ++ 60 :: [47, 104, 49, 62] ++ b1
      = t ++ ((60 :: [47, 104, 49, 62]) ++ b1) from by simp,
      splitLoop_text 60 _ t _ [] ht, splitLoop_match]
    simp
  unfold getTitle
  rw [if_pos hc, h1, h2]
  simp only [indexParts, List.get?, Except.bind, bind, pure, Except.pure]
  rw [h3]
  rfl

theorem getTitle_without_tag (s : GoString) (h1 : stringsContains s (lit "h1") = true)
    (h2 : stringsContains s (lit "<h1>") = false) : getTitle s = .error .outOfRange := by
  unfold getTitle stringsSplit
  rw [if_pos h1, splitLoop_no_match _ _ _ h2]
  rfl

theorem getTitle_page (s : GoString) (h : stringsContains s (lit "h1") = false) :
    getTitle s = .ok (lit "Page") := by
  unfold getTitle
  rw [if_neg (by simp [h])]
  rfl

theorem isIdent_hash {p : Parser} (h : p.ch = 35) : isIdent p = .PlainText := by
  simp [isIdent, h, isDigit]

theorem buildNestedorRead_hash (pf : NodeType → Option ParseFunc) {p : Parser} {start : Nat}
    {children : List HtmlNode} (hp : p.ch = 35) (hs : start ≤ p.current)
    (hc : p.current ≤ p.input.length) :
    buildNestedorRead pf (p, start, children) = .ok (readChar p, start, children) := by
  unfold buildNestedorRead slice
  simp only [isIdent_hash hp]
  rw [if_pos ⟨hs, hc⟩]
  rfl

theorem scanLoop_hashes (pf : NodeType → Option ParseFunc) (j : Nat) (pre : GoString)
    (d : Nat) (rest : GoString) (fuel : Nat) (hf : j ≤ fuel) (start : Nat)
    (children : List HtmlNode) (hs : start ≤ pre.length) :
    scanLoop pf (fun _ => false) fuel (cursor pre (List.replicate j 35 ++ d :: rest), start, children)
      = scanLoop pf (fun _ => false) (fuel - j)
          (cursor (pre ++ List.replicate j 35) (d :: rest), start, children) := by
  induction j generalizing pre fuel with
  | zero => simp
  | succ j ih =>
    obtain ⟨fuel, rfl⟩ : ∃ f, fuel = f + 1 := ⟨fuel - 1, by omega⟩
    obtain ⟨e, r, her⟩ : ∃ e r, List.replicate j 35 ++ d :: rest = e :: r := by
      cases j with
      | zero => exact ⟨d, rest, rfl⟩
      | succ i => exact ⟨35, List.replicate i 35 ++ d :: rest, by simp [List.replicate_succ]⟩
    have hstep : buildNestedorRead pf
        (cursor pre (List.replicate (j + 1) 35 ++ d :: rest), start, children)
        = .ok (cursor (pre ++ [35]) (List.replicate j 35 ++ d :: rest), start, children) := by
      rw [buildNestedorRead_hash pf (by simp [cursor, List.replicate_succ]) hs
        (by simp [cursor])]
      rw [List.replicate_succ, List.cons_append, her, readChar_cursor, ← her]
    rw [scanLoop_step pf _ fuel (by simp [cursor, List.replicate_succ]) rfl hstep,
      ih (pre ++ [35]) fuel (by omega) (by simp; omega)]
    simp [List.replicate_succ, Nat.add_sub_add_right]

theorem long_heading_parses (ro : RangeOrder) (k : Nat) (hk : 7 ≤ k) (t : GoString) (c : Nat)
    (ht : Plain (t ++ [c])) :
    parseInput ro (List.replicate k 35 ++ [32] ++ (t ++ [c]))
      = .ok (.parent .Heading6
          [.leaf (List.replicate (k - 7) 35 ++ [32] ++ (t ++ [c])) .PlainText []]) := by
  obtain ⟨j, rfl⟩ : ∃ j, k = 7 + j := ⟨k - 7, by omega⟩
  have ht' : Plain ([32] ++ t) := by
    intro x hx
    simp only [List.mem_append, List.mem_singleton] at hx
    rcases hx with rfl | hx
    · decide
    · exact ht x (by simp [hx])
  have hc : plainChar c = true := ht c (by simp)
  have hin : List.replicate (7 + j) 35 ++ [32] ++ (t ++ [c])
      = List.replicate 7 35 ++ (List.replicate j 35 ++ 32 :: (t ++ [c])) := by
    rw [List.replicate_add]
    simp
  have hcount : countHashes (List.replicate (7 + j) 35 ++ [32] ++ (t ++ [c])) 0 = 7 + j := by
    rw [List.append_assoc, countHashes_replicate (7 + j) _ 0 (by simp), Nat.zero_add]
  have hblock : blockType (cursor [] (List.replicate (7 + j) 35 ++ [32] ++ (t ++ [c])))
      = .Heading6 := by
    have hch : (cursor [] (List.replicate (7 + j) 35 ++ [32] ++ (t ++ [c]))).ch = 35 := by
      rw [hin]
      rfl
    unfold blockType
    rw [if_neg (by rw [hch]; decide), if_neg (by rw [hch]; decide), if_pos hch]
    unfold headingType
    simp only [cursor_input, List.nil_append]
    rw [hcount, if_pos (by omega)]
  have hloop : scanLoop (parsingFuncs ro ((List.replicate (7 + j) 35 ++ [32] ++ (t ++ [c])).length + 1))
      (fun _ => false) ((List.replicate (7 + j) 35 ++ [32] ++ (t ++ [c])).length + 1)
      (consumeBlockHeading (cursor [] (List.replicate (7 + j) 35 ++ [32] ++ (t ++ [c])))
          (blockType (cursor [] (List.replicate (7 + j) 35 ++ [32] ++ (t ++ [c])))),
        (consumeBlockHeading (cursor [] (List.replicate (7 + j) 35 ++ [32] ++ (t ++ [c])))
          (blockType (cursor [] (List.replicate (7 + j) 35 ++ [32] ++ (t ++ [c]))))).current, [])
      = .ok (cursorEnd ([] ++ List.replicate 7 35 ++ List.replicate j 35 ++ ([32] ++ t)) c,
          ([] ++ List.replicate 7 35).length, []) := by
    rw [hblock]
    have hcons : consumeBlockHeading
        (cursor [] (List.replicate (7 + j) 35 ++ [32] ++ (t ++ [c]))) .Heading6
        = cursor ([] ++ List.replicate 7 35) (List.replicate j 35 ++ 32 :: (t ++ [c])) := by
      rw [hin]
      exact readX_cursor (List.replicate 7 35) [] _ (by simp)
    rw [hcons, cursor_current,
      scanLoop_hashes _ j _ 32 (t ++ [c]) _ (by simp; omega) _ _ (le_refl _),
      show (32 :: (t ++ [c])) = ([32] ++ t) ++ [c] from by simp,
      scanLoop_plain_eof _ _ (fun _ _ => rfl) ([32] ++ t) ht' c hc _ _ (by simp; omega) _ _
        (by simp)]
  unfold parseInput
  rw [NewParser_ne (by simp), parse_eq ro _ _ _ _ _ hloop, if_pos (by simp [cursorEnd]), hblock]
  have hsl : slice
      (cursorEnd ([] ++ List.replicate 7 35 ++ List.replicate j 35 ++ ([32] ++ t)) c).input
      ([] ++ List.replicate 7 35).length
      (cursorEnd ([] ++ List.replicate 7 35 ++ List.replicate j 35 ++ ([32] ++ t)) c).peek
      = .ok (List.replicate j 35 ++ [32] ++ (t ++ [c])) := by
    have := slice_from (List.replicate 7 35) (List.replicate j 35 ++ [32] ++ (t ++ [c]))
    simpa [cursorEnd, Nat.add_assoc] using this
  rw [hsl]
  simp
  rfl

theorem dash_break_text (t : GoString) (ht : Plain t) (pre' : GoString) (c : Nat)
    (rest' : GoString) (hc : c ∈ t) :
    (fun p : Parser => p.ch == 45 && peekCharX p PeekOnce == 32) (cursor pre' (c :: rest'))
      = false := by
  have h45 : c ≠ 45 := (plainChar_spec (ht c hc)).2.2.2.2.2.2.2.1
  simp [cursor_ch, h45]

theorem parseUnorderedList_item (pf : NodeType → Option ParseFunc) (u : GoString)
    (hu : Plain u) (pre rest : GoString) (fuel : Nat) (hf : u.length ≤ fuel) :
    parseUnorderedList pf fuel (cursor pre (45 :: 32 :: (u ++ 45 :: 32 :: rest)))
      = .ok (.parent .ListElement (textLeaf u),
          cursor (pre ++ [45, 32] ++ u) (45 :: 32 :: rest)) := by
  have hread : readX 2 (cursor pre (45 :: 32 :: (u ++ 45 :: 32 :: rest)))
      = cursor (pre ++ [45, 32]) (u ++ 45 :: 32 :: rest) := by
    have := readX_cursor [45, 32] pre (u ++ 45 :: 32 :: rest) (by simp)
    simpa using this
  unfold parseUnorderedList
  simp only []
  rw [hread]
  exact parseChildren_item_closed pf _ u hu (dash_break_text u hu) (pre ++ [45, 32]) 45
    (32 :: rest) (by simp [cursor_ch, peekCharX_cursor_zero, PeekOnce]) fuel hf

theorem parseUnorderedList_last (pf : NodeType → Option ParseFunc) (t : GoString) (c : Nat)
    (ht : Plain (t ++ [c])) (pre : GoString) (fuel : Nat) (hf : t.length + 1 ≤ fuel) :
    parseUnorderedList pf fuel (cursor pre (45 :: 32 :: (t ++ [c])))
      = .ok (.parent .ListElement (textLeaf t), cursorEnd (pre ++ [45, 32] ++ t) c) := by
  have hread : readX 2 (cursor pre (45 :: 32 :: (t ++ [c])))
      = cursor (pre ++ [45, 32]) (t ++ [c]) := by
    have := readX_cursor [45, 32] pre (t ++ [c]) (by simp)
    simpa using this
  unfold parseUnorderedList
  simp only []
  rw [hread]
  exact parseChildren_item_eof pf _ t c ht (dash_break_text (t ++ [c]) ht) (pre ++ [45, 32])
    fuel hf

theorem scanLoop_dash (ro : RangeOrder) (F fuel : Nat) (pre tail : GoString)
    (acc : List HtmlNode) {node : HtmlNode} {q : Parser}
    (hres : parseUnorderedList (parsingFuncs ro F) F (cursor pre (45 :: 32 :: tail))
      = .ok (node, q)) :
    scanLoop (parsingFuncs ro (F + 1)) (fun _ => false) (fuel + 1)
        (cursor pre (45 :: 32 :: tail), pre.length, acc)
      = scanLoop (parsingFuncs ro (F + 1)) (fun _ => false) fuel (q, q.current, acc ++ [node]) := by
  have hid : isIdent (cursor pre (45 :: 32 :: tail)) = .UnorderedList := by
    simp [isIdent, cursor_ch, peekCharX_cursor_zero, PeekOnce]
  rw [scanLoop_construct (parsingFuncs ro (F + 1)) (fun _ => false) fuel
    (by simp [cursor_ch]) rfl
    (by rw [hid]; decide) (by rw [hid]; decide) (by rw [hid]; rfl)
    (le_of_eq (cursor_current pre _).symm) (by simp [cursor]) hres,
    if_neg (by simp [cursor])]

theorem unorderedBlock_single (t : GoString) : unorderedBlock [t] = 45 :: 32 :: t := by
  simp [unorderedBlock, lit]

theorem unorderedBlock_more (t next : GoString) (rest : List GoString) :
    unorderedBlock (t :: next :: rest)
      = 45 :: 32 :: ((t ++ [10]) ++ unorderedBlock (next :: rest)) := by
  simp [unorderedBlock, lit]

theorem unorderedBlock_head (next : GoString) (rest : List GoString) :
    unorderedBlock (next :: rest) = 45 :: 32 :: (unorderedBlock (next :: rest)).drop 2 := by
  cases rest with
  | nil => simp [unorderedBlock, lit]
  | cons y l => simp [unorderedBlock, lit]

theorem unorderedBlock_length (items : List GoString) :
    items.length ≤ (unorderedBlock items).length ∧
      ∀ t ∈ items, t.length + 1 ≤ (unorderedBlock items).length := by
  induction items with
  | nil => simp [unorderedBlock]
  | cons t rest ih =>
    cases rest with
    | nil =>
      rw [unorderedBlock_single]
      refine ⟨by simp, ?_⟩
      intro x hx
      simp only [List.mem_singleton] at hx
      subst hx
      simp
    | cons next rest' =>
      obtain ⟨h1, h2⟩ := ih
      rw [unorderedBlock_more]
      simp only [List.length_append, List.length_cons, List.length_nil] at h1 h2 ⊢
      refine ⟨by omega, ?_⟩
      intro x hx
      rcases List.mem_cons.mp hx with rfl | hx
      · omega
      · have := h2 x hx
        omega

theorem unorderedItems_scan (ro : RangeOrder) (F : Nat) (items : List GoString)
    (hne : items ≠ []) (hitems : ∀ t ∈ items, t ≠ [] ∧ Plain t)
    (hF : ∀ t ∈ items, t.length + 1 ≤ F) (pre : GoString) (acc : List HtmlNode)
    (M : Nat) (hM : items.length ≤ M) :
    ∃ q, scanLoop (parsingFuncs ro (F + 1)) (fun _ => false) M
        (cursor pre (unorderedBlock items), pre.length, acc)
      = .ok (q, q.current, acc ++ builtItems items) := by
  induction items generalizing pre acc M with
  | nil => exact absurd rfl hne
  | cons t rest ih =>
    obtain ⟨M, rfl⟩ : ∃ f, M = f + 1 := ⟨M - 1, by simp at hM; omega⟩
    obtain ⟨htne, ht⟩ := hitems t (List.mem_cons_self _ _)
    have htF := hF t (List.mem_cons_self _ _)
    cases rest with
    | nil =>
      obtain ⟨t', c, rfl⟩ : ∃ t' c, t = t' ++ [c] := by
        rcases List.eq_nil_or_concat t with h | ⟨w, c, h⟩
        · exact absurd h htne
        · exact ⟨w, c, by rw [h, List.concat_eq_append]⟩
      have hres := parseUnorderedList_last (parsingFuncs ro F) t' c ht pre F
        (by simp at htF; omega)
      refine ⟨cursorEnd (pre ++ [45, 32] ++ t') c, ?_⟩
      rw [unorderedBlock_single, scanLoop_dash ro F M pre _ acc hres,
        scanLoop_done _ _ _ (Or.inl rfl)]
      simp [builtItems, cursorEnd]
    | cons next rest' =>
      have hu : Plain (t ++ [10]) := by
        intro c hc
        rcases List.mem_append.mp hc with hc | hc
        · exact ht c hc
        · simp only [List.mem_singleton] at hc
          subst hc
          decide
      have hres := parseUnorderedList_item (parsingFuncs ro F) (t ++ [10]) hu pre
        ((unorderedBlock (next :: rest')).drop 2) F (by simp; omega)
      obtain ⟨q, hscan⟩ := ih (by simp)
        (fun x hx => hitems x (List.mem_cons_of_mem _ hx))
        (fun x hx => hF x (List.mem_cons_of_mem _ hx))
        (pre ++ [45, 32] ++ (t ++ [10]))
        (acc ++ [.parent .ListElement (textLeaf (t ++ [10]))]) M (by simp at hM ⊢; omega)
      refine ⟨q, ?_⟩
      rw [unorderedBlock_more, unorderedBlock_head next rest',
        scanLoop_dash ro F M pre _ acc hres, cursor_current, ← unorderedBlock_head next rest',
        hscan]
      simp [builtItems, lit]

theorem unordered_list_parses (ro : RangeOrder) (items : List GoString) (hne : items ≠ [])
    (hitems : ∀ t ∈ items, t ≠ [] ∧ Plain t) :
    parseInput ro (unorderedBlock items) = .ok (.parent .UnorderedList (builtItems items)) := by
  obtain ⟨t, rest, rfl⟩ := List.exists_cons_of_ne_nil hne
  have hform := unorderedBlock_head t rest
  obtain ⟨hlen1, hlen2⟩ := unorderedBlock_length (t :: rest)
  obtain ⟨q, hscan⟩ := unorderedItems_scan ro (unorderedBlock (t :: rest)).length
    (t :: rest) hne hitems hlen2 [] [] ((unorderedBlock (t :: rest)).length + 1) (by omega)
  have hnonempty : unorderedBlock (t :: rest) ≠ [] := by
    rw [hform]
    simp
  have hblock : blockType (cursor [] (unorderedBlock (t :: rest))) = .UnorderedList := by
    rw [hform]
    simp [blockType, cursor_ch, peekCharX_cursor_zero, PeekOnce]
  unfold parseInput
  rw [NewParser_ne hnonempty,
    parse_eq ro _ _ q q.current ([] ++ builtItems (t :: rest)) (by rw [hblock]; exact hscan),
    if_neg (lt_irrefl _), hblock, List.nil_append]

theorem propertiesToHtml_single (ro : RangeOrder) (k v : GoString) :
    propertiesToHtml ro [(k, v)] = lit " " ++ k ++ lit "=" ++ v := by
  have hperm : ro.order [(k, v)] = [(k, v)] := List.perm_singleton.mp (ro.perm _)
  unfold propertiesToHtml
  rw [hperm]
  simp

theorem toHtml_link_paragraph (ro : RangeOrder) (label target : GoString) :
    (HtmlNode.parent .Paragraph [.leaf label .Link [(lit "href", target)]]).toHtml ro
      = lit "<p><a href=" ++ target ++ lit ">" ++ label ++ lit "</a></p>" := by
  simp only [HtmlNode.toHtml, childrenToHtml, propertiesToHtml_single]
  simp [NodeType.tag, lit]

theorem propertiesToHtml_short (ro : RangeOrder) (properties : Properties)
    (h : properties.length ≤ 1) :
    propertiesToHtml ro properties = propertiesToHtml RangeOrder.literal properties := by
  have hperm : ro.order properties = properties := by
    match properties, h with
    | [], _ => exact List.perm_nil.mp (ro.perm [])
    | [kv], _ => exact List.perm_singleton.mp (ro.perm [kv])
  unfold propertiesToHtml
  rw [hperm]
  rfl

mutual
theorem toHtmlFrom_orderFree (choices : Nat → RangeOrder) :
    ∀ (n : Nat) (node : HtmlNode), node.orderFree = true →
      (node.toHtmlFrom choices n).1 = node.toHtml RangeOrder.literal
  | n, .leaf value nodeType properties, h => by
    have hl : properties.length ≤ 1 := by simpa [HtmlNode.orderFree] using h
    cases nodeType <;>
      simp [HtmlNode.toHtmlFrom, HtmlNode.toHtml, propertiesToHtml_short _ _ hl]
  | n, .parent nodeType childNodes, h => by
    have hc : childrenOrderFree childNodes = true := by simpa [HtmlNode.orderFree] using h
    simp [HtmlNode.toHtmlFrom, HtmlNode.toHtml, childrenToHtmlFrom_orderFree choices n childNodes hc]
theorem childrenToHtmlFrom_orderFree (choices : Nat → RangeOrder) :
    ∀ (n : Nat) (children : List HtmlNode), childrenOrderFree children = true →
      (childrenToHtmlFrom choices n children).1 = childrenToHtml RangeOrder.literal children
  | n, [], _ => by simp [childrenToHtmlFrom, childrenToHtml]
  | n, child :: rest, h => by
    have h' : child.orderFree = true ∧ childrenOrderFree rest = true := by
      simpa [childrenOrderFree] using h
    simp [childrenToHtmlFrom, childrenToHtml, toHtmlFrom_orderFree choices n child h'.1,
      childrenToHtmlFrom_orderFree choices _ rest h'.2]
end

mutual
theorem toHtmlFrom_const (ro : RangeOrder) :
    ∀ (n : Nat) (node : HtmlNode), (node.toHtmlFrom (fun _ => ro) n).1 = node.toHtml ro
  | n, .leaf value nodeType properties => by
    cases nodeType <;> simp [HtmlNode.toHtmlFrom, HtmlNode.toHtml]
  | n, .parent nodeType childNodes => by
    simp [HtmlNode.toHtmlFrom, HtmlNode.toHtml, childrenToHtmlFrom_const ro n childNodes]
theorem childrenToHtmlFrom_const (ro : RangeOrder) :
    ∀ (n : Nat) (children : List HtmlNode),
      (childrenToHtmlFrom (fun _ => ro) n children).1 = childrenToHtml ro children
  | n, [] => by simp [childrenToHtmlFrom, childrenToHtml]
  | n, child :: rest => by
    simp [childrenToHtmlFrom, childrenToHtml, toHtmlFrom_const ro n child,
      childrenToHtmlFrom_const ro _ rest]
end

theorem childrenToHtmlFrom_append (choices : Nat → RangeOrder) (n : Nat)
    (xs ys : List HtmlNode) :
    childrenToHtmlFrom choices n (xs ++ ys)
      = ((childrenToHtmlFrom choices n xs).1
          ++ (childrenToHtmlFrom choices (childrenToHtmlFrom choices n xs).2 ys).1,
        (childrenToHtmlFrom choices (childrenToHtmlFrom choices n xs).2 ys).2) := by
  induction xs generalizing n with
  | nil => simp [childrenToHtmlFrom]
  | cons x xs ih => simp [childrenToHtmlFrom, ih]

theorem childrenOrderFree_append (xs ys : List HtmlNode) :
    childrenOrderFree (xs ++ ys) = (childrenOrderFree xs && childrenOrderFree ys) := by
  induction xs with
  | nil => simp [childrenOrderFree]
  | cons x xs ih => simp [childrenOrderFree, ih, Bool.and_assoc]

theorem concatAll_orderFree (choices : Nat → RangeOrder) (n : Nat) (xs : List HtmlNode)
    (h : childrenOrderFree xs = true) :
    concatAll (xs.map (fun x => (x.toHtmlFrom choices n).1))
      = childrenToHtml RangeOrder.literal xs := by
  induction xs with
  | nil => simp [concatAll, childrenToHtml]
  | cons x xs ih =>
    have h' : x.orderFree = true ∧ childrenOrderFree xs = true := by
      simpa [childrenOrderFree] using h
    simp [concatAll, childrenToHtml, toHtmlFrom_orderFree choices n x h'.1, ih h'.2]

/-! ## The claims -/

/-- C1: for every input string, `NewParser(input).parse().toHtml()` returns a string: no
slice or index is out of range, no nil function is called and no nil node is produced.
Every construct kind `isIdent` returns, other than PlainText and Escaped, has a builder
registered in `parsingFuncs`; and every registered builder, called in a scanner state
that satisfies the scanner invariant and is not at EOF, returns a node. -/
theorem parse_toHtml_total (ro : RangeOrder) (input : GoString) :
    (∃ node, parseInput ro input = .ok node ∧ parseToHtml ro input = .ok (node.toHtml ro)) ∧
    (∀ (p : Parser) (fuel : Nat), isIdent p ≠ .PlainText → isIdent p ≠ .Escaped →
      (parsingFuncs ro fuel (isIdent p)).isSome = true) ∧
    (∀ (p : Parser) (kind : NodeType) (f : ParseFunc), p.input = input → WF p → p.ch ≠ EOF →
      parsingFuncs ro (input.length + 1) kind = some f → ∃ node q, f p = .ok (node, q)) := by
  refine ⟨?_, ?_, ?_⟩
  · obtain ⟨node, hnode, -⟩ := parseInput_returns ro input
    refine ⟨node, hnode, ?_⟩
    unfold parseToHtml
    rw [hnode]
    rfl
  · intro p fuel h1 h2
    rcases isIdent_registered p with h | h
    · exact absurd h h1
    · obtain ⟨f, hf, -⟩ := parsingFuncs_ok ro fuel _ h1 h2 h
      rw [hf]
      rfl
  · intro p kind f hin hwf hch hf
    by_cases hesc : kind = .Escaped
    · subst hesc
      have hfe : f = parseEscaped := by
        have : parsingFuncs ro (input.length + 1) .Escaped = some parseEscaped := rfl
        rw [this] at hf
        exact (Option.some.inj hf).symm
      obtain ⟨r, hr, -⟩ := parseEscaped_returns hwf
      exact ⟨r.1, r.2, by rw [hfe, hr]⟩
    · have hreg : registered kind = true := by
        cases kind <;> first | rfl | (exact absurd hf (by simp [parsingFuncs]))
      have hpl : kind ≠ .PlainText := by
        intro h
        subst h
        exact absurd hreg (by decide)
      obtain ⟨g, hg, hgood⟩ := parsingFuncs_ok ro (input.length + 1) kind hpl hesc hreg
      have hfg : f = g := Option.some.inj (hf.symm.trans hg)
      have hrem : remaining p ≤ input.length + 1 := by
        have := remaining_le_length hwf
        rw [hin] at this
        omega
      obtain ⟨r, hr, -⟩ := hgood p hwf hch hrem
      exact ⟨r.1, r.2, by rw [hfg, hr]⟩

/-- C2: `parse` terminates on every input: with fuel at least the length of the input it
returns a tree.  Every call of `buildNestedorRead` made while `ch != EOF`, at any depth of
the dispatch table that covers the unread input, returns, and either strictly increases
`current` or leaves `ch == EOF`; the count of unread characters strictly decreases, so the
recursion is well-founded on the remaining input. -/
theorem parse_terminates (ro : RangeOrder) (input : GoString) (fuel : Nat)
    (hfuel : input.length ≤ fuel) :
    (∃ node, parse ro fuel (NewParser input) = .ok node) ∧
    (∀ (n : Nat) (p : Parser) (start : Nat) (children : List HtmlNode),
      p.input = input → WF p → start ≤ p.current → p.ch ≠ EOF → remaining p ≤ n →
      ∃ s, buildNestedorRead (parsingFuncs ro n) (p, start, children) = .ok s ∧
        (p.current < s.1.current ∨ s.1.ch = EOF) ∧ remaining s.1 < remaining p) := by
  constructor
  · by_cases h : input = []
    · subst h
      exact ⟨_, parse_empty ro fuel⟩
    · have hlen : (NewParser input).input.length ≤ fuel := by
        rw [NewParser_ne h]
        exact hfuel
      obtain ⟨node, hnode, -⟩ := parse_returns ro (NewParser_wf h) hlen
      exact ⟨node, hnode⟩
  · intro n p start children _ hwf hs hch hn
    obtain ⟨s, hs1, hadv, hlt, -⟩ :=
      @buildNestedorRead_returns _ n (parsingFuncs_ok ro n) p start children hwf hs hch hn
    exact ⟨s, hs1, progress_of_remaining_lt hwf hadv.2.1 hch hadv.1 hlt, hlt⟩

/-- C2 at the input `**a` with fuel 3: the parse returns a tree. -/
theorem parse_terminates_witness :
    (lit "**a").length ≤ 3 ∧
      ∃ node, parse RangeOrder.literal 3 (NewParser (lit "**a")) = .ok node :=
  ⟨by decide, (parse_terminates RangeOrder.literal (lit "**a") 3 (by decide)).1⟩

/-- C3: for every non-empty plain text `t`, parsing `**t**` and serializing the tree
gives `<p><b>t</b></p>`. -/
theorem bold_renders (ro : RangeOrder) (t : GoString) (hne : t ≠ []) (ht : Plain t) :
    parseToHtml ro (lit "**" ++ t ++ lit "**") = .ok (lit "<p><b>" ++ t ++ lit "</b></p>") := by
  have h42 : ¬ t.head?.getD 0 = 42 := by
    simpa using headD_ne_of_plain ht (x := 42) (by decide) (by decide)
  have hin : lit "**" ++ t ++ lit "**" = [] ++ (lit "**" ++ (t ++ 42 :: 42 :: [])) := by
    simp [lit]
  have hlen : ([] ++ (lit "**" ++ (t ++ 42 :: 42 :: []))).length = t.length + 4 := by simp [lit]
  have hbuild := parseBold_closed (parsingFuncs ro (t.length + 4)) t ht [] []
    (t.length + 4) (by omega)
  have hend : readX 2 (cursor ([] ++ lit "**" ++ t) [42, 42])
      = cursorEnd ([] ++ lit "**" ++ t ++ [42]) 42 :=
    readX_cursor_end [42] 42 _ 0
  rw [hend] at hbuild
  have hid : isIdent (cursor [] (lit "**" ++ (t ++ 42 :: 42 :: []))) = .Bold := by
    simp [isIdent, lit, cursor_ch, peekCharX_cursor_zero, PeekOnce]
  have hcheck : checkBoldNode (cursor [] (lit "**" ++ (t ++ 42 :: 42 :: []))) = true := by
    cases t with
    | nil => exact absurd rfl hne
    | cons c t' =>
      simp only [List.head?_cons, Option.getD_some] at h42
      simp [checkBoldNode, lit, cursor_ch, peekCharX_cursor_zero, peekCharX_cursor_one,
        PeekOnce, PeekTwice, h42]
  have hfun : boldItalicNode (parsingFuncs ro (t.length + 4)) (t.length + 4)
      (cursor [] (lit "**" ++ (t ++ 42 :: 42 :: [])))
      = .ok (.parent .Bold (textLeaf t), cursorEnd ([] ++ lit "**" ++ t ++ [42]) 42) := by
    unfold boldItalicNode
    rw [if_pos hcheck]
    exact hbuild
  unfold parseToHtml parseInput
  rw [hin, hlen, NewParser_ne (by simp [lit]),
    parse_construct_at_end ro [] (lit "**" ++ (t ++ 42 :: 42 :: [])) (fun _ h => by simp at h)
      (t.length + 4 + 1) (by simp) (by simp [blockType, lit, cursor_ch, isDigit])
      (by simp [lit, cursor_ch]) (by simp [lit]) (by rw [hid]; decide) (by rw [hid]; decide)
      (by rw [hid]; rfl) hfun rfl]
  simp [HtmlNode.toHtml, childrenToHtml, childrenToHtml_textLeaf, NodeType.tag, lit,
    Except.bind, bind, pure, Except.pure]

/-- C3 at `t = bold`. -/
theorem bold_renders_witness :
    lit "bold" ≠ [] ∧ Plain (lit "bold") ∧
      parseToHtml RangeOrder.literal (lit "**" ++ lit "bold" ++ lit "**")
        = .ok (lit "<p><b>" ++ lit "bold" ++ lit "</b></p>") :=
  ⟨by decide, by decide, bold_renders RangeOrder.literal (lit "bold") (by decide) (by decide)⟩

/-- C4: for every non-empty plain text `t`, parsing `*t*` and serializing the tree gives
`<p><i>t</i></p>`: the italic break condition fires on the closing `*` even though it is
the last character of the input. -/
theorem italic_renders (ro : RangeOrder) (t : GoString) (hne : t ≠ []) (ht : Plain t) :
    parseToHtml ro (lit "*" ++ t ++ lit "*") = .ok (lit "<p><i>" ++ t ++ lit "</i></p>") := by
  have h42 : t.headD 0 ≠ 42 := headD_ne_of_plain ht (by decide) (by decide)
  have hin : lit "*" ++ t ++ lit "*" = [] ++ (lit "*" ++ (t ++ 42 :: [])) := by simp [lit]
  have hlen : ([] ++ (lit "*" ++ (t ++ 42 :: []))).length = t.length + 2 := by simp [lit]
  unfold parseToHtml parseInput
  rw [hin, hlen]
  have hnew : NewParser ([] ++ (lit "*" ++ (t ++ 42 :: [])))
      = cursor [] ([] ++ (lit "*" ++ (t ++ 42 :: []))) := NewParser_cons _ _
  have hpeek : peekCharX (cursor [] (lit "*" ++ (t ++ [42]))) 0 ≠ 42 := by
    cases t with
    | nil => exact absurd rfl hne
    | cons c t' => simpa [lit, peekCharX_cursor_zero] using h42
  have hbuild := parseItalic_closed (parsingFuncs ro (t.length + 2)) t ht [] [] (by decide)
    (t.length + 2) (by omega)
  have hend : readX 1 (cursor ([] ++ lit "*" ++ t) [42]) = cursorEnd ([] ++ lit "*" ++ t) 42 := by
    simpa using readX_cursor_end [] 42 ([] ++ lit "*" ++ t) 0
  rw [hend] at hbuild
  rw [hnew, parse_construct_at_end ro [] (lit "*" ++ (t ++ 42 :: [])) (fun _ h => by simp at h)
    (t.length + 2 + 1) (by simp) (by simp [blockType, lit, cursor_ch, isDigit])
    (f := boldItalicNode (parsingFuncs ro (t.length + 2)) (t.length + 2))
    (by simp [lit, cursor_ch]) (by simp [lit])
    (by simp [isIdent, lit, cursor_ch]; split <;> simp)
    (by simp [isIdent, lit, cursor_ch]; split <;> simp)
    (by
      have : isIdent (cursor [] (lit "*" ++ (t ++ [42]))) = .Italic := by
        simp only [isIdent, PeekOnce, if_neg hpeek]
        simp [lit, cursor_ch]
      rw [this]; rfl)
    (by
      unfold boldItalicNode
      rw [if_neg (by simp [checkBoldNode, PeekOnce, hpeek])]
      exact hbuild)
    rfl]
  simp [HtmlNode.toHtml, childrenToHtml, childrenToHtml_textLeaf, NodeType.tag, lit,
    Except.bind, bind, pure, Except.pure]

/-- C4 at `t = it`. -/
theorem italic_renders_witness :
    lit "it" ≠ [] ∧ Plain (lit "it") ∧
      parseToHtml RangeOrder.literal (lit "*" ++ lit "it" ++ lit "*")
        = .ok (lit "<p><i>" ++ lit "it" ++ lit "</i></p>") :=
  ⟨by decide, by decide, italic_renders RangeOrder.literal (lit "it") (by decide) (by decide)⟩

/-- C5: for all plain texts `a` and `t` (either may be empty) and every opening delimiter
`d` among `**`, `*` and three backticks, an inline construct that is opened and never
closed degrades to literal text.  The builder returns a PlainText parent wrapping one
leaf that holds the input from the delimiter to the end, after the leaf for `a` if `a` is
not empty, and the serialization is `<p>` followed by `a`, `d`, `t` and `</p>`. -/
theorem unterminated_is_literal (ro : RangeOrder) (a t d : GoString) (ha : Plain a) (ht : Plain t)
    (hd : d = lit "**" ∨ d = lit "*" ∨ d = lit "```") :
    parseInput ro (a ++ d ++ t) = .ok (.parent .Paragraph
        (textLeaf a ++ [.parent .PlainText [.leaf (d ++ t) .PlainText []]])) ∧
    parseToHtml ro (a ++ d ++ t) = .ok (lit "<p>" ++ a ++ d ++ t ++ lit "</p>") := by
  have h42 : t.headD 0 ≠ 42 := headD_ne_of_plain ht (by decide) (by decide)
  have h42' : ¬ t.head?.getD 0 = 42 := by simpa using h42
  have key : parseInput ro (a ++ d ++ t) = .ok (.parent .Paragraph
        (textLeaf a ++ [.parent .PlainText [.leaf (d ++ t) .PlainText []]])) := by
    rcases hd with rfl | rfl | rfl
    · have hid : isIdent (cursor a (lit "**" ++ t)) = .Bold := by
        simp [isIdent, lit, cursor_ch, peekCharX_cursor_zero, PeekOnce]
      refine open_construct ro a (lit "**") t ha ht .Bold _ bold_break_plain (Or.inl rfl)
        (by decide) (by simp [blockType, lit, cursor_ch, isDigit]) (by simp [hid]) (by simp [hid])
        (fun n => ⟨_, by rw [hid]; rfl, ?_⟩)
      unfold boldItalicNode
      rw [if_pos (by simp [checkBoldNode, lit, cursor_ch, peekCharX_cursor_zero,
        peekCharX_cursor_one, PeekOnce, PeekTwice, h42'])]
      rfl
    · have hpk : peekCharX (cursor a (lit "*" ++ t)) 0 ≠ 42 := by
        simpa [lit, peekCharX_cursor_zero] using h42
      have hid : isIdent (cursor a (lit "*" ++ t)) = .Italic := by
        simp only [isIdent, PeekOnce, if_neg hpk]
        simp [lit, cursor_ch]
      refine open_construct ro a (lit "*") t ha ht .Italic _ italic_break_plain
        (Or.inr (Or.inl rfl))
        (by decide) (by simp [blockType, lit, cursor_ch, isDigit]) (by simp [hid]) (by simp [hid])
        (fun n => ⟨_, by rw [hid]; rfl, ?_⟩)
      unfold boldItalicNode
      rw [if_neg (by simp [checkBoldNode, PeekOnce, hpk])]
      rfl
    · have hid : isIdent (cursor a (lit "```" ++ t)) = .Code := by
        simp [isIdent, lit, cursor_ch, peekCharX_cursor_zero, peekCharX_cursor_one, PeekOnce,
          PeekTwice]
      exact open_construct ro a (lit "```") t ha ht .Code _ code_break_plain
        (Or.inr (Or.inr (Or.inl rfl)))
        (by decide) (by simp [blockType, lit, cursor_ch, isDigit]) (by simp [hid]) (by simp [hid])
        (fun n => ⟨_, by rw [hid]; rfl, rfl⟩)
  refine ⟨key, ?_⟩
  unfold parseToHtml
  rw [key]
  simp [HtmlNode.toHtml, childrenToHtml, childrenToHtml_textLeaf, childrenToHtml_append,
    NodeType.tag, lit, Except.bind, bind, pure, Except.pure]

/-- C5 at `a = see `, `d = **` and `t = bold`. -/
theorem unterminated_is_literal_witness :
    Plain (lit "see ") ∧ Plain (lit "bold") ∧
      parseToHtml RangeOrder.literal (lit "see " ++ lit "**" ++ lit "bold")
        = .ok (lit "<p>" ++ lit "see " ++ lit "**" ++ lit "bold" ++ lit "</p>") :=
  ⟨by decide, by decide,
    (unterminated_is_literal RangeOrder.literal (lit "see ") (lit "bold") (lit "**")
      (by decide) (by decide) (Or.inl rfl)).2⟩

/-- C6, at the failing input: the one-character paragraph `a` is parsed to a Paragraph
with no child at all, so its text is lost and the serialization is `<p></p>`. -/
theorem single_character_dropped (ro : RangeOrder) :
    parseInput ro (lit "a") = .ok (.parent .Paragraph []) ∧
    parseToHtml ro (lit "a") = .ok (lit "<p></p>") := by
  constructor <;> rfl

/-- C7: for every `k` from 1 to 6 and every plain text `t` of at least two characters,
`k` characters `#`, one space and `t` parse to a parent of the heading kind with tag
`h` followed by the digit `k`, whose only child is the PlainText leaf with value `t`. -/
theorem heading_parses (ro : RangeOrder) (k : Nat) (hk1 : 1 ≤ k) (hk6 : k ≤ 6) (t : GoString)
    (hlen : 2 ≤ t.length) (ht : Plain t) :
    ∃ kind : NodeType, kind.tag = lit "h" ++ [48 + k] ∧
      parseInput ro (List.replicate k 35 ++ [32] ++ t)
        = .ok (.parent kind [.leaf t .PlainText []]) := by
  obtain ⟨t', c, rfl⟩ : ∃ t' c, t = t' ++ [c] := by
    rcases List.eq_nil_or_concat t with h | ⟨w, c, h⟩
    · subst h; simp at hlen
    · exact ⟨w, c, by rw [h, List.concat_eq_append]⟩
  have ht' : Plain t' := fun x hx => ht x (by simp [hx])
  have hc : plainChar c = true := ht c (by simp)
  have hne : t' ≠ [] := by
    intro h; subst h; simp at hlen
  have hcount : countHashes (List.replicate k 35 ++ [32] ++ (t' ++ [c])) 0 = k := by
    rw [List.append_assoc, countHashes_replicate k _ 0 (by simp), Nat.zero_add]
  have hch : (cursor [] (List.replicate k 35 ++ [32] ++ (t' ++ [c]))).ch = 35 := by
    obtain ⟨j, rfl⟩ : ∃ j, k = j + 1 := ⟨k - 1, by omega⟩
    simp [cursor, List.replicate_succ]
  have hbt : blockType (cursor [] (List.replicate k 35 ++ [32] ++ (t' ++ [c])))
      = headingType (cursor [] (List.replicate k 35 ++ [32] ++ (t' ++ [c]))) := by
    unfold blockType
    rw [if_neg (by rw [hch]; decide), if_neg (by rw [hch]; decide), if_pos hch]
  have hht : ∀ kind : NodeType,
      headingType (cursor [] (List.replicate k 35 ++ [32] ++ (t' ++ [c]))) = kind →
      consumeBlockHeading (cursor [] (List.replicate k 35 ++ [32] ++ (t' ++ [c]))) kind
        = readX (List.replicate k 35 ++ [32]).length
          (cursor [] (List.replicate k 35 ++ [32] ++ (t' ++ [c]))) →
      parseInput ro (List.replicate k 35 ++ [32] ++ (t' ++ [c]))
        = .ok (.parent kind [.leaf (t' ++ [c]) .PlainText []]) := by
    intro kind hkind hcons
    unfold parseInput
    rw [NewParser_ne (by simp)]
    exact parse_block_text ro kind (List.replicate k 35 ++ [32]) t' c ht' hc hne
      (by rw [hbt, hkind]) hcons _ (by simp; omega)
  have hhead : ∀ kind : NodeType, (k < 6 → kind = (match k with
      | 0 => NodeType.Heading0 | 1 => .Heading1 | 2 => .Heading2 | 3 => .Heading3
      | 4 => .Heading4 | _ => .Heading5)) → (6 ≤ k → kind = .Heading6) →
      headingType (cursor [] (List.replicate k 35 ++ [32] ++ (t' ++ [c]))) = kind := by
    intro kind h1 h2
    unfold headingType
    simp only [cursor_input, List.nil_append]
    rw [hcount]
    split
    · exact (h2 (by omega)).symm
    · exact (h1 (by omega)).symm
  interval_cases k
  · exact ⟨.Heading1, by decide, hht _ (hhead _ (fun _ => rfl) (by omega)) rfl⟩
  · exact ⟨.Heading2, by decide, hht _ (hhead _ (fun _ => rfl) (by omega)) rfl⟩
  · exact ⟨.Heading3, by decide, hht _ (hhead _ (fun _ => rfl) (by omega)) rfl⟩
  · exact ⟨.Heading4, by decide, hht _ (hhead _ (fun _ => rfl) (by omega)) rfl⟩
  · exact ⟨.Heading5, by decide, hht _ (hhead _ (fun _ => rfl) (by omega)) rfl⟩
  · exact ⟨.Heading6, by decide, hht _ (hhead _ (by omega) (fun _ => rfl)) rfl⟩

/-- C7 at `k = 1` and `t = Heading`. -/
theorem heading_parses_witness :
    1 ≤ 1 ∧ 1 ≤ 6 ∧ 2 ≤ (lit "Heading").length ∧ Plain (lit "Heading") ∧
      ∃ kind : NodeType, kind.tag = lit "h" ++ [48 + 1] ∧
        parseInput RangeOrder.literal (List.replicate 1 35 ++ [32] ++ lit "Heading")
          = .ok (.parent kind [.leaf (lit "Heading") .PlainText []]) :=
  ⟨by decide, by decide, by decide, by decide,
    heading_parses RangeOrder.literal 1 (by decide) (by decide) (lit "Heading") (by decide)
      (by decide)⟩

/-- C8: for all plain texts `l` and `s`, the input `![l](s)` parses to a Paragraph whose
only child is a leaf of kind Image with empty value and exactly the two attributes
`alt = l` and `src = s`. -/
theorem image_parses (ro : RangeOrder) (l s : GoString) (hl : Plain l) (hs : Plain s) :
    parseInput ro (lit "![" ++ l ++ lit "](" ++ s ++ lit ")")
      = .ok (.parent .Paragraph [.leaf [] .Image [(lit "alt", l), (lit "src", s)]]) := by
  have hin : lit "![" ++ l ++ lit "](" ++ s ++ lit ")"
      = [] ++ ([33] ++ ([91] ++ (l ++ 93 :: 40 :: (s ++ [41])))) := by simp [lit]
  have hlen : ([] ++ ([33] ++ ([91] ++ (l ++ 93 :: 40 :: (s ++ [41]))))).length
      = l.length + s.length + 5 := by simp; omega
  have hbuild := parseImageLink_closed ro (parsingFuncs ro (l.length + s.length + 5)) .Image [33]
    (Or.inl ⟨rfl, rfl⟩) l s hl hs [] (l.length + s.length + 5) (by omega) (by omega)
  have hid : isIdent (cursor [] ([33] ++ ([91] ++ (l ++ 93 :: 40 :: (s ++ [41]))))) = .Image := by
    simp [isIdent, cursor_ch, peekCharX_cursor_zero, PeekOnce]
  unfold parseInput
  rw [hin, hlen, NewParser_ne (by simp)]
  exact parse_construct_at_end ro [] _ (fun _ h => by simp at h) _ (by simp)
    (by simp [blockType, cursor_ch, isDigit])
    (by simp [cursor_ch]) (by simp) (by rw [hid]; decide) (by rw [hid]; decide) (by rw [hid]; rfl) hbuild rfl

/-- C8 at `l = alt` and `s = src.png`. -/
theorem image_parses_witness :
    Plain (lit "alt") ∧ Plain (lit "src.png") ∧
      parseInput RangeOrder.literal (lit "![" ++ lit "alt" ++ lit "](" ++ lit "src.png" ++ lit ")")
        = .ok (.parent .Paragraph
            [.leaf [] .Image [(lit "alt", lit "alt"), (lit "src", lit "src.png")]]) :=
  ⟨by decide, by decide,
    image_parses RangeOrder.literal (lit "alt") (lit "src.png") (by decide) (by decide)⟩

/-- C9, as stated, fails: when the run time visits the entries of the attribute map in
the opposite order, the Image leaf with `alt = a` and `src = b` serializes to
`<img src=b alt=a/>`, which is not `<img alt=a src=b/>`, and two serializations of the
same leaf differ. -/
theorem image_attribute_order_varies :
    (HtmlNode.leaf [] .Image [(lit "alt", lit "a"), (lit "src", lit "b")]).toHtml
        RangeOrder.reversed = lit "<img src=b alt=a/>" ∧
    (HtmlNode.leaf [] .Image [(lit "alt", lit "a"), (lit "src", lit "b")]).toHtml
        RangeOrder.reversed ≠ lit "<img alt=a src=b/>" ∧
    (HtmlNode.leaf [] .Image [(lit "alt", lit "a"), (lit "src", lit "b")]).toHtml
        RangeOrder.literal ≠
      (HtmlNode.leaf [] .Image [(lit "alt", lit "a"), (lit "src", lit "b")]).toHtml
        RangeOrder.reversed := by
  refine ⟨by decide, by decide, by decide⟩

/-- C9, amended: an Image leaf with the attributes `alt = A` and `src = S` serializes to
`<img alt=A src=S/>` or to `<img src=S alt=A/>`, depending on the order in which the
run time visits the entries of the map; each attribute appears exactly once. -/
theorem image_attributes_either_order (ro : RangeOrder) (value A S : GoString) :
    (HtmlNode.leaf value .Image [(lit "alt", A), (lit "src", S)]).toHtml ro
        = lit "<img alt=" ++ A ++ lit " src=" ++ S ++ lit "/>" ∨
    (HtmlNode.leaf value .Image [(lit "alt", A), (lit "src", S)]).toHtml ro
        = lit "<img src=" ++ S ++ lit " alt=" ++ A ++ lit "/>" := by
  rcases perm_pair (ro.perm [(lit "alt", A), (lit "src", S)]) with h | h
  · left
    simp only [HtmlNode.toHtml, propertiesToHtml, h]
    simp [NodeType.tag, lit]
  · right
    simp only [HtmlNode.toHtml, propertiesToHtml, h]
    simp [NodeType.tag, lit]

/-- C10: for all plain texts `l` and `s`, parsing `[l](s)` and serializing the tree
gives `<p><a href=s>l</a></p>`. -/
theorem link_renders (ro : RangeOrder) (l s : GoString) (hl : Plain l) (hs : Plain s) :
    parseToHtml ro (lit "[" ++ l ++ lit "](" ++ s ++ lit ")")
      = .ok (lit "<p><a href=" ++ s ++ lit ">" ++ l ++ lit "</a></p>") := by
  have hin : lit "[" ++ l ++ lit "](" ++ s ++ lit ")"
      = [] ++ ([] ++ ([91] ++ (l ++ 93 :: 40 :: (s ++ [41])))) := by simp [lit]
  have hlen : ([] ++ ([] ++ ([91] ++ (l ++ 93 :: 40 :: (s ++ [41]))))).length
      = l.length + s.length + 4 := by simp; omega
  have hbuild := parseImageLink_closed ro (parsingFuncs ro (l.length + s.length + 4)) .Link []
    (Or.inr ⟨rfl, rfl⟩) l s hl hs [] (l.length + s.length + 4) (by omega) (by omega)
  have hid : isIdent (cursor [] ([] ++ ([91] ++ (l ++ 93 :: 40 :: (s ++ [41]))))) = .Link := by
    simp [isIdent, cursor_ch]
  have hperm : ro.order [(lit "href", s)] = [(lit "href", s)] :=
    List.perm_singleton.mp (ro.perm _)
  have hprop : propertiesToHtml ro [(lit "href", s)] = lit " href=" ++ s := by
    unfold propertiesToHtml
    rw [hperm]
    simp [lit]
  unfold parseToHtml parseInput
  rw [hin, hlen, NewParser_ne (by simp),
    parse_construct_at_end ro [] _ (fun _ h => by simp at h) _ (by simp)
    (by simp [blockType, cursor_ch, isDigit])
    (by simp [cursor_ch]) (by simp) (by rw [hid]; decide) (by rw [hid]; decide) (by rw [hid]; rfl) hbuild rfl]
  simp only [HtmlNode.toHtml, childrenToHtml, imageLinkLeaf, hprop, textLeaf,
    Except.bind, bind, pure, Except.pure]
  simp [NodeType.tag, lit]

/-- C10 at `l = text` and `s = http://x`. -/
theorem link_renders_witness :
    Plain (lit "text") ∧ Plain (lit "http://x") ∧
      parseToHtml RangeOrder.literal (lit "[" ++ lit "text" ++ lit "](" ++ lit "http://x" ++ lit ")")
        = .ok (lit "<p><a href=" ++ lit "http://x" ++ lit ">" ++ lit "text" ++ lit "</a></p>") :=
  ⟨by decide, by decide,
    link_renders RangeOrder.literal (lit "text") (lit "http://x") (by decide) (by decide)⟩

/-- C11: for every plain text `t` (empty or not) and every character `c` among `*`, a
backtick, `[`, `!`, `-` and the backslash, a backslash makes the following character
literal and starts no construct: parsing a backslash, `c`, `t`, a backslash and `c`, and
serializing the tree, gives `<p>`, `c`, `t`, `c` and `</p>`. -/
theorem escape_makes_literal (ro : RangeOrder) (t : GoString) (ht : Plain t) (c : Nat)
    (hc : c ∈ [42, 96, 91, 33, 45, 92]) :
    parseToHtml ro (lit "\\" ++ [c] ++ t ++ lit "\\" ++ [c])
      = .ok (lit "<p>" ++ [c] ++ t ++ [c] ++ lit "</p>") := by
  have hlt : c < 128 := by
    simp only [List.mem_cons, List.mem_singleton, List.not_mem_nil, or_false] at hc
    omega
  unfold parseToHtml
  rw [show lit "\\" = [92] from by decide, escaped_pair_parses ro t ht c hlt]
  simp [HtmlNode.toHtml, childrenToHtml, childrenToHtml_textLeaf, childrenToHtml_append,
    NodeType.tag, lit, Except.bind, bind, pure, Except.pure]

/-- C11 at `t = not bold` and `c = *`. -/
theorem escape_makes_literal_witness :
    Plain (lit "not bold") ∧ 42 ∈ [42, 96, 91, 33, 45, 92] ∧
      parseToHtml RangeOrder.literal (lit "\\" ++ [42] ++ lit "not bold" ++ lit "\\" ++ [42])
        = .ok (lit "<p>" ++ [42] ++ lit "not bold" ++ [42] ++ lit "</p>") :=
  ⟨by decide, by decide,
    escape_makes_literal RangeOrder.literal (lit "not bold") (by decide) 42 (by decide)⟩

/-- C12: for every `n ≥ 1` and item texts `t_1 … t_n` made of letters and spaces only,
the block `1. t_1`, newline, `2. t_2`, …, `n. t_n` parses to a parent of kind OrderedList
with exactly `n` children, each of them a parent of kind ListElement. -/
theorem ordered_list_items (ro : RangeOrder) (items : List GoString) (hne : items ≠ [])
    (hitems : ∀ t ∈ items, ∀ c ∈ t, letterOrSpace c = true) :
    ∃ children, parseInput ro (orderedBlock 1 items) = .ok (.parent .OrderedList children) ∧
      children.length = items.length ∧
      ∀ child ∈ children, ∃ cs, child = HtmlNode.parent .ListElement cs := by
  obtain ⟨t, rest, rfl⟩ := List.exists_cons_of_ne_nil hne
  obtain ⟨tail, hform⟩ : ∃ tail, orderedBlock 1 (t :: rest) = decimal 1 ++ 46 :: 32 :: tail := by
    cases rest with
    | nil => exact ⟨_, orderedBlock_single 1 t⟩
    | cons next rest' => exact ⟨_, orderedBlock_more 1 t next rest'⟩
  obtain ⟨hlen1, hlen2⟩ := orderedBlock_length 1 (t :: rest)
  obtain ⟨q, new, hscan, hlen, hkind⟩ := orderedItems_scan ro (orderedBlock 1 (t :: rest)).length
    (t :: rest) hne hitems hlen2 1 [] [] ((orderedBlock 1 (t :: rest)).length + 1) (by omega)
  have hnonempty : orderedBlock 1 (t :: rest) ≠ [] := by
    rw [hform]
    simp
  have hblock : blockType (cursor [] (orderedBlock 1 (t :: rest))) = .OrderedList := by
    rw [hform, blockType_digit (marker_ch_digit [] (decimal 1) tail (decimal_digits 1)
        (decimal_ne_nil 1)),
      if_pos (isOrderedIdent_marker [] (decimal 1) tail (decimal_digits 1))]
  refine ⟨new, ?_, hlen, hkind⟩
  unfold parseInput
  rw [NewParser_ne hnonempty,
    parse_eq ro _ _ q q.current ([] ++ new) (by rw [hblock]; exact hscan),
    if_neg (lt_irrefl _), hblock, List.nil_append]

/-- C12 at the two items `a` and `b`. -/
theorem ordered_list_items_witness :
    [lit "a", lit "b"] ≠ [] ∧ (∀ t ∈ [lit "a", lit "b"], ∀ c ∈ t, letterOrSpace c = true) ∧
      ∃ children,
        parseInput RangeOrder.literal (orderedBlock 1 [lit "a", lit "b"])
          = .ok (.parent .OrderedList children) ∧
        children.length = [lit "a", lit "b"].length ∧
        ∀ child ∈ children, ∃ cs, child = HtmlNode.parent .ListElement cs :=
  ⟨by decide, by decide,
    ordered_list_items RangeOrder.literal [lit "a", lit "b"] (by decide) (by decide)⟩

/-- C13, at failing inputs: a malformed link does not reproduce the source.  With no label
terminator, for every plain text `l` and plain character `c` the input `[`, `l`, `c`
serializes to `<p>[`, `l`, `</p>`, the last character being lost: `[a` gives `<p>[</p>`,
and `[` alone gives `<p></p>`.  With a label that is not followed by `(`, `[a]`
serializes to `<p>[a</p>` and `[a]b` to `<p>[a]</p>`. -/
theorem malformed_link_loses_text (ro : RangeOrder) :
    (∀ (l : GoString) (c : Nat), Plain (l ++ [c]) →
      parseToHtml ro (lit "[" ++ (l ++ [c])) = .ok (lit "<p>[" ++ l ++ lit "</p>")) ∧
    parseToHtml ro (lit "[" ++ lit "a") = .ok (lit "<p>[</p>") ∧
    parseToHtml ro (lit "[" ++ lit "") = .ok (lit "<p></p>") ∧
    parseToHtml ro (lit "[" ++ lit "a" ++ lit "]" ++ lit "") = .ok (lit "<p>[a</p>") ∧
    parseToHtml ro (lit "[" ++ lit "a" ++ lit "]" ++ lit "b") = .ok (lit "<p>[a]</p>") := by
  refine ⟨?_, rfl, rfl, rfl, rfl⟩
  intro l c ht
  unfold parseToHtml
  rw [show lit "[" = [91] from by decide, unterminated_label_parses ro l c ht]
  simp only [HtmlNode.toHtml, childrenToHtml, Except.bind, bind, pure, Except.pure]
  simp [NodeType.tag, lit]

/-- C14: two `*` followed by a third `*` are not treated as bold.  `checkBoldNode` is
true exactly when `ch` is `*`, the next character is `*` and the character after that is
not `*`; and for every non-empty plain text `t`, parsing `***t**` and serializing the
tree gives the literal text `<p>***t**</p>`, with no `<b>` or `<i>` tag. -/
theorem triple_star_is_literal (ro : RangeOrder) (t : GoString) (hne : t ≠ []) (ht : Plain t) :
    (∀ p : Parser, checkBoldNode p = true ↔
      (p.ch = 42 ∧ peekCharX p PeekOnce = 42 ∧ peekCharX p PeekTwice ≠ 42)) ∧
    parseInput ro (lit "***" ++ t ++ lit "**")
      = .ok (.parent .Paragraph
          [.parent .PlainText [.leaf (lit "***" ++ t ++ lit "**") .PlainText []]]) ∧
    parseToHtml ro (lit "***" ++ t ++ lit "**") = .ok (lit "<p>***" ++ t ++ lit "**</p>") := by
  have hin : lit "***" ++ t ++ lit "**" = [] ++ (lit "*" ++ (lit "**" ++ (t ++ 42 :: 42 :: []))) := by
    simp [lit]
  have hlen : ([] ++ (lit "*" ++ (lit "**" ++ (t ++ 42 :: 42 :: [])))).length
      = t.length + 4 + 1 := by simp [lit]
  have hid : isIdent (cursor [] (lit "*" ++ (lit "**" ++ (t ++ 42 :: 42 :: [])))) = .Bold := by
    simp [isIdent, lit, cursor_ch, peekCharX_cursor_zero, PeekOnce]
  have key : parseInput ro (lit "***" ++ t ++ lit "**")
      = .ok (.parent .Paragraph
          [.parent .PlainText [.leaf (lit "***" ++ t ++ lit "**") .PlainText []]]) := by
    unfold parseInput
    rw [hin, hlen, NewParser_ne (by simp [lit]),
      parse_construct_at_end ro [] (lit "*" ++ (lit "**" ++ (t ++ 42 :: 42 :: [])))
        (fun _ h => by simp at h) (t.length + 4 + 1 + 1) (by simp)
        (by simp [blockType, lit, cursor_ch, isDigit])
        (by simp [lit, cursor_ch]) (by simp [lit]) (by rw [hid]; decide) (by rw [hid]; decide)
        (by rw [hid]; rfl)
        (triple_star_italic_fallback ro t hne ht (t.length + 4) (by omega)) rfl]
    simp [textLeaf, lit]
  refine ⟨?_, key, ?_⟩
  · intro p
    simp [checkBoldNode, and_assoc]
  · have hser : (HtmlNode.parent .Paragraph
        [.parent .PlainText [.leaf (lit "***" ++ t ++ lit "**") .PlainText []]]).toHtml ro
        = lit "<p>***" ++ t ++ lit "**</p>" := by
      simp [HtmlNode.toHtml, childrenToHtml, NodeType.tag, lit]
    unfold parseToHtml
    rw [key]
    exact congrArg Except.ok hser

/-- C14 at `t = x`. -/
theorem triple_star_is_literal_witness :
    lit "x" ≠ [] ∧ Plain (lit "x") ∧
      parseToHtml RangeOrder.literal (lit "***" ++ lit "x" ++ lit "**")
        = .ok (lit "<p>***" ++ lit "x" ++ lit "**</p>") :=
  ⟨by decide, by decide,
    (triple_star_is_literal RangeOrder.literal (lit "x") (by decide) (by decide)).2.2⟩

/-- C15: `LeafNode.toHtml` equals the reference definition.  For a leaf of kind Code or
Link it is `<tag attrs>value</tag>`, for kind Image it is `<tag attrs/>` with the value
ignored, and for every other kind it is the value unchanged, with no escaping.  Here
`attrs` is the concatenation of a space, the name, `=` and the value for each attribute
in the order `range` visits them, and it is empty when the leaf has no attributes. -/
theorem leaf_toHtml_refines_spec (ro : RangeOrder) (value : GoString) (kind : NodeType)
    (properties : Properties) :
    (HtmlNode.leaf value kind properties).toHtml ro
        = leafToHtmlSpec kind value (attrsSpec (ro.order properties)) ∧
      attrsSpec (ro.order []) = [] ∧
      (kind ≠ .Code → kind ≠ .Link → kind ≠ .Image →
        (HtmlNode.leaf value kind properties).toHtml ro = value) := by
  have hnil : ro.order [] = [] := List.perm_nil.mp (ro.perm [])
  refine ⟨?_, by rw [hnil]; rfl, ?_⟩
  · cases kind <;> simp [HtmlNode.toHtml, leafToHtmlSpec, propertiesToHtml_eq]
  · intro h1 h2 h3
    cases kind <;> simp [HtmlNode.toHtml] at h1 h2 h3 ⊢

/-- C15 at a PlainText leaf whose value holds `<`, `>` and `&`: the value is emitted as
it is. -/
theorem leaf_toHtml_refines_spec_witness :
    (HtmlNode.leaf (lit "a<b>&c") .PlainText []).toHtml RangeOrder.literal = lit "a<b>&c" :=
  (leaf_toHtml_refines_spec RangeOrder.literal (lit "a<b>&c") .PlainText []).2.2
    (by decide) (by decide) (by decide)

/-- C16, counterexample: the Image leaf with attributes `alt = a` and `src = b`, taken as
the only child (`xs` is this leaf, `ys` is empty).  A serialization of the PlainText parent
over `xs ++ ys` in which the `range` over the attributes visits `alt` first differs from a
serialization of the parent over `xs`, in which it visits `src` first, followed by one of
the parent over `ys`.  Within one serialization two such leaves may differ too:
`<img alt=a src=b/><img src=b alt=a/>` is a serialization of the parent over two of them. -/
theorem parent_serializations_differ :
    (HtmlNode.toHtmlFrom (fun _ => RangeOrder.literal) 0 (.parent .PlainText
        ([.leaf [] .Image [(lit "alt", lit "a"), (lit "src", lit "b")]] ++ []))).1
      = lit "<img alt=a src=b/>" ∧
    (HtmlNode.toHtmlFrom (fun _ => RangeOrder.reversed) 0 (.parent .PlainText
        [.leaf [] .Image [(lit "alt", lit "a"), (lit "src", lit "b")]])).1
      ++ (HtmlNode.toHtmlFrom (fun _ => RangeOrder.reversed) 0 (.parent .PlainText [])).1
      = lit "<img src=b alt=a/>" ∧
    (HtmlNode.toHtmlFrom (fun _ => RangeOrder.literal) 0 (.parent .PlainText
        ([.leaf [] .Image [(lit "alt", lit "a"), (lit "src", lit "b")]] ++ []))).1
      ≠ (HtmlNode.toHtmlFrom (fun _ => RangeOrder.reversed) 0 (.parent .PlainText
          [.leaf [] .Image [(lit "alt", lit "a"), (lit "src", lit "b")]])).1
        ++ (HtmlNode.toHtmlFrom (fun _ => RangeOrder.reversed) 0 (.parent .PlainText [])).1 ∧
    (HtmlNode.toHtmlFrom (fun n => if n = 0 then RangeOrder.literal else RangeOrder.reversed) 0
        (.parent .PlainText
          [.leaf [] .Image [(lit "alt", lit "a"), (lit "src", lit "b")],
            .leaf [] .Image [(lit "alt", lit "a"), (lit "src", lit "b")]])).1
      = lit "<img alt=a src=b/><img src=b alt=a/>" := by
  refine ⟨by decide, by decide, by decide, by decide⟩

/-- C16, amended: within one serialization `ParentNode.toHtml` is a homomorphism over the
children.  The serialization of a PlainText parent over no child is empty, over one child
it is the child's serialization, and over `xs ++ ys` it is the serialization of the parent
over `xs` followed by that of the parent over `ys`, which continues with the ranges that
follow; for a parent of any other kind `k` it is `<k>`, the serialization of the PlainText
parent over the same children, and `</k>`.  When no leaf among `xs` and `ys` has more than
one attribute, the equations also hold between serializations computed separately, with
any orders: the one over `xs ++ ys` is the one over `xs` followed by the one over `ys`, and
the one over `xs` is the concatenation, in order, of the children's serializations. -/
theorem parent_toHtml_homomorphism_per_range (choices : Nat → RangeOrder) (n : Nat)
    (kind : NodeType) (x : HtmlNode) (xs ys : List HtmlNode) :
    (HtmlNode.toHtmlFrom choices n (.parent .PlainText [])).1 = [] ∧
    HtmlNode.toHtmlFrom choices n (.parent .PlainText [x]) = x.toHtmlFrom choices n ∧
    (HtmlNode.toHtmlFrom choices n (.parent .PlainText (xs ++ ys))).1
      = (HtmlNode.toHtmlFrom choices n (.parent .PlainText xs)).1
        ++ (HtmlNode.toHtmlFrom choices
            (HtmlNode.toHtmlFrom choices n (.parent .PlainText xs)).2
            (.parent .PlainText ys)).1 ∧
    (kind ≠ .PlainText →
      (HtmlNode.toHtmlFrom choices n (.parent kind xs)).1
        = lit "<" ++ kind.tag ++ lit ">"
          ++ (HtmlNode.toHtmlFrom choices n (.parent .PlainText xs)).1
          ++ lit "</" ++ kind.tag ++ lit ">") ∧
    (childrenOrderFree (xs ++ ys) = true →
      ∀ (c1 c2 c3 : Nat → RangeOrder) (n1 n2 n3 : Nat),
        (HtmlNode.toHtmlFrom c1 n1 (.parent .PlainText (xs ++ ys))).1
          = (HtmlNode.toHtmlFrom c2 n2 (.parent .PlainText xs)).1
            ++ (HtmlNode.toHtmlFrom c3 n3 (.parent .PlainText ys)).1 ∧
        (HtmlNode.toHtmlFrom c1 n1 (.parent .PlainText xs)).1
          = concatAll (xs.map (fun child => (child.toHtmlFrom c2 n2).1))) := by
  refine ⟨?_, ?_, ?_, ?_, ?_⟩
  · simp [HtmlNode.toHtmlFrom, childrenToHtmlFrom]
  · simp [HtmlNode.toHtmlFrom, childrenToHtmlFrom]
  · simp [HtmlNode.toHtmlFrom, childrenToHtmlFrom_append]
  · intro hk
    simp [HtmlNode.toHtmlFrom, hk]
  · intro h c1 c2 c3 n1 n2 n3
    rw [childrenOrderFree_append, Bool.and_eq_true] at h
    have hxy : childrenOrderFree (xs ++ ys) = true := by
      rw [childrenOrderFree_append, h.1, h.2]
      rfl
    constructor
    · rw [toHtmlFrom_orderFree c1 n1 _ (by simpa [HtmlNode.orderFree] using hxy),
        toHtmlFrom_orderFree c2 n2 _ (by simpa [HtmlNode.orderFree] using h.1),
        toHtmlFrom_orderFree c3 n3 _ (by simpa [HtmlNode.orderFree] using h.2)]
      simp [HtmlNode.toHtml, childrenToHtml_append]
    · rw [toHtmlFrom_orderFree c1 n1 _ (by simpa [HtmlNode.orderFree] using h.1),
        concatAll_orderFree c2 n2 xs h.1]
      simp [HtmlNode.toHtml]

/-- C16 at a Bold parent over the text leaf `a`, and at the children `a` and the link
`<a href=u>b</a>`, none of which has more than one attribute. -/
theorem parent_toHtml_homomorphism_per_range_witness :
    NodeType.Bold ≠ NodeType.PlainText ∧
    childrenOrderFree ([HtmlNode.leaf (lit "a") .PlainText []]
      ++ [HtmlNode.leaf (lit "b") .Link [(lit "href", lit "u")]]) = true ∧
    (HtmlNode.toHtmlFrom (fun _ => RangeOrder.literal) 0
        (.parent .Bold [HtmlNode.leaf (lit "a") .PlainText []])).1
      = lit "<" ++ NodeType.Bold.tag ++ lit ">"
        ++ (HtmlNode.toHtmlFrom (fun _ => RangeOrder.literal) 0
            (.parent .PlainText [HtmlNode.leaf (lit "a") .PlainText []])).1
        ++ lit "</" ++ NodeType.Bold.tag ++ lit ">" ∧
    (HtmlNode.toHtmlFrom (fun _ => RangeOrder.literal) 0 (.parent .PlainText
        ([HtmlNode.leaf (lit "a") .PlainText []]
          ++ [HtmlNode.leaf (lit "b") .Link [(lit "href", lit "u")]]))).1
      = (HtmlNode.toHtmlFrom (fun _ => RangeOrder.reversed) 3
          (.parent .PlainText [HtmlNode.leaf (lit "a") .PlainText []])).1
        ++ (HtmlNode.toHtmlFrom (fun _ => RangeOrder.reversed) 5
          (.parent .PlainText [HtmlNode.leaf (lit "b") .Link [(lit "href", lit "u")]])).1 :=
  ⟨by decide, by decide,
    (parent_toHtml_homomorphism_per_range (fun _ => RangeOrder.literal) 0 .Bold
      (HtmlNode.leaf (lit "a") .PlainText []) [HtmlNode.leaf (lit "a") .PlainText []] []).2.2.2.1
      (by decide),
    ((parent_toHtml_homomorphism_per_range (fun _ => RangeOrder.literal) 0 .Bold
      (HtmlNode.leaf (lit "a") .PlainText []) [HtmlNode.leaf (lit "a") .PlainText []]
      [HtmlNode.leaf (lit "b") .Link [(lit "href", lit "u")]]).2.2.2.2 (by decide)
      (fun _ => RangeOrder.literal) (fun _ => RangeOrder.reversed) (fun _ => RangeOrder.reversed)
      0 3 5).1⟩

/-- C17: on a freshly constructed parser `blockType` returns the kind the specification
names for the input (`blockTypeSpec`): Quote exactly for an input that starts with `> `,
UnorderedList exactly for one that starts with `- `, the heading of level `min k 6`
exactly for one that starts with a run of exactly `k ≥ 1` characters `#`, OrderedList
exactly for one that starts with one or more digits followed by `. `, and Paragraph in
every other case, the empty input included. -/
theorem blockType_refines_spec (input : GoString) :
    blockType (NewParser input) = blockTypeSpec input ∧
    (blockType (NewParser input) = .Quote ↔ startsWith input (lit "> ") = true) ∧
    (blockType (NewParser input) = .UnorderedList ↔ startsWith input (lit "- ") = true) ∧
    (∀ j : Fin 6, blockType (NewParser input) = headingOfLevel (j.val + 1) ↔
      1 ≤ leadingHashes input ∧ min (leadingHashes input) 6 = j.val + 1) ∧
    (blockType (NewParser input) = .OrderedList ↔
      1 ≤ leadingDigits input ∧
        startsWith (input.drop (leadingDigits input)) (lit ". ") = true) ∧
    (blockType (NewParser input) = .Paragraph ↔
      startsWith input (lit "> ") = false ∧ startsWith input (lit "- ") = false ∧
        leadingHashes input = 0 ∧
        ¬ (1 ≤ leadingDigits input ∧
          startsWith (input.drop (leadingDigits input)) (lit ". ") = true)) ∧
    blockType (NewParser []) = .Paragraph := by
  rw [blockType_eq_blockTypeSpec input]
  exact ⟨rfl, (blockTypeSpec_cases input).1, (blockTypeSpec_cases input).2.1,
    (blockTypeSpec_cases input).2.2.1, (blockTypeSpec_cases input).2.2.2.1,
    (blockTypeSpec_cases input).2.2.2.2, rfl⟩

/-- C18: what `isIdent` returns in every parser state, by the character under the cursor
and the characters `peekCharX` reports after it. -/
theorem isIdent_classifies (p : Parser) :
    (p.ch = 42 → peekCharX p PeekOnce = 42 → isIdent p = .Bold) ∧
    (p.ch = 42 → peekCharX p PeekOnce ≠ 42 → isIdent p = .Italic) ∧
    (p.ch = 96 → peekCharX p PeekOnce = 96 → peekCharX p PeekTwice = 96 → isIdent p = .Code) ∧
    (p.ch = 96 → (peekCharX p PeekOnce ≠ 96 ∨ peekCharX p PeekTwice ≠ 96) →
      isIdent p = .PlainText) ∧
    (p.ch = 33 → peekCharX p PeekOnce = 91 → isIdent p = .Image) ∧
    (p.ch = 33 → peekCharX p PeekOnce ≠ 91 → isIdent p = .PlainText) ∧
    (p.ch = 91 → isIdent p = .Link) ∧
    (p.ch = 45 → peekCharX p PeekOnce = 32 → isIdent p = .UnorderedList) ∧
    (p.ch = 92 → isIdent p = .Escaped) ∧
    (isDigit p.ch = true → isOrderedIdent p = true → isIdent p = .OrderedList) ∧
    (¬ (p.ch = 42 ∨ (p.ch = 96 ∧ peekCharX p PeekOnce = 96 ∧ peekCharX p PeekTwice = 96)
        ∨ (p.ch = 33 ∧ peekCharX p PeekOnce = 91) ∨ p.ch = 91
        ∨ (p.ch = 45 ∧ peekCharX p PeekOnce = 32) ∨ p.ch = 92
        ∨ (isDigit p.ch = true ∧ isOrderedIdent p = true)) → isIdent p = .PlainText) := by
  refine ⟨?_, ?_, ?_, ?_, ?_, ?_, ?_, ?_, ?_, ?_, ?_⟩
  · intro h1 h2; simp [isIdent, h1, h2]
  · intro h1 h2; simp [isIdent, h1, h2]
  · intro h1 h2 h3; simp [isIdent, h1, h2, h3]
  · intro h1 h2
    simp only [isIdent, h1]
    rcases h2 with h2 | h2 <;> simp [h2]
  · intro h1 h2; simp [isIdent, h1, h2]
  · intro h1 h2; simp [isIdent, h1, h2]
  · intro h1; simp [isIdent, h1]
  · intro h1 h2; simp [isIdent, h1, h2]
  · intro h1; simp [isIdent, h1]
  · intro h1 h2
    have h42 : p.ch ≠ 42 := by intro h; rw [h] at h1; exact absurd h1 (by decide)
    have h96 : p.ch ≠ 96 := by intro h; rw [h] at h1; exact absurd h1 (by decide)
    have h33 : p.ch ≠ 33 := by intro h; rw [h] at h1; exact absurd h1 (by decide)
    have h91 : p.ch ≠ 91 := by intro h; rw [h] at h1; exact absurd h1 (by decide)
    have h45 : p.ch ≠ 45 := by intro h; rw [h] at h1; exact absurd h1 (by decide)
    have h92 : p.ch ≠ 92 := by intro h; rw [h] at h1; exact absurd h1 (by decide)
    simp [isIdent, h42, h96, h33, h91, h45, h92, h1, h2]
  · intro h
    simp only [not_or, not_and] at h
    obtain ⟨h42, h96, h33, h91, h45, h92, hd⟩ := h
    unfold isIdent
    rw [if_neg h42]
    by_cases c96 : p.ch = 96
    · rw [if_pos c96, if_neg (fun hh => h96 c96 hh.1 hh.2)]
    · rw [if_neg c96]
      by_cases c33 : p.ch = 33
      · rw [if_pos c33, if_neg (h33 c33)]
      · rw [if_neg c33, if_neg h91]
        by_cases c45 : p.ch = 45
        · rw [if_pos c45, if_neg (h45 c45)]
        · rw [if_neg c45, if_neg h92]
          by_cases cd : isDigit p.ch = true
          · have := hd cd
            simp [cd, this]
          · simp [cd]

/-- C18 at the start of `**a**`: the cursor is on `*`, the next character is `*`, and
`isIdent` returns Bold. -/
theorem isIdent_classifies_witness :
    (NewParser (lit "**a**")).ch = 42 ∧ peekCharX (NewParser (lit "**a**")) PeekOnce = 42 ∧
      isIdent (NewParser (lit "**a**")) = .Bold :=
  ⟨by decide, by decide, (isIdent_classifies (NewParser (lit "**a**"))).1 (by decide) (by decide)⟩

/-- C19, at a failing state: `isOrderedIdent` is true exactly when the run of digits at
the cursor, which may be empty, is followed by `. `.  In the block `1. a. b`, with the
cursor on the `.` that follows `a`, the character under the cursor is not a digit and yet
`isOrderedIdent` returns true; as the break condition of `parseOrderedList` it ends the
list item there, and the rest of the item is left outside the `<li>` element. -/
theorem isOrderedIdent_without_digit (ro : RangeOrder) :
    (∀ p : Parser, isOrderedIdent p
      = startsWith ((p.input.drop p.current).drop (leadingDigits (p.input.drop p.current)))
          (lit ". ")) ∧
    isDigit (cursor (lit "1. a") (lit ". b")).ch = false ∧
    leadingDigits (lit ". b") = 0 ∧
    isOrderedIdent (cursor (lit "1. a") (lit ". b")) = true ∧
    parseToHtml ro (lit "1. a. b") = .ok (lit "<ol><li>a</li>. b</ol>") := by
  refine ⟨isOrderedIdent_eq, ?_, ?_, ?_, ?_⟩ <;> rfl

/-- C20: the scanner invariant.  For every non-empty input and every state reachable from
`NewParser(input)` by `readChar`, `readX` and the scanning and builder routines,
`current` is an index of the input (`0 <= current < len(input)`), `peek == current + 1`
and `peek <= len(input)`; and whenever `ch != EOF`, `ch == input[current]`. -/
theorem scanner_invariant (input : GoString) (hne : input ≠ []) (p : Parser)
    (hp : Reachable input p) :
    p.input = input ∧ 0 ≤ p.current ∧ p.current < input.length ∧ p.peek = p.current + 1 ∧
      p.peek ≤ input.length ∧ (p.ch ≠ EOF → input.get? p.current = some p.ch) := by
  have key : ScannerInv input p := by
    induction hp with
    | init => exact ScannerInv.newParser hne
    | readChar _ ih => exact ih.stepChar
    | readX n _ ih => exact ih.stepX n
    | consumeBlockHeading kind _ ih => exact ih.of_readFrom (consumeBlockHeading_reads _ kind)
    | buildNestedorRead ro fuel start start' children children' _ h ih =>
      exact ih.of_readFrom (buildNestedorRead_reads (parsingFuncs_reads ro fuel) h)
    | parseChildren ro fuel identSize bc nodeType node _ h ih =>
      exact ih.of_readFrom (parseChildren_reads (parsingFuncs_reads ro fuel) h)
    | builder ro fuel kind f node _ hf h ih =>
      exact ih.of_readFrom (parsingFuncs_reads ro fuel kind f _ node _ hf h)
  exact ⟨key.1, Nat.zero_le _, key.2.1, key.2.2.1, key.2.2.2.1, key.2.2.2.2⟩

/-- C20 at the input `ab` and the state after one `readChar`. -/
theorem scanner_invariant_witness :
    lit "ab" ≠ [] ∧ Reachable (lit "ab") (readChar (NewParser (lit "ab"))) ∧
      (readChar (NewParser (lit "ab"))).current < (lit "ab").length ∧
      (readChar (NewParser (lit "ab"))).peek = (readChar (NewParser (lit "ab"))).current + 1 :=
  ⟨by decide, Reachable.readChar Reachable.init,
    (scanner_invariant (lit "ab") (by decide) _ (Reachable.readChar Reachable.init)).2.2.1,
    (scanner_invariant (lit "ab") (by decide) _ (Reachable.readChar Reachable.init)).2.2.2.1⟩

/-- C21, counterexample: on the input made of a zero character followed by `a`, the state
`NewParser` sets up reports `ch == EOF` at `current == 0`, and a further `readChar` moves
on to `current == 1`, `peek == 2` and `ch == a`. -/
theorem readChar_moves_after_zero_character :
    Reachable [0, 97] (NewParser [0, 97]) ∧ (NewParser [0, 97]).ch = EOF ∧
      (NewParser [0, 97]).current = 0 ∧ (NewParser [0, 97]).peek = 1 ∧
      (readChar (NewParser [0, 97])).current = 1 ∧ (readChar (NewParser [0, 97])).peek = 2 ∧
      (readChar (NewParser [0, 97])).ch = 97 :=
  ⟨Reachable.init, rfl, rfl, rfl, rfl, rfl, rfl⟩

/-- C21, amended: `readChar` never fails (it is a total function), and for every input
that holds no zero character and every reachable scanner state with `ch == EOF`, the end
of the input has been reached (`peek >= len(input)`), a further `readChar` leaves
`current`, `peek` and `ch` unchanged, and so does any number of further `readChar` calls:
`EOF` stays reported. -/
theorem readChar_saturates_at_eof (input : GoString) (h0 : ∀ c ∈ input, c ≠ 0) (p : Parser)
    (hp : Reachable input p) (hch : p.ch = EOF) :
    input.length ≤ p.peek ∧
      (readChar p).current = p.current ∧ (readChar p).peek = p.peek ∧
      (readChar p).ch = p.ch ∧ readChar p = p ∧
      ∀ n, readX n p = p ∧ (readX n p).ch = EOF := by
  obtain ⟨h1, h2⟩ := eofAtEnd_of_reachable h0 hp
  have hpk : p.input.length ≤ p.peek := by
    rw [h1]
    exact h2 hch
  have hfix := readChar_fixed hch hpk
  refine ⟨h2 hch, by rw [hfix], by rw [hfix], by rw [hfix], hfix, fun n => ?_⟩
  rw [readX_fixed n hch hpk]
  exact ⟨rfl, hch⟩

/-- C21 at the input `ab` and the state after two further `readChar` calls. -/
theorem readChar_saturates_at_eof_witness :
    (∀ c ∈ lit "ab", c ≠ 0) ∧ Reachable (lit "ab") (readX 2 (NewParser (lit "ab"))) ∧
      (readX 2 (NewParser (lit "ab"))).ch = EOF ∧
      readChar (readX 2 (NewParser (lit "ab"))) = readX 2 (NewParser (lit "ab")) :=
  ⟨by decide, Reachable.readX 2 Reachable.init, by decide,
    (readChar_saturates_at_eof (lit "ab") (by decide) _ (Reachable.readX 2 Reachable.init)
      (by decide)).2.2.2.2.1⟩

/-- C22, at a failing input: the paragraph `h1` is rendered as `<p>h1</p>`, and on the
page `<p>h1</p>` followed by a newline `getTitle` stops with an index out of range.  It
does so for every content that contains the characters `h1` but no `<h1>` tag.  Content
without the characters `h1` gives `Page`, and content whose first `<h1>` is followed by a
text `t` and `</h1>` gives `t` (here for texts before and inside the element that hold no
`<`). -/
theorem getTitle_fails_without_tag (ro : RangeOrder) :
    parseToHtml ro (lit "h1") = .ok (lit "<p>h1</p>") ∧
    getTitle (lit "<p>h1</p>\n") = .error .outOfRange ∧
    (∀ s : GoString, stringsContains s (lit "h1") = true →
      stringsContains s (lit "<h1>") = false → getTitle s = .error .outOfRange) ∧
    (∀ s : GoString, stringsContains s (lit "h1") = false → getTitle s = .ok (lit "Page")) ∧
    (∀ a t b : GoString, 60 ∉ a → 60 ∉ t →
      getTitle (a ++ lit "<h1>" ++ t ++ lit "</h1>" ++ b) = .ok t) :=
  ⟨rfl, rfl, getTitle_without_tag, getTitle_page, getTitle_of_heading⟩

/-- C23, at failing inputs: in `[a](b\)` the only `)` is escaped, and in `[a](b*c)` it is
swallowed by the unterminated `*c)`; in both the target phase reaches the end of the input
without its break condition firing, yet `parseImageLink` returns a Link leaf, whose target
is the whole span `(b\)` or `(b*c)`, and the serialization holds an `<a` tag.  The same
happens for the image `![a](b\)`. -/
theorem unclosed_target_still_links (ro : RangeOrder) :
    parseInput ro (lit "[a](b\\)")
      = .ok (.parent .Paragraph [.leaf (lit "a") .Link [(lit "href", lit "(b\\)")]]) ∧
    parseToHtml ro (lit "[a](b\\)") = .ok (lit "<p><a href=(b\\)>a</a></p>") ∧
    parseInput ro (lit "[a](b*c)")
      = .ok (.parent .Paragraph [.leaf (lit "a") .Link [(lit "href", lit "(b*c)")]]) ∧
    parseToHtml ro (lit "[a](b*c)") = .ok (lit "<p><a href=(b*c)>a</a></p>") ∧
    parseInput ro (lit "![a](b\\)")
      = .ok (.parent .Paragraph
          [.leaf [] .Image [(lit "alt", lit "a"), (lit "src", lit "(b\\)")]]) := by
  have h1 : parseInput ro (lit "[a](b\\)")
      = .ok (.parent .Paragraph [.leaf (lit "a") .Link [(lit "href", lit "(b\\)")]]) := rfl
  have h2 : parseInput ro (lit "[a](b*c)")
      = .ok (.parent .Paragraph [.leaf (lit "a") .Link [(lit "href", lit "(b*c)")]]) := rfl
  refine ⟨h1, ?_, h2, ?_, rfl⟩
  · unfold parseToHtml
    rw [h1]
    exact congrArg Except.ok (toHtml_link_paragraph ro _ _)
  · unfold parseToHtml
    rw [h2]
    exact congrArg Except.ok (toHtml_link_paragraph ro _ _)

/-- C24, at failing inputs: for a `#` run of length `k > 6`, one space and a plain text `t`,
the root is a Heading6 parent, but only seven characters are consumed as the delimiter: the
lone child is the leaf that holds the remaining `k - 7` characters `#`, the space and `t`.
So `####### ab` serializes to `<h6> ab</h6>` and `######## ab` to `<h6># ab</h6>`. -/
theorem long_heading_keeps_delimiter (ro : RangeOrder) :
    (∀ (k : Nat) (t : GoString) (c : Nat), 7 ≤ k → Plain (t ++ [c]) →
      parseInput ro (List.replicate k 35 ++ [32] ++ (t ++ [c]))
        = .ok (.parent .Heading6
            [.leaf (List.replicate (k - 7) 35 ++ [32] ++ (t ++ [c])) .PlainText []])) ∧
    parseToHtml ro (lit "####### ab") = .ok (lit "<h6> ab</h6>") ∧
    parseToHtml ro (lit "######## ab") = .ok (lit "<h6># ab</h6>") :=
  ⟨fun k t c hk ht => long_heading_parses ro k hk t c ht, rfl, rfl⟩

/-- C25, at failing inputs: for every list of non-empty plain item texts, the block
`- t_1`, newline, …, `- t_n` parses to an UnorderedList parent whose items are those of
`builtItems`: every item but the last holds its text and the newline, and the last item,
which the end of the input terminates, holds its text without the last character.  So
`- ab` serializes to `<ul><li>a</li></ul>` and `- ab`, newline, `- cd` to
`<ul><li>ab`, newline, `</li><li>c</li></ul>`. -/
theorem last_list_item_loses_character (ro : RangeOrder) :
    (∀ items : List GoString, items ≠ [] → (∀ t ∈ items, t ≠ [] ∧ Plain t) →
      parseInput ro (unorderedBlock items)
        = .ok (.parent .UnorderedList (builtItems items))) ∧
    unorderedBlock [lit "ab"] = lit "- ab" ∧
    parseToHtml ro (lit "- ab") = .ok (lit "<ul><li>a</li></ul>") ∧
    unorderedBlock [lit "ab", lit "cd"] = lit "- ab\n- cd" ∧
    parseToHtml ro (lit "- ab\n- cd") = .ok (lit "<ul><li>ab\n</li><li>c</li></ul>") :=
  ⟨unordered_list_parses ro, by decide, rfl, by decide, rfl⟩

/-- C26: nested markup inside a code span is still parsed.  For every non-empty plain text
`t`, parsing three backticks, `**t**` and three backticks and serializing the tree gives
`<p><code><b>t</b></code></p>`, and parsing `t` between two runs of three backticks gives
`<p><code>t</code></p>`. -/
theorem code_span_parses_nested (ro : RangeOrder) (t : GoString) (hne : t ≠ [])
    (ht : Plain t) :
    parseToHtml ro (lit "```**" ++ t ++ lit "**```")
        = .ok (lit "<p><code><b>" ++ t ++ lit "</b></code></p>") ∧
      parseToHtml ro (lit "```" ++ t ++ lit "```")
        = .ok (lit "<p><code>" ++ t ++ lit "</code></p>") := by
  constructor
  · have hin : lit "```**" ++ t ++ lit "**```"
        = [] ++ ([96, 96, 96] ++ ([] ++ (([42, 42] ++ t ++ [42, 42]) ++ ([] ++ 96 :: [96, 96])))) := by
      simp [lit]
    have hlen : ([] ++ ([96, 96, 96] ++ ([] ++ (([42, 42] ++ t ++ [42, 42])
        ++ ([] ++ 96 :: [96, 96]))))).length + 1 = (t.length + 9 + 1) + 1 := by
      simp
    have hbuild := parseCode_nested_bold ro t ht hne [] (t.length + 9) (by omega)
    have hid : isIdent (cursor [] ([96, 96, 96] ++ ([] ++ (([42, 42] ++ t ++ [42, 42])
        ++ ([] ++ 96 :: [96, 96]))))) = .Code :=
      isIdent_three_backticks [] _
    unfold parseToHtml parseInput
    rw [hin, hlen, NewParser_ne (by simp),
      parse_construct_at_end ro [] _ (fun _ h => by simp at h) _ (by simp)
        (by simp [blockType, cursor_ch, isDigit]) (by simp [cursor_ch]) (by simp)
        (by rw [hid]; decide) (by rw [hid]; decide) (by rw [hid]; rfl) hbuild rfl,
      show textLeaf ([] : GoString) = [] from rfl]
    simp [HtmlNode.toHtml, childrenToHtml, childrenToHtml_append, childrenToHtml_textLeaf,
      NodeType.tag, lit, Except.bind, bind, pure, Except.pure]
  · have hin : lit "```" ++ t ++ lit "```" = [] ++ ([96, 96, 96] ++ (t ++ 96 :: [96, 96])) := by
      simp [lit]
    have hlen : ([] ++ ([96, 96, 96] ++ (t ++ 96 :: [96, 96]))).length + 1
        = (t.length + 6) + 1 := by
      simp
    have hbuild := parseCode_closed (parsingFuncs ro (t.length + 6)) t ht [] (t.length + 6)
      (by omega)
    have hid : isIdent (cursor [] ([96, 96, 96] ++ (t ++ 96 :: [96, 96]))) = .Code :=
      isIdent_three_backticks [] _
    unfold parseToHtml parseInput
    rw [hin, hlen, NewParser_ne (by simp),
      parse_construct_at_end ro [] _ (fun _ h => by simp at h) _ (by simp)
        (by simp [blockType, cursor_ch, isDigit]) (by simp [cursor_ch]) (by simp)
        (by rw [hid]; decide) (by rw [hid]; decide) (by rw [hid]; rfl) hbuild rfl,
      show textLeaf ([] : GoString) = [] from rfl]
    simp [HtmlNode.toHtml, childrenToHtml, childrenToHtml_append, childrenToHtml_textLeaf,
      NodeType.tag, lit, Except.bind, bind, pure, Except.pure]

/-- C26 at `t = x`. -/
theorem code_span_parses_nested_witness :
    lit "x" ≠ [] ∧ Plain (lit "x") ∧
      parseToHtml RangeOrder.literal (lit "```**" ++ lit "x" ++ lit "**```")
        = .ok (lit "<p><code><b>" ++ lit "x" ++ lit "</b></code></p>") ∧
      parseToHtml RangeOrder.literal (lit "```" ++ lit "x" ++ lit "```")
        = .ok (lit "<p><code>" ++ lit "x" ++ lit "</code></p>") :=
  ⟨by decide, by decide, code_span_parses_nested RangeOrder.literal (lit "x") (by decide) (by decide)⟩

/-- C27: constructs nest through the dispatcher with the pending text flushed around them.
For all plain texts `a`, `b`, `c` with `b` not empty (and `c` empty or not), parsing
`*a**b**c*` and serializing the tree gives `<p><i>a<b>b</b>c</i></p>`. -/
theorem bold_nests_in_italic (ro : RangeOrder) (a b c : GoString) (ha : Plain a)
    (hb : Plain b) (hc : Plain c) (hbne : b ≠ []) :
    parseToHtml ro (lit "*" ++ a ++ lit "**" ++ b ++ lit "**" ++ c ++ lit "*")
      = .ok (lit "<p><i>" ++ a ++ lit "<b>" ++ b ++ lit "</b>" ++ c ++ lit "</i></p>") := by
  have hin : lit "*" ++ a ++ lit "**" ++ b ++ lit "**" ++ c ++ lit "*"
      = [] ++ ([42] ++ (a ++ (([42, 42] ++ b ++ [42, 42]) ++ (c ++ 42 :: [])))) := by
    simp [lit]
  have hlen : ([] ++ ([42] ++ (a ++ (([42, 42] ++ b ++ [42, 42]) ++ (c ++ 42 :: []))))).length + 1
      = (a.length + b.length + c.length + 5 + 1) + 1 := by
    simp
    omega
  have hbuild := italic_of_nested_bold ro a b c ha hb hc hbne []
    (a.length + b.length + c.length + 5) (by omega)
  have hid := isIdent_star [] (a ++ (([42, 42] ++ b ++ [42, 42]) ++ (c ++ 42 :: [])))
  have hparse : parse ro ((a.length + b.length + c.length + 5 + 1) + 1)
      (cursor [] ([] ++ ([42] ++ (a ++ (([42, 42] ++ b ++ [42, 42]) ++ (c ++ 42 :: []))))))
      = .ok (.parent .Paragraph (textLeaf [] ++
          [.parent .Italic (textLeaf a ++ [.parent .Bold (textLeaf b)] ++ textLeaf c)])) := by
    rcases hid with hid | hid
    · exact parse_construct_at_end ro [] _ (fun _ h => by simp at h) _ (by simp)
        (by simp [blockType, cursor_ch, isDigit]) (by simp [cursor_ch]) (by simp)
        (by rw [show ([42] ++ (a ++ (([42, 42] ++ b ++ [42, 42]) ++ (c ++ 42 :: []))))
          = 42 :: (a ++ (([42, 42] ++ b ++ [42, 42]) ++ (c ++ 42 :: []))) from rfl, hid]; decide)
        (by rw [show ([42] ++ (a ++ (([42, 42] ++ b ++ [42, 42]) ++ (c ++ 42 :: []))))
          = 42 :: (a ++ (([42, 42] ++ b ++ [42, 42]) ++ (c ++ 42 :: []))) from rfl, hid]; decide)
        (by rw [show ([42] ++ (a ++ (([42, 42] ++ b ++ [42, 42]) ++ (c ++ 42 :: []))))
          = 42 :: (a ++ (([42, 42] ++ b ++ [42, 42]) ++ (c ++ 42 :: []))) from rfl, hid]; rfl)
        hbuild rfl
    · exact parse_construct_at_end ro [] _ (fun _ h => by simp at h) _ (by simp)
        (by simp [blockType, cursor_ch, isDigit]) (by simp [cursor_ch]) (by simp)
        (by rw [show ([42] ++ (a ++ (([42, 42] ++ b ++ [42, 42]) ++ (c ++ 42 :: []))))
          = 42 :: (a ++ (([42, 42] ++ b ++ [42, 42]) ++ (c ++ 42 :: []))) from rfl, hid]; decide)
        (by rw [show ([42] ++ (a ++ (([42, 42] ++ b ++ [42, 42]) ++ (c ++ 42 :: []))))
          = 42 :: (a ++ (([42, 42] ++ b ++ [42, 42]) ++ (c ++ 42 :: []))) from rfl, hid]; decide)
        (by rw [show ([42] ++ (a ++ (([42, 42] ++ b ++ [42, 42]) ++ (c ++ 42 :: []))))
          = 42 :: (a ++ (([42, 42] ++ b ++ [42, 42]) ++ (c ++ 42 :: []))) from rfl, hid]; rfl)
        hbuild rfl
  unfold parseToHtml parseInput
  rw [hin, hlen, NewParser_ne (by simp), hparse, show textLeaf ([] : GoString) = [] from rfl]
  simp [HtmlNode.toHtml, childrenToHtml, childrenToHtml_append, childrenToHtml_textLeaf,
    NodeType.tag, lit, Except.bind, bind, pure, Except.pure]

/-- C27 at `a = x`, `b = y` and `c = z`. -/
theorem bold_nests_in_italic_witness :
    Plain (lit "x") ∧ Plain (lit "y") ∧ Plain (lit "z") ∧ lit "y" ≠ [] ∧
      parseToHtml RangeOrder.literal
          (lit "*" ++ lit "x" ++ lit "**" ++ lit "y" ++ lit "**" ++ lit "z" ++ lit "*")
        = .ok (lit "<p><i>" ++ lit "x" ++ lit "<b>" ++ lit "y" ++ lit "</b>" ++ lit "z"
          ++ lit "</i></p>") :=
  ⟨by decide, by decide, by decide, by decide,
    bold_nests_in_italic RangeOrder.literal (lit "x") (lit "y") (lit "z") (by decide) (by decide)
      (by decide) (by decide)⟩

/-- C28: for every input, `parse` returns a tree whose root is a Parent of kind Paragraph,
Quote, UnorderedList, OrderedList or Heading1..Heading6, in which no node has kind Escaped
or Div and every Leaf has kind PlainText, Image or Link. -/
theorem tree_kinds (ro : RangeOrder) (input : GoString) :
    ∃ (kind : NodeType) (children : List HtmlNode),
      parseInput ro input = .ok (.parent kind children) ∧ rootKind kind = true ∧
        kind ≠ .Escaped ∧ kind ≠ .Div ∧
        childrenKindsOk children = true ∧ (HtmlNode.parent kind children).kindsOk = true := by
  obtain ⟨node, hnode, -⟩ := parseInput_returns ro input
  obtain ⟨children, rfl, hc⟩ := parse_kinds ro _ _ hnode
  have hr := rootKind_blockType input
  refine ⟨_, children, hnode, hr, ?_, ?_, hc, ?_⟩
  · intro h
    rw [h] at hr
    exact absurd hr (by decide)
  · intro h
    rw [h] at hr
    exact absurd hr (by decide)
  · generalize blockType (NewParser input) = k at hr
    cases k <;> first | exact absurd hr (by decide) | exact hc

end MarkdownParser
